import Mathlib

/-!
# Movie recommendation system

A shallow embedding of `movie_recommendation_system.cpp` and the properties of its two
recommenders.

Modelling conventions:

* a C++ `double` (rating, similarity, composite score) is the rational number it denotes,
  and every arithmetic operation on doubles is rounded once to the nearest double, ties to
  the even significand (IEEE 754 binary64, no fused multiply-add); comparisons are exact;
  infinities and NaN are not modelled, and no operation of the program overflows while the
  ratings lie in [0, 10];
* a C++ `int` position is a natural number, a C++ `int` count argument (`topN`) is an
  integer;
* `std::vector` is a list, `std::map<string, V>` is an association list read through
  `find` and written through `operator[]`;
* an element access `v[i]` of a query is an `Option`: `none` stands for an access outside
  the vector;
* `std::sort` is a parameter: any function that returns a permutation of its input in
  which no later element is ordered before an earlier one by the comparator.
-/

namespace MovieRec

/-! ## Double-precision arithmetic -/

namespace Binary64

/-- The integer nearest to `y`; a value halfway between two integers goes to the even
one. With `f` the quotient and `r` the remainder of the numerator by the denominator, the
fraction `y - f` is `r / den`. -/
def roundHalfEven (y : ℚ) : Int :=
  let f := y.num / (y.den : Int)
  let r := y.num % (y.den : Int)
  if 2 * r < (y.den : Int) then f
  else if (y.den : Int) < 2 * r then f + 1
  else if f % 2 = 0 then f else f + 1

/-- The binary logarithm, rounded down, of a positive natural number below
`2 ^ (2 ^ k)`: the bits are found from the highest on, `k` steps. -/
def log2Below : Nat → Nat → Nat
  | 0, _ => 0
  | k + 1, n =>
    if 2 ^ 2 ^ k ≤ n then 2 ^ k + log2Below k (n / 2 ^ 2 ^ k) else log2Below k n

/-- The least `j` from `k` on with `n < 2 ^ (2 ^ j)`, found in at most `fuel` steps. -/
def bitBound : Nat → Nat → Nat → Nat
  | 0, k, _ => k
  | fuel + 1, k, n => if n < 2 ^ 2 ^ k then k else bitBound fuel (k + 1) n

/-- The binary logarithm of a positive natural number, rounded down. -/
def log2 (n : Nat) : Nat := log2Below (bitBound n 0 n) n

/-- The binary exponent of a positive rational number: the integer `e` with
`2 ^ e ≤ x < 2 ^ (e + 1)`. -/
def exponent (x : ℚ) : Int :=
  let e0 : Int := (log2 x.num.natAbs : Int) - (log2 x.den : Int)
  if (2 : ℚ) ^ e0 ≤ x then e0 else e0 - 1

/-- The distance between neighbouring doubles at `x`: `2 ^ (e - 52)` for
`2 ^ e ≤ x < 2 ^ (e + 1)`, and `2 ^ (-1074)` below `2 ^ (-1022)`. -/
def quantum (x : ℚ) : ℚ := (2 : ℚ) ^ (max (exponent x) (-1022) - 52)

/-- The double nearest to a rational number that is not negative. -/
def roundPos (x : ℚ) : ℚ := (roundHalfEven (x / quantum x) : ℚ) * quantum x

/-- The double nearest to a rational number, ties to the even significand. -/
def round (x : ℚ) : ℚ := if x < 0 then -roundPos (-x) else roundPos x

/-- The value of a decimal literal such as `0.3` in the C++ text. -/
def lit (x : ℚ) : ℚ := round x

/-- The operator `+` on doubles. -/
def add (a b : ℚ) : ℚ := round (a + b)

/-- The operator `-` on doubles. -/
def sub (a b : ℚ) : ℚ := round (a - b)

/-- The operator `*` on doubles. -/
def mul (a b : ℚ) : ℚ := round (a * b)

/-- The operator `/` on doubles. -/
def div (a b : ℚ) : ℚ := round (a / b)

/-- A running total: the doubles of a list added one after the other to 0.0. -/
def sum (l : List ℚ) : ℚ := l.foldl add 0

end Binary64

/-! ## Data model -/

/-- The class `Movie` of the source; the rating is a double. -/
structure Movie where
  id : Int
  title : String
  genre : String
  actor : String
  rating : ℚ
  industry : String
deriving DecidableEq

/-- The constructor `Movie()` of the source: id 0, empty strings, rating 0. -/
def defaultMovie : Movie := Movie.mk 0 "" "" "" 0 ""

instance : Inhabited Movie := ⟨defaultMovie⟩

/-- The function `compareByRating` of the source: the first components are compared
with `>`. -/
def compareByRating (a b : ℚ × Nat) : Bool := decide (a.1 > b.1)

/-! ## Similarity -/

/-- The method `GraphBasedRecommender::calculateSimilarity` of the source. -/
def calculateSimilarity (m1 m2 : Movie) : ℚ :=
  let similarity : ℚ := Binary64.lit 0.0
  let similarity :=
    if m1.genre = m2.genre then Binary64.add similarity (Binary64.lit 0.3) else similarity
  let similarity :=
    if m1.actor = m2.actor then Binary64.add similarity (Binary64.lit 0.3) else similarity
  let similarity :=
    if m1.industry = m2.industry then Binary64.add similarity (Binary64.lit 0.2) else similarity
  let ratingDiff := Binary64.div |Binary64.sub m1.rating m2.rating| (Binary64.lit 10.0)
  Binary64.add similarity
    (Binary64.mul (Binary64.lit 0.2) (Binary64.sub (Binary64.lit 1.0) ratingDiff))

/-- The last term of the similarity as the code computes it, `0.2 * (1.0 - ratingDiff)`
with `ratingDiff = fabs(rating1 - rating2) / 10.0`. -/
def ratingTerm (r1 r2 : ℚ) : ℚ :=
  Binary64.mul (Binary64.lit 0.2)
    (Binary64.sub (Binary64.lit 1.0) (Binary64.div |Binary64.sub r1 r2| (Binary64.lit 10.0)))

/-- The weights of the attributes on which two movies agree, added as numbers: 0.3 for
the genre, 0.3 for the actor, 0.2 for the industry. -/
def sharedWeight (m1 m2 : Movie) : ℚ :=
  (if m1.genre = m2.genre then 0.3 else 0) + (if m1.actor = m2.actor then 0.3 else 0)
    + (if m1.industry = m2.industry then 0.2 else 0)

/-- The similarity in the words of the specification, evaluated without rounding: the
shared weights plus `0.2 * (1 - |rating1 - rating2| / 10)`. -/
def exactSimilarity (m1 m2 : Movie) : ℚ :=
  sharedWeight m1 m2 + 0.2 * (1 - |m1.rating - m2.rating| / 10)

/-- The first movie of the sample catalog. -/
def inception : Movie :=
  Movie.mk 1 "Inception" "Sci-Fi" "Leonardo DiCaprio" (Binary64.lit 8.8) "Hollywood"

/-- The second movie of the sample catalog. -/
def interstellar : Movie :=
  Movie.mk 2 "Interstellar" "Sci-Fi" "Matthew McConaughey" (Binary64.lit 8.6) "Hollywood"

/-- The fifth movie of the sample catalog. -/
def bladeRunner2049 : Movie :=
  Movie.mk 5 "Blade Runner 2049" "Sci-Fi" "Ryan Gosling" (Binary64.lit 8.0) "Hollywood"

/-- The ninth movie of the sample catalog; it shares genre, industry and rating with the
fifth. -/
def theMartian : Movie :=
  Movie.mk 9 "The Martian" "Sci-Fi" "Matt Damon" (Binary64.lit 8.0) "Hollywood"

/-- The third movie of the sample catalog. -/
def matrixSciFi : Movie :=
  Movie.mk 3 "The Matrix" "Sci-Fi" "Keanu Reeves" (Binary64.lit 8.7) "Hollywood"

/-- The fourteenth movie of the sample catalog. -/
def theDarkKnight : Movie :=
  Movie.mk 14 "The Dark Knight" "Action" "Christian Bale" (Binary64.lit 9.0) "Hollywood"

/-- The twenty-second movie of the sample catalog; it carries the title of the third. -/
def matrixAction : Movie :=
  Movie.mk 22 "The Matrix" "Action" "Keanu Reeves" (Binary64.lit 8.7) "Hollywood"

/-- The movie of the sample catalog with identifier 64. -/
def dunkirk : Movie := Movie.mk 64 "Dunkirk" "War" "Tom Hardy" (Binary64.lit 7.9) "Hollywood"

/-- The movie of the sample catalog with identifier 69. -/
def platoon : Movie :=
  Movie.mk 69 "Platoon" "War" "Charlie Sheen" (Binary64.lit 8.1) "Hollywood"

/-- The movie of the sample catalog with identifier 70. -/
def blackHawkDown : Movie :=
  Movie.mk 70 "Black Hawk Down" "War" "Josh Hartnett" (Binary64.lit 7.7) "Hollywood"

/-- The movie of the sample catalog with identifier 73. -/
def hacksawRidge : Movie :=
  Movie.mk 73 "Hacksaw Ridge" "War" "Andrew Garfield" (Binary64.lit 8.1) "Hollywood"

/-- The movie of the sample catalog with identifier 17. -/
def madMax : Movie :=
  Movie.mk 17 "Mad Max: Fury Road" "Action" "Tom Hardy" (Binary64.lit 8.1) "Hollywood"

/-- The ten Hollywood war movies of the sample catalog, identifiers 64 to 73, in catalog
order. -/
def warCatalog : List Movie :=
  [dunkirk,
    Movie.mk 65 "Saving Private Ryan" "War" "Tom Hanks" (Binary64.lit 8.6) "Hollywood",
    Movie.mk 66 "1917" "War" "George MacKay" (Binary64.lit 8.3) "Hollywood",
    Movie.mk 67 "Apocalypse Now" "War" "Martin Sheen" (Binary64.lit 8.4) "Hollywood",
    Movie.mk 68 "Full Metal Jacket" "War" "Matthew Modine" (Binary64.lit 8.3) "Hollywood",
    platoon,
    blackHawkDown,
    Movie.mk 71 "The Hurt Locker" "War" "Jeremy Renner" (Binary64.lit 7.5) "Hollywood",
    Movie.mk 72 "American Sniper" "War" "Bradley Cooper" (Binary64.lit 7.3) "Hollywood",
    hacksawRidge]

/-- A movie with rating 0 that shares no attribute with `unrelatedOne`. -/
def unrelatedZero : Movie := Movie.mk 1 "Zero" "Drama" "Nobody" 0 "Hollywood"

/-- A movie with rating 1 that shares no attribute with `unrelatedZero`. -/
def unrelatedOne : Movie := Movie.mk 2 "One" "Comedy" "Somebody" 1 "Bollywood"

/-- A movie with rating 10. -/
def ratedTen : Movie := Movie.mk 1 "Ten" "Drama" "Nobody" 10 "Hollywood"

/-- A movie with rating `2 ^ (-60)` that shares the industry with `ratedTen` and nothing
else. -/
def ratedTiny : Movie := Movie.mk 2 "Tiny" "Comedy" "Somebody" (1 / 2 ^ 60) "Hollywood"

/-- A record with an empty title and a rating above 10. -/
def malformedMovie : Movie := Movie.mk 1 "" "Sci-Fi" "Nobody" 11 "Hollywood"

/-! ## Containers -/

/-- A `std::map` keyed by strings, as an association list. The source reads it through
`find` and writes it through `operator[]` only. -/
abbrev StrMap (V : Type) := List (String × V)

/-- The call `m.find(k)`: the value stored under `k`, or `none` for `m.end()`. -/
def StrMap.find {V : Type} : StrMap V → String → Option V
  | [], _ => none
  | (k', v) :: rest, k => if k' = k then some v else StrMap.find rest k

/-- The statement `m[k].push_back(x)`; `operator[]` creates an empty bucket for a new key. -/
def StrMap.pushBack : StrMap (List Nat) → String → Nat → StrMap (List Nat)
  | [], k, x => [(k, [x])]
  | (k', v) :: rest, k, x =>
    if k' = k then (k', v ++ [x]) :: rest else (k', v) :: StrMap.pushBack rest k x

/-- The statement `m[k] = x`. -/
def StrMap.assign {V : Type} : StrMap V → String → V → StrMap V
  | [], k, x => [(k, x)]
  | (k', v) :: rest, k, x =>
    if k' = k then (k', x) :: rest else (k', v) :: StrMap.assign rest k x

/-- The statement `rows[i].push_back(e)` on a vector of vectors. -/
def pushAt : List (List (Nat × ℚ)) → Nat → Nat × ℚ → List (List (Nat × ℚ))
  | [], _, _ => []
  | row :: rows, 0, e => (row ++ [e]) :: rows
  | row :: rows, i + 1, e => row :: pushAt rows i e

/-- The positions of the catalog, in increasing order, whose movie satisfies `p`. -/
def positionsOf (p : Movie → Bool) (movies : List Movie) : List Nat :=
  (List.range movies.length).filter (fun i => p (movies.getD i defaultMovie))

/-- The pairs `(rating, position)` of the positions whose movie satisfies `p`, in catalog
order: the contents of `ratingPairs` when the sort is called. -/
def ratingPairsSpec (p : Movie → Bool) (movies : List Movie) : List (ℚ × Nat) :=
  (positionsOf p movies).map (fun i => ((movies.getD i defaultMovie).rating, i))

/-- The list `seen` followed by the strings of the second list that are new, each at its
first occurrence: the contents of `genres` when the loop of `getGenresByIndustry` has seen
the genres of the second list. -/
def appendNew : List String → List String → List String
  | seen, [] => seen
  | seen, g :: rest => if g ∈ seen then appendNew seen rest else appendNew (seen ++ [g]) rest

/-! ## Sorting -/

/-- The contract of `std::sort(first, last, compareByRating)`: the result is a permutation
of the input, and no element is ordered by the comparator before one that precedes it. The
relative order of elements that compare equivalent is left open, as in the C++ standard. -/
def IsStdSort (sort : List (ℚ × Nat) → List (ℚ × Nat)) : Prop :=
  ∀ l, (sort l).Perm l ∧ (sort l).Pairwise (fun a b => compareByRating b a = false)

/-- A sort that meets the contract and keeps equivalent elements in input order. -/
def stableSort (l : List (ℚ × Nat)) : List (ℚ × Nat) :=
  l.insertionSort (fun a b => b.1 ≤ a.1)

/-- A sort that meets the contract and returns equivalent elements in reverse input
order. -/
def tiesReversedSort (l : List (ℚ × Nat)) : List (ℚ × Nat) :=
  l.reverse.insertionSort (fun a b => b.1 ≤ a.1)

/-! ### One implementation of `std::sort`

The functions of GNU libstdc++ (`bits/stl_algo.h`, `bits/stl_heap.h`) behind `std::sort`,
on a vector of pairs with the comparator `compareByRating`. Iterators are positions in the
vector. Loops without a bound in the C++ text carry a fuel argument and yield `none` when
it runs out. -/

namespace Libstdcxx

/-- The element `*(begin + i)`; the default is read only outside the vector. -/
def elem (v : List (ℚ × Nat)) (i : Nat) : ℚ × Nat := v.getD i (0, 0)

/-- The call `std::iter_swap(begin + i, begin + j)`. -/
def iterSwap (v : List (ℚ × Nat)) (i j : Nat) : List (ℚ × Nat) :=
  (v.set i (elem v j)).set j (elem v i)

/-- The function `__move_median_to_first(result, a, b, c, comp)`. -/
def moveMedianToFirst (v : List (ℚ × Nat)) (result a b c : Nat) : List (ℚ × Nat) :=
  if compareByRating (elem v a) (elem v b) then
    if compareByRating (elem v b) (elem v c) then iterSwap v result b
    else if compareByRating (elem v a) (elem v c) then iterSwap v result c
    else iterSwap v result a
  else if compareByRating (elem v a) (elem v c) then iterSwap v result a
  else if compareByRating (elem v b) (elem v c) then iterSwap v result c
  else iterSwap v result b

/-- The loop `while (comp(first, pivot)) ++first;`, `none` when the fuel runs out. -/
def scanUp (v : List (ℚ × Nat)) (pivot : Nat) : Nat → Nat → Option Nat
  | 0, _ => none
  | fuel + 1, first =>
    if compareByRating (elem v first) (elem v pivot) then scanUp v pivot fuel (first + 1)
    else some first

/-- The loop `while (comp(pivot, last)) --last;`, `none` when the fuel runs out or the
iterator would leave the vector. -/
def scanDown (v : List (ℚ × Nat)) (pivot : Nat) : Nat → Nat → Option Nat
  | 0, _ => none
  | fuel + 1, last =>
    if compareByRating (elem v pivot) (elem v last) then
      if last = 0 then none else scanDown v pivot fuel (last - 1)
    else some last

/-- The function `__unguarded_partition(first, last, pivot, comp)`: the vector after the
swaps and the returned cut. -/
def unguardedPartition (pivot : Nat) :
    Nat → List (ℚ × Nat) → Nat → Nat → Option (List (ℚ × Nat) × Nat)
  | 0, _, _, _ => none
  | fuel + 1, v, first, last =>
    match scanUp v pivot (v.length + 1) first with
    | none => none
    | some first =>
      if last = 0 then none
      else
        match scanDown v pivot (v.length + 1) (last - 1) with
        | none => none
        | some last =>
          if first < last then unguardedPartition pivot fuel (iterSwap v first last) (first + 1) last
          else some (v, first)

/-- The function `__unguarded_partition_pivot(first, last, comp)`. -/
def unguardedPartitionPivot (v : List (ℚ × Nat)) (first last : Nat) :
    Option (List (ℚ × Nat) × Nat) :=
  let mid := first + (last - first) / 2
  unguardedPartition first (v.length + 1)
    (moveMedianToFirst v first (first + 1) mid (last - 1)) (first + 1) last

/-- The function `__push_heap(first, holeIndex, topIndex, value, comp)` of
`bits/stl_heap.h`. -/
def pushHeap (first topIndex : Nat) (value : ℚ × Nat) :
    Nat → List (ℚ × Nat) → Nat → Option (List (ℚ × Nat))
  | 0, _, _ => none
  | fuel + 1, v, holeIndex =>
    let parent := (holeIndex - 1) / 2
    if holeIndex > topIndex ∧ compareByRating (elem v (first + parent)) value = true then
      pushHeap first topIndex value fuel
        (v.set (first + holeIndex) (elem v (first + parent))) parent
    else some (v.set (first + holeIndex) value)

/-- The loop of `__adjust_heap` that moves the hole down to a leaf: the vector, the hole
and `secondChild` when the loop ends. -/
def adjustHeapLoop (first len : Nat) :
    Nat → List (ℚ × Nat) → Nat → Nat → Option (List (ℚ × Nat) × Nat × Nat)
  | 0, _, _, _ => none
  | fuel + 1, v, holeIndex, secondChild =>
    if secondChild < (len - 1) / 2 then
      let child := 2 * (secondChild + 1)
      let child :=
        if compareByRating (elem v (first + child)) (elem v (first + (child - 1))) then
          child - 1
        else child
      adjustHeapLoop first len fuel (v.set (first + holeIndex) (elem v (first + child)))
        child child
    else some (v, holeIndex, secondChild)

/-- The function `__adjust_heap(first, holeIndex, len, value, comp)`. -/
def adjustHeap (v : List (ℚ × Nat)) (first holeIndex len : Nat) (value : ℚ × Nat) :
    Option (List (ℚ × Nat)) :=
  match adjustHeapLoop first len (len + 1) v holeIndex holeIndex with
  | none => none
  | some (v1, hole, secondChild) =>
    if len % 2 = 0 ∧ secondChild = (len - 2) / 2 then
      let child := 2 * (secondChild + 1)
      pushHeap first holeIndex value (len + 1)
        (v1.set (first + hole) (elem v1 (first + (child - 1)))) (child - 1)
    else pushHeap first holeIndex value (len + 1) v1 hole

/-- The function `__pop_heap(first, last, result, comp)`. -/
def popHeap (v : List (ℚ × Nat)) (first last result : Nat) : Option (List (ℚ × Nat)) :=
  adjustHeap (v.set result (elem v first)) first 0 (last - first) (elem v result)

/-- The loop of `__make_heap` from the last parent down to the root. -/
def makeHeapLoop (first len : Nat) : Nat → List (ℚ × Nat) → Nat → Option (List (ℚ × Nat))
  | 0, _, _ => none
  | fuel + 1, v, parent =>
    match adjustHeap v first parent len (elem v (first + parent)) with
    | none => none
    | some v1 => if parent = 0 then some v1 else makeHeapLoop first len fuel v1 (parent - 1)

/-- The function `__make_heap(first, last, comp)`. -/
def makeHeap (v : List (ℚ × Nat)) (first last : Nat) : Option (List (ℚ × Nat)) :=
  if last - first < 2 then some v
  else makeHeapLoop first (last - first) (last - first + 1) v ((last - first - 2) / 2)

/-- The function `__sort_heap(first, last, comp)`. -/
def sortHeap : Nat → List (ℚ × Nat) → Nat → Nat → Option (List (ℚ × Nat))
  | 0, _, _, _ => none
  | fuel + 1, v, first, last =>
    if last - first > 1 then
      match popHeap v first (last - 1) (last - 1) with
      | none => none
      | some v1 => sortHeap fuel v1 first (last - 1)
    else some v

/-- The call `__partial_sort(first, last, last, comp)` of the heap-sort branch:
`__heap_select(first, last, last, comp)`, which is `__make_heap(first, last, comp)`
followed by an empty loop, and then `__sort_heap(first, last, comp)`. -/
def heapSort (v : List (ℚ × Nat)) (first last : Nat) : Option (List (ℚ × Nat)) :=
  match makeHeap v first last with
  | none => none
  | some v1 => sortHeap (last - first + 1) v1 first last

/-- The function `__introsort_loop(first, last, depth_limit, comp)`; at depth limit 0 the
range is sorted as a heap. -/
def introsortLoop : Nat → List (ℚ × Nat) → Nat → Nat → Nat → Option (List (ℚ × Nat))
  | 0, _, _, _, _ => none
  | fuel + 1, v, first, last, depthLimit =>
    if last - first > 16 then
      if depthLimit = 0 then heapSort v first last
      else
        match unguardedPartitionPivot v first last with
        | none => none
        | some (v1, cut) =>
          match introsortLoop fuel v1 cut last (depthLimit - 1) with
          | none => none
          | some v2 => introsortLoop fuel v2 first cut (depthLimit - 1)
    else some v

/-- The function `__unguarded_linear_insert(last, comp)` with the value `val` taken from
`*last`. -/
def unguardedLinearInsert (val : ℚ × Nat) :
    Nat → List (ℚ × Nat) → Nat → Option (List (ℚ × Nat))
  | 0, _, _ => none
  | fuel + 1, v, last =>
    if last = 0 then none
    else if compareByRating val (elem v (last - 1)) then
      unguardedLinearInsert val fuel (v.set last (elem v (last - 1))) (last - 1)
    else some (v.set last val)

/-- The body of the loop of `__insertion_sort(first, last, comp)` for the iterator `i`. -/
def insertionStep (first : Nat) (v : List (ℚ × Nat)) (i : Nat) : Option (List (ℚ × Nat)) :=
  if compareByRating (elem v i) (elem v first) then
    some (v.take first ++ elem v i :: (v.take i).drop first ++ v.drop (i + 1))
  else unguardedLinearInsert (elem v i) (v.length + 1) v i

/-- A loop `for (i = from; i != last; ++i) v = body(v, i)` over `count` iterators. -/
def forEachIter (body : List (ℚ × Nat) → Nat → Option (List (ℚ × Nat))) :
    Nat → Nat → List (ℚ × Nat) → Option (List (ℚ × Nat))
  | 0, _, v => some v
  | count + 1, i, v =>
    match body v i with
    | none => none
    | some v1 => forEachIter body count (i + 1) v1

/-- The function `__insertion_sort(first, last, comp)`. -/
def insertionSort (v : List (ℚ × Nat)) (first last : Nat) : Option (List (ℚ × Nat)) :=
  if first = last then some v
  else forEachIter (insertionStep first) (last - (first + 1)) (first + 1) v

/-- The function `__unguarded_insertion_sort(first, last, comp)`. -/
def unguardedInsertionSort (v : List (ℚ × Nat)) (first last : Nat) :
    Option (List (ℚ × Nat)) :=
  forEachIter (fun w i => unguardedLinearInsert (elem w i) (w.length + 1) w i)
    (last - first) first v

/-- The function `__final_insertion_sort(first, last, comp)`. -/
def finalInsertionSort (v : List (ℚ × Nat)) (first last : Nat) : Option (List (ℚ × Nat)) :=
  if last - first > 16 then
    match insertionSort v first (first + 16) with
    | none => none
    | some v1 => unguardedInsertionSort v1 (first + 16) last
  else insertionSort v first last

/-- The function `std::sort(v.begin(), v.end(), compareByRating)` of GNU libstdc++. -/
def sort (v : List (ℚ × Nat)) : Option (List (ℚ × Nat)) :=
  if v.length = 0 then some v
  else
    match introsortLoop (v.length + 1) v 0 v.length (Nat.log2 v.length * 2) with
    | none => none
    | some v1 => finalInsertionSort v1 0 v.length

end Libstdcxx

/-- The sort of GNU libstdc++ as a function on vectors; the vector is returned as it is
where the model above yields no result. -/
def gnuSort (v : List (ℚ × Nat)) : List (ℚ × Nat) := (Libstdcxx.sort v).getD v

/-- A catalog of seventeen movies of one genre and industry with one rating; the movie at
position `i` has identifier `i + 1`. -/
def tiedCatalog : List Movie :=
  (List.range 17).map (fun i =>
    Movie.mk ((i : Int) + 1) "Tie" "Sci-Fi" "Nobody" (Binary64.lit 8.0) "Hollywood")

/-- The movies at the given positions, `none` when a position is outside the vector. -/
def moviesAt (movies : List Movie) : List Nat → Option (List Movie)
  | [] => some []
  | idx :: rest =>
    match movies[idx]?, moviesAt movies rest with
    | some m, some ms => some (m :: ms)
    | _, _ => none

/-- The closing loop of every recommender:
`for (i = 0; i < min(topN, (int)pairs.size()); i++) out.push_back(movies[pairs[i].second])`. -/
def takeTopN (movies : List Movie) (topN : Int) (pairs : List (ℚ × Nat)) :
    Option (List Movie) :=
  moviesAt movies ((pairs.take (min topN (pairs.length : Int)).toNat).map Prod.snd)

/-! ## Content-based recommender -/

/-- The private fields of `ContentBasedRecommender`. -/
structure ContentBasedRecommender where
  movies : List Movie
  genreToMovies : StrMap (List Nat)
  actorToMovies : StrMap (List Nat)
  industryToMovies : StrMap (List Nat)

namespace ContentBasedRecommender

/-- A freshly constructed recommender. -/
def empty : ContentBasedRecommender := mk [] [] [] []

/-- The method `ContentBasedRecommender::addMovie`. -/
def addMovie (r : ContentBasedRecommender) (movie : Movie) : ContentBasedRecommender :=
  let index := r.movies.length
  mk (r.movies ++ [movie])
    (StrMap.pushBack r.genreToMovies movie.genre index)
    (StrMap.pushBack r.actorToMovies movie.actor index)
    (StrMap.pushBack r.industryToMovies movie.industry index)

/-- The recommender after `addMovie` on every movie of the catalog, in order. -/
def ofCatalog (catalog : List Movie) : ContentBasedRecommender :=
  catalog.foldl addMovie empty

/-- The loop that scans a genre bucket and keeps `(rating, idx)` for the movies of the
industry. -/
def ratingPairsOf (movies : List Movie) (industry : String) :
    List Nat → Option (List (ℚ × Nat))
  | [] => some []
  | idx :: rest =>
    match movies[idx]?, ratingPairsOf movies industry rest with
    | some m, some pairs =>
      if m.industry = industry then some ((m.rating, idx) :: pairs) else some pairs
    | _, _ => none

/-- The method `ContentBasedRecommender::recommendByGenreAndIndustry`. -/
def recommendByGenreAndIndustry (sort : List (ℚ × Nat) → List (ℚ × Nat))
    (r : ContentBasedRecommender) (genre industry : String) (topN : Int) :
    Option (List Movie) :=
  match StrMap.find r.genreToMovies genre with
  | none => some []
  | some genreMovies =>
    match ratingPairsOf r.movies industry genreMovies with
    | none => none
    | some ratingPairs => takeTopN r.movies topN (sort ratingPairs)

/-- The loop of `findMovieIndex` from position `i` on: the first position whose title is
`movieTitle`, or -1. -/
def findMovieIndexFrom (movieTitle : String) : List Movie → Nat → Int
  | [], _ => -1
  | m :: rest, i =>
    if m.title = movieTitle then (i : Int) else findMovieIndexFrom movieTitle rest (i + 1)

/-- The method `ContentBasedRecommender::findMovieIndex`. -/
def findMovieIndex (r : ContentBasedRecommender) (movieTitle : String) : Int :=
  findMovieIndexFrom movieTitle r.movies 0

/-- The loop of `getGenresByIndustry` over the industry bucket, with the map `genreExists`
and the vector `genres` built so far. -/
def genresLoop (movies : List Movie) :
    List Nat → StrMap Bool → List String → Option (List String)
  | [], _, genres => some genres
  | idx :: rest, genreExists, genres =>
    match movies[idx]? with
    | none => none
    | some m =>
      if (StrMap.find genreExists m.genre).getD false then
        genresLoop movies rest genreExists genres
      else genresLoop movies rest (StrMap.assign genreExists m.genre true) (genres ++ [m.genre])

/-- The method `ContentBasedRecommender::getGenresByIndustry`. -/
def getGenresByIndustry (r : ContentBasedRecommender) (industry : String) :
    Option (List String) :=
  match StrMap.find r.industryToMovies industry with
  | none => some []
  | some industryMovieIndices => genresLoop r.movies industryMovieIndices [] []

/-- The loop of `getMoviesByGenreAndIndustry` over the genre bucket. -/
def moviesOfIndustry (movies : List Movie) (industry : String) :
    List Nat → Option (List Movie)
  | [] => some []
  | idx :: rest =>
    match movies[idx]?, moviesOfIndustry movies industry rest with
    | some m, some result => if m.industry = industry then some (m :: result) else some result
    | _, _ => none

/-- The method `ContentBasedRecommender::getMoviesByGenreAndIndustry`. -/
def getMoviesByGenreAndIndustry (r : ContentBasedRecommender) (genre industry : String) :
    Option (List Movie) :=
  match StrMap.find r.genreToMovies genre with
  | none => some []
  | some genreMovies => moviesOfIndustry r.movies industry genreMovies

/-- The loop of `recommendByActor` over the actor bucket. -/
def actorRatingPairs (movies : List Movie) : List Nat → Option (List (ℚ × Nat))
  | [] => some []
  | idx :: rest =>
    match movies[idx]?, actorRatingPairs movies rest with
    | some m, some pairs => some ((m.rating, idx) :: pairs)
    | _, _ => none

/-- The method `ContentBasedRecommender::recommendByActor`. -/
def recommendByActor (sort : List (ℚ × Nat) → List (ℚ × Nat))
    (r : ContentBasedRecommender) (actor : String) (topN : Int) : Option (List Movie) :=
  match StrMap.find r.actorToMovies actor with
  | none => some []
  | some actorMovies =>
    match actorRatingPairs r.movies actorMovies with
    | none => none
    | some ratingPairs => takeTopN r.movies topN (sort ratingPairs)

/-- The method `ContentBasedRecommender::getMovieByTitle`. -/
def getMovieByTitle (r : ContentBasedRecommender) (title : String) : Option Movie :=
  let idx := findMovieIndex r title
  if idx ≠ -1 then r.movies[idx.toNat]? else some defaultMovie

end ContentBasedRecommender

/-! ## Graph-based recommender -/

/-- The private fields of `GraphBasedRecommender`. -/
structure GraphBasedRecommender where
  movies : List Movie
  adjList : List (List (Nat × ℚ))
  titleToId : StrMap Nat
  genreToMovies : StrMap (List Nat)

namespace GraphBasedRecommender

/-- A freshly constructed recommender. -/
def empty : GraphBasedRecommender := mk [] [] [] []

/-- The method `GraphBasedRecommender::addMovie`. -/
def addMovie (g : GraphBasedRecommender) (movie : Movie) : GraphBasedRecommender :=
  let id := g.movies.length
  mk (g.movies ++ [movie]) g.adjList
    (StrMap.assign g.titleToId movie.title id)
    (StrMap.pushBack g.genreToMovies movie.genre id)

/-- The body of the inner loop of `buildSimilarityGraph` for the pair `(i, j)`. Both
positions are below `movies.size()` by the loop bounds, so the default is never read. -/
def addEdge (movies : List Movie) (i : Nat) (adj : List (List (Nat × ℚ))) (j : Nat) :
    List (List (Nat × ℚ)) :=
  let similarity := calculateSimilarity (movies.getD i defaultMovie) (movies.getD j defaultMovie)
  if similarity > Binary64.lit 0.2 then pushAt (pushAt adj i (j, similarity)) j (i, similarity)
  else adj

/-- The inner loop of `buildSimilarityGraph`: `for (j = i + 1; j < movies.size(); j++)`. -/
def buildRow (movies : List Movie) (adj : List (List (Nat × ℚ))) (i : Nat) :
    List (List (Nat × ℚ)) :=
  (List.range' (i + 1) (movies.length - (i + 1))).foldl (addEdge movies i) adj

/-- The adjacency lists computed by `buildSimilarityGraph`: cleared, resized to one empty
list per movie, then filled by the two nested loops. -/
def buildAdj (movies : List Movie) : List (List (Nat × ℚ)) :=
  (List.range movies.length).foldl (buildRow movies) (List.replicate movies.length [])

/-- The method `GraphBasedRecommender::buildSimilarityGraph`. -/
def buildSimilarityGraph (g : GraphBasedRecommender) : GraphBasedRecommender :=
  mk g.movies (buildAdj g.movies) g.titleToId g.genreToMovies

/-- The recommender after `addMovie` on every movie of the catalog, in order, followed by
`buildSimilarityGraph`. -/
def ofCatalog (catalog : List Movie) : GraphBasedRecommender :=
  buildSimilarityGraph (catalog.foldl addMovie empty)

/-- The loop of `recommendByGenreGraph` that keeps the positions of the genre bucket whose
movie is of the industry. -/
def industryFilter (movies : List Movie) (industry : String) : List Nat → Option (List Nat)
  | [] => some []
  | movieId :: rest =>
    match movies[movieId]?, industryFilter movies industry rest with
    | some m, some kept => if m.industry = industry then some (movieId :: kept) else some kept
    | _, _ => none

/-- The loop of `recommendByGenreGraph` over one adjacency list, with the running
`totalSimilarity` and `similarCount`. -/
def neighbourTotals (movies : List Movie) (genre industry : String) :
    List (Nat × ℚ) → ℚ → Nat → Option (ℚ × Nat)
  | [], totalSimilarity, similarCount => some (totalSimilarity, similarCount)
  | (neighborId, similarity) :: rest, totalSimilarity, similarCount =>
    match movies[neighborId]? with
    | none => none
    | some m =>
      if m.genre = genre ∧ m.industry = industry then
        neighbourTotals movies genre industry rest (Binary64.add totalSimilarity similarity)
          (similarCount + 1)
      else neighbourTotals movies genre industry rest totalSimilarity similarCount

/-- The loop of `recommendByGenreGraph` that scores every candidate. The count is an
`int`, converted to a double without error. -/
def movieScores (g : GraphBasedRecommender) (genre industry : String) :
    List Nat → Option (List (ℚ × Nat))
  | [] => some []
  | movieId :: rest =>
    match g.adjList[movieId]?, g.movies[movieId]? with
    | some row, some m =>
      match neighbourTotals g.movies genre industry row (Binary64.lit 0.0) 0,
          movieScores g genre industry rest with
      | some (totalSimilarity, similarCount), some scores =>
        let avgSimilarity : ℚ :=
          if similarCount > 0 then Binary64.div totalSimilarity (similarCount : ℚ)
          else Binary64.lit 0.0
        let score := Binary64.add (Binary64.mul m.rating (Binary64.lit 0.6))
          (Binary64.mul avgSimilarity (Binary64.lit 4.0))
        some ((score, movieId) :: scores)
      | _, _ => none
    | _, _ => none

/-- The method `GraphBasedRecommender::recommendByGenreGraph`. -/
def recommendByGenreGraph (sort : List (ℚ × Nat) → List (ℚ × Nat))
    (g : GraphBasedRecommender) (genre industry : String) (topN : Int) :
    Option (List Movie) :=
  match StrMap.find g.genreToMovies genre with
  | none => some []
  | some genreMovies =>
    match industryFilter g.movies industry genreMovies with
    | none => none
    | some industryGenreMovies =>
      if industryGenreMovies = [] then some []
      else
        match movieScores g genre industry industryGenreMovies with
        | none => none
        | some scores => takeTopN g.movies topN (sort scores)

/-- The method `GraphBasedRecommender::findSimilarMovies`. -/
def findSimilarMovies (sort : List (ℚ × Nat) → List (ℚ × Nat))
    (g : GraphBasedRecommender) (movieTitle : String) (topN : Int) : Option (List Movie) :=
  match StrMap.find g.titleToId movieTitle with
  | none => some []
  | some movieId =>
    match g.adjList[movieId]? with
    | none => none
    | some row => takeTopN g.movies topN (sort (row.map (fun e => (e.2, e.1))))

/-- The statements `adjList[row].push_back(entry)` that the body of the inner loop
executes for the pair `(i, j)`, in order, as pairs `(row, entry)`. -/
def edgePushes (movies : List Movie) (i j : Nat) : List (Nat × (Nat × ℚ)) :=
  let similarity := calculateSimilarity (movies.getD i defaultMovie) (movies.getD j defaultMovie)
  if similarity > Binary64.lit 0.2 then [(i, (j, similarity)), (j, (i, similarity))] else []

/-- A sequence of statements `adjList[row].push_back(entry)`. -/
def applyPushes (adj : List (List (Nat × ℚ))) (pushes : List (Nat × (Nat × ℚ))) :
    List (List (Nat × ℚ)) :=
  pushes.foldl (fun a p => pushAt a p.1 p.2) adj

/-- The adjacency list of position `r` in closed form: the other positions whose
similarity to `r` exceeds 0.2, in increasing order, each with that similarity. -/
def neighboursSpec (movies : List Movie) (r : Nat) : List (Nat × ℚ) :=
  ((List.range movies.length).filter (fun j => decide (j ≠ r) &&
      decide (calculateSimilarity (movies.getD r defaultMovie) (movies.getD j defaultMovie)
        > Binary64.lit 0.2))).map
    (fun j => (j, calculateSimilarity (movies.getD r defaultMovie) (movies.getD j defaultMovie)))

/-- The composite score of position `i` in the words of the specification:
`rating * 0.6 + avg * 4.0`, where `avg` is the arithmetic mean of the stored similarity
scores of those graph neighbours of `i` that have the genre and the industry, or 0 when
there is no such neighbour. The operations are those of doubles; the scores are added in
the order of the adjacency list. -/
def compositeScoreSpec (movies : List Movie) (adj : List (List (Nat × ℚ)))
    (genre industry : String) (i : Nat) : ℚ :=
  let qualifying := (adj.getD i []).filter (fun e =>
    decide ((movies.getD e.1 defaultMovie).genre = genre)
      && decide ((movies.getD e.1 defaultMovie).industry = industry))
  let avg : ℚ :=
    if qualifying = [] then 0
    else Binary64.div (Binary64.sum (qualifying.map Prod.snd)) (qualifying.length : ℚ)
  Binary64.add (Binary64.mul (movies.getD i defaultMovie).rating (Binary64.lit 0.6))
    (Binary64.mul avg (Binary64.lit 4.0))

/-- The composite score of position `i` over its whole group: `rating * 0.6` plus 4.0
times the mean of `calculateSimilarity` to every other catalog movie of the genre and the
industry; the mean is taken as 0 when there is no other such movie. The operations are
those of doubles; the similarities are added in catalog order. -/
def groupScoreSpec (movies : List Movie) (genre industry : String) (i : Nat) : ℚ :=
  let others := (positionsOf
    (fun m => decide (m.genre = genre) && decide (m.industry = industry)) movies).filter
      (fun j => decide (j ≠ i))
  let mean : ℚ :=
    if others = [] then 0
    else Binary64.div (Binary64.sum (others.map (fun j =>
      calculateSimilarity (movies.getD i defaultMovie) (movies.getD j defaultMovie))))
        (others.length : ℚ)
  Binary64.add (Binary64.mul (movies.getD i defaultMovie).rating (Binary64.lit 0.6))
    (Binary64.mul (Binary64.lit 4.0) mean)

/-- A call that changes a `GraphBasedRecommender`. -/
inductive Call where
  | add (movie : Movie)
  | build

/-- The effect of one call. -/
def Call.apply (g : GraphBasedRecommender) : Call → GraphBasedRecommender
  | Call.add movie => g.addMovie movie
  | Call.build => g.buildSimilarityGraph

/-- The recommender after a sequence of calls on a freshly constructed one. -/
def runCalls (calls : List Call) : GraphBasedRecommender :=
  calls.foldl Call.apply empty

/-- The movies that a sequence of calls adds, in order. -/
def addedMovies : List Call → List Movie
  | [] => []
  | Call.add movie :: rest => movie :: addedMovies rest
  | Call.build :: rest => addedMovies rest

end GraphBasedRecommender

/-! ## Properties of the rounding -/

namespace Binary64

theorem roundHalfEven_cases (y : ℚ) :
    (roundHalfEven y = ⌊y⌋ ∧ y - ⌊y⌋ ≤ 1 / 2 ∧ (y - ⌊y⌋ = 1 / 2 → ⌊y⌋ % 2 = 0)) ∨
      (roundHalfEven y = ⌊y⌋ + 1 ∧ 1 / 2 ≤ y - ⌊y⌋ ∧ (y - ⌊y⌋ = 1 / 2 → ⌊y⌋ % 2 ≠ 0)) := by
  have hfl : ⌊y⌋ = y.num / (y.den : Int) := Rat.floor_def
  have hdpos : (0 : ℚ) < (y.den : ℚ) := by exact_mod_cast y.den_pos
  have hfrac : y - ⌊y⌋ = ((y.num % (y.den : Int) : Int) : ℚ) / (y.den : ℚ) := by
    have h1 : y.num = (y.den : Int) * (y.num / (y.den : Int)) + y.num % (y.den : Int) :=
      (Int.ediv_add_emod _ _).symm
    have h2 : (y.num : ℚ) = (y.den : ℚ) * ((y.num / (y.den : Int) : Int) : ℚ)
        + ((y.num % (y.den : Int) : Int) : ℚ) := by exact_mod_cast h1
    have h3 : y = (y.num : ℚ) / (y.den : ℚ) := (Rat.num_div_den y).symm
    rw [hfl]
    nth_rewrite 1 [h3]
    rw [h2]
    field_simp
  have hlt : (2 * (y.num % (y.den : Int)) < (y.den : Int)) ↔ y - ⌊y⌋ < 1 / 2 := by
    rw [hfrac, div_lt_iff₀ hdpos]
    constructor
    · intro h
      have : ((2 * (y.num % (y.den : Int)) : Int) : ℚ) < ((y.den : Int) : ℚ) := by
        exact_mod_cast h
      push_cast at this
      linarith
    · intro h
      have : ((2 * (y.num % (y.den : Int)) : Int) : ℚ) < ((y.den : Int) : ℚ) := by
        push_cast
        linarith
      exact_mod_cast this
  have hgt : ((y.den : Int) < 2 * (y.num % (y.den : Int))) ↔ 1 / 2 < y - ⌊y⌋ := by
    rw [hfrac, lt_div_iff₀ hdpos]
    constructor
    · intro h
      have : ((y.den : Int) : ℚ) < ((2 * (y.num % (y.den : Int)) : Int) : ℚ) := by
        exact_mod_cast h
      push_cast at this
      linarith
    · intro h
      have : ((y.den : Int) : ℚ) < ((2 * (y.num % (y.den : Int)) : Int) : ℚ) := by
        push_cast
        linarith
      exact_mod_cast this
  unfold roundHalfEven
  simp only []
  rw [← hfl]
  split_ifs with h1 h2 h3
  · left
    have := hlt.1 h1
    exact ⟨rfl, le_of_lt this, fun h => absurd h (ne_of_lt this)⟩
  · right
    have := hgt.1 h2
    exact ⟨rfl, le_of_lt this, fun h => absurd h.symm (ne_of_lt this)⟩
  · left
    have : ¬ (1 / 2 < y - ⌊y⌋) := fun h => h2 (hgt.2 h)
    exact ⟨rfl, not_lt.mp this, fun _ => h3⟩
  · right
    have : ¬ (y - ⌊y⌋ < 1 / 2) := fun h => h1 (hlt.2 h)
    exact ⟨rfl, not_lt.mp this, fun _ => h3⟩

theorem roundHalfEven_mono {y z : ℚ} (h : y ≤ z) : roundHalfEven y ≤ roundHalfEven z := by
  have hfl : ⌊y⌋ ≤ ⌊z⌋ := Int.floor_mono h
  rcases lt_or_eq_of_le hfl with hlt | heq
  · rcases roundHalfEven_cases y with ⟨hy, -, -⟩ | ⟨hy, -, -⟩ <;>
      rcases roundHalfEven_cases z with ⟨hz, -, -⟩ | ⟨hz, -, -⟩ <;> omega
  · rcases roundHalfEven_cases y with ⟨hy, -, -⟩ | ⟨hy, hy1, hy2⟩
    · rcases roundHalfEven_cases z with ⟨hz, -, -⟩ | ⟨hz, -, -⟩ <;> omega
    · rcases roundHalfEven_cases z with ⟨hz, hz1, hz2⟩ | ⟨hz, -, -⟩
      · exfalso
        have hq : (⌊y⌋ : ℚ) = ⌊z⌋ := by rw [heq]
        have hyz : y - ⌊y⌋ = 1 / 2 := by linarith
        have hzz : z - ⌊z⌋ = 1 / 2 := by linarith
        have h1 := hy2 hyz
        have h2 := hz2 hzz
        rw [heq] at h1
        exact h1 h2
      · omega

theorem roundHalfEven_intCast (n : Int) : roundHalfEven (n : ℚ) = n := by
  rcases roundHalfEven_cases (n : ℚ) with ⟨h, -, -⟩ | ⟨-, h, -⟩
  · rw [h, Int.floor_intCast]
  · rw [Int.floor_intCast, sub_self] at h
    norm_num at h

theorem roundHalfEven_le {y : ℚ} {n : Int} (h : y ≤ n) : roundHalfEven y ≤ n := by
  have := roundHalfEven_mono h
  rwa [roundHalfEven_intCast] at this

theorem le_roundHalfEven {y : ℚ} {n : Int} (h : (n : ℚ) ≤ y) : n ≤ roundHalfEven y := by
  have := roundHalfEven_mono h
  rwa [roundHalfEven_intCast] at this

/-- A value below the midpoint above an integer is not rounded beyond that integer. -/
theorem roundHalfEven_le_of_lt {y : ℚ} {n : Int} (h : y < n + 1 / 2) : roundHalfEven y ≤ n := by
  have hfl : ⌊y⌋ ≤ n := by
    have h1 : y < ((n + 1 : Int) : ℚ) := by push_cast; linarith
    have := Int.floor_lt.2 h1
    omega
  rcases roundHalfEven_cases y with ⟨hy, -, -⟩ | ⟨hy, hy1, -⟩
  · omega
  · rcases lt_or_eq_of_le hfl with hlt | heq
    · omega
    · exfalso
      have hq : (⌊y⌋ : ℚ) = n := by rw [heq]
      linarith

/-- Rounding to an integer moves a value by at most one half. -/
theorem abs_roundHalfEven_sub_le (y : ℚ) : |(roundHalfEven y : ℚ) - y| ≤ 1 / 2 := by
  have h1 := Int.floor_le y
  have h2 := Int.lt_floor_add_one y
  rw [abs_le]
  rcases roundHalfEven_cases y with ⟨hy, hy1, -⟩ | ⟨hy, hy1, -⟩
  · rw [hy]; constructor <;> linarith
  · rw [hy]; push_cast; constructor <;> linarith

theorem log2Below_eq (k n : Nat) (hn : n ≠ 0) (h : n < 2 ^ 2 ^ k) :
    log2Below k n = Nat.log2 n := by
  induction k generalizing n with
  | zero =>
    have h1 : n = 1 := by
      norm_num at h
      omega
    subst h1
    rw [log2Below, Nat.log2]
    simp
  | succ k ih =>
    rw [log2Below]
    have hsq : 2 ^ 2 ^ (k + 1) = 2 ^ 2 ^ k * 2 ^ 2 ^ k := by
      rw [← pow_add, pow_succ]
      congr 1
      omega
    have hPpos : 0 < 2 ^ 2 ^ k := by positivity
    split_ifs with hle
    · have hm0 : n / 2 ^ 2 ^ k ≠ 0 := by
        have := Nat.div_pos hle hPpos
        omega
      have hmlt : n / 2 ^ 2 ^ k < 2 ^ 2 ^ k := by
        rw [Nat.div_lt_iff_lt_mul hPpos]
        rw [hsq] at h
        exact h
      rw [ih _ hm0 hmlt]
      have hlo : 2 ^ Nat.log2 (n / 2 ^ 2 ^ k) ≤ n / 2 ^ 2 ^ k := Nat.log2_self_le hm0
      have hhi : n / 2 ^ 2 ^ k < 2 ^ (Nat.log2 (n / 2 ^ 2 ^ k) + 1) := Nat.lt_log2_self
      generalize Nat.log2 (n / 2 ^ 2 ^ k) = a at hlo hhi
      have h1 : 2 ^ k + a ≤ Nat.log2 n := by
        rw [Nat.le_log2 hn, pow_add]
        calc 2 ^ 2 ^ k * 2 ^ a ≤ 2 ^ 2 ^ k * (n / 2 ^ 2 ^ k) := Nat.mul_le_mul_left _ hlo
          _ ≤ n := Nat.mul_div_le n _
      have h2 : Nat.log2 n < 2 ^ k + a + 1 := by
        rw [Nat.log2_lt hn]
        have h3 : n < 2 ^ 2 ^ k * (n / 2 ^ 2 ^ k + 1) := Nat.lt_mul_div_succ n hPpos
        have h4 : n / 2 ^ 2 ^ k + 1 ≤ 2 ^ (a + 1) := hhi
        calc n < 2 ^ 2 ^ k * (n / 2 ^ 2 ^ k + 1) := h3
          _ ≤ 2 ^ 2 ^ k * 2 ^ (a + 1) := Nat.mul_le_mul_left _ h4
          _ = 2 ^ (2 ^ k + a + 1) := by rw [← pow_add]; congr 1
      omega
    · exact ih n hn (not_le.mp hle)

theorem bitBound_spec (fuel k n : Nat) (h : n < 2 ^ 2 ^ (k + fuel)) :
    n < 2 ^ 2 ^ bitBound fuel k n := by
  induction fuel generalizing k with
  | zero => simpa [bitBound] using h
  | succ fuel ih =>
    rw [bitBound]
    split_ifs with hlt
    · exact hlt
    · exact ih (k + 1) (by rw [show k + 1 + fuel = k + (fuel + 1) by omega]; exact h)

theorem log2_eq (n : Nat) (hn : n ≠ 0) : log2 n = Nat.log2 n := by
  unfold log2
  apply log2Below_eq _ _ hn
  apply bitBound_spec
  rw [Nat.zero_add]
  calc n < 2 ^ n := Nat.lt_two_pow n
    _ ≤ 2 ^ 2 ^ n := Nat.pow_le_pow_right (by norm_num) (le_of_lt (Nat.lt_two_pow n))

theorem exponent_eq_log {x : ℚ} (hx : 0 < x) : exponent x = Int.log 2 x := by
  have hnum : 0 < x.num := Rat.num_pos.2 hx
  have hn0 : x.num.natAbs ≠ 0 := by omega
  have hd0 : x.den ≠ 0 := x.den_nz
  have hxeq : x = (x.num.natAbs : ℚ) / (x.den : ℚ) := by
    have h1 : ((x.num.natAbs : Int) : ℚ) = (x.num : ℚ) := by
      rw [Int.natAbs_of_nonneg (le_of_lt hnum)]
    have h2 : (x.num.natAbs : ℚ) = ((x.num.natAbs : Int) : ℚ) := (Int.cast_natCast _).symm
    rw [h2, h1]
    exact (Rat.num_div_den x).symm
  unfold exponent
  simp only []
  rw [log2_eq _ hn0, log2_eq _ hd0]
  generalize x.num.natAbs = n at hn0 hxeq
  generalize x.den = d at hd0 hxeq
  have hnlo : (2 : ℚ) ^ (Nat.log2 n : Int) ≤ (n : ℚ) := by
    rw [zpow_natCast]
    exact_mod_cast Nat.log2_self_le hn0
  have hnhi : (n : ℚ) < (2 : ℚ) ^ ((Nat.log2 n : Int) + 1) := by
    have : n < 2 ^ (Nat.log2 n + 1) := Nat.lt_log2_self
    have h3 : ((Nat.log2 n : Int) + 1) = ((Nat.log2 n + 1 : Nat) : Int) := by push_cast; ring
    rw [h3, zpow_natCast]
    exact_mod_cast this
  have hdlo : (2 : ℚ) ^ (Nat.log2 d : Int) ≤ (d : ℚ) := by
    rw [zpow_natCast]
    exact_mod_cast Nat.log2_self_le hd0
  have hdhi : (d : ℚ) < (2 : ℚ) ^ ((Nat.log2 d : Int) + 1) := by
    have : d < 2 ^ (Nat.log2 d + 1) := Nat.lt_log2_self
    have h3 : ((Nat.log2 d : Int) + 1) = ((Nat.log2 d + 1 : Nat) : Int) := by push_cast; ring
    rw [h3, zpow_natCast]
    exact_mod_cast this
  have hdpos : (0 : ℚ) < (d : ℚ) := by
    have : 0 < d := Nat.pos_of_ne_zero hd0
    exact_mod_cast this
  have hnpos : (0 : ℚ) < (n : ℚ) := by
    have : 0 < n := Nat.pos_of_ne_zero hn0
    exact_mod_cast this
  -- the quotient lies strictly between the neighbouring powers of two
  have hupper : x < (2 : ℚ) ^ ((Nat.log2 n : Int) - (Nat.log2 d : Int) + 1) := by
    have hsplit : (2 : ℚ) ^ ((Nat.log2 n : Int) - (Nat.log2 d : Int) + 1)
        = (2 : ℚ) ^ ((Nat.log2 n : Int) + 1) / (2 : ℚ) ^ (Nat.log2 d : Int) := by
      rw [← zpow_sub₀ (by norm_num)]
      congr 1
      ring
    rw [hsplit, hxeq, div_lt_div_iff₀ hdpos (by positivity)]
    calc (n : ℚ) * (2 : ℚ) ^ (Nat.log2 d : Int)
        < (2 : ℚ) ^ ((Nat.log2 n : Int) + 1) * (2 : ℚ) ^ (Nat.log2 d : Int) :=
          mul_lt_mul_of_pos_right hnhi (by positivity)
      _ ≤ (2 : ℚ) ^ ((Nat.log2 n : Int) + 1) * (d : ℚ) :=
          mul_le_mul_of_nonneg_left hdlo (by positivity)
  have hlower : (2 : ℚ) ^ ((Nat.log2 n : Int) - (Nat.log2 d : Int) - 1) ≤ x := by
    have hsplit : (2 : ℚ) ^ ((Nat.log2 n : Int) - (Nat.log2 d : Int) - 1)
        = (2 : ℚ) ^ (Nat.log2 n : Int) / (2 : ℚ) ^ ((Nat.log2 d : Int) + 1) := by
      rw [← zpow_sub₀ (by norm_num)]
      congr 1
      ring
    rw [hsplit, hxeq, div_le_div_iff₀ (by positivity) hdpos]
    calc (2 : ℚ) ^ (Nat.log2 n : Int) * (d : ℚ)
        ≤ (n : ℚ) * (d : ℚ) := mul_le_mul_of_nonneg_right hnlo (le_of_lt hdpos)
      _ ≤ (n : ℚ) * (2 : ℚ) ^ ((Nat.log2 d : Int) + 1) :=
          mul_le_mul_of_nonneg_left (le_of_lt hdhi) (le_of_lt hnpos)
  have hchar : ∀ e : Int, (2 : ℚ) ^ e ≤ x → x < (2 : ℚ) ^ (e + 1) → e = Int.log 2 x := by
    intro e h1 h2
    have h3 : e ≤ Int.log 2 x :=
      (Int.zpow_le_iff_le_log (by norm_num) hx).1 (by exact_mod_cast h1)
    have h4 : Int.log 2 x < e + 1 :=
      (Int.lt_zpow_iff_log_lt (by norm_num) hx).1 (by exact_mod_cast h2)
    omega
  split_ifs with h
  · exact hchar _ h hupper
  · have h' := not_le.mp h
    refine hchar _ hlower ?_
    have : (Nat.log2 n : Int) - (Nat.log2 d : Int) - 1 + 1
        = (Nat.log2 n : Int) - (Nat.log2 d : Int) := by ring
    rw [this]
    exact h'

theorem quantum_eq {x : ℚ} (hx : 0 < x) :
    quantum x = (2 : ℚ) ^ (max (Int.log 2 x) (-1022) - 52) := by
  unfold quantum
  rw [exponent_eq_log hx]

theorem quantum_pos (x : ℚ) : 0 < quantum x := by
  unfold quantum
  positivity

theorem roundPos_zero : roundPos 0 = 0 := by
  have h := roundHalfEven_intCast 0
  rw [Int.cast_zero] at h
  unfold roundPos
  rw [zero_div, h]
  simp

theorem roundPos_nonneg {x : ℚ} (h : 0 ≤ x) : 0 ≤ roundPos x := by
  unfold roundPos
  have hq := quantum_pos x
  have : (0 : ℚ) ≤ x / quantum x := div_nonneg h (le_of_lt hq)
  have h0 : (0 : Int) ≤ roundHalfEven (x / quantum x) := le_roundHalfEven (by simpa using this)
  have : (0 : ℚ) ≤ (roundHalfEven (x / quantum x) : ℚ) := by exact_mod_cast h0
  positivity

/-- The significand of a rounded value is at most `2 ^ 53`. -/
theorem roundHalfEven_quotient_le (x : ℚ) :
    roundHalfEven (x / quantum x) ≤ (2 ^ 53 : Int) := by
  rcases le_or_lt x 0 with hx0 | hx
  · have h1 : x / quantum x ≤ ((0 : Int) : ℚ) := by
      have := div_nonpos_of_nonpos_of_nonneg hx0 (le_of_lt (quantum_pos x))
      simpa using this
    have := roundHalfEven_le h1
    omega
  rw [quantum_eq hx]
  set e := max (Int.log 2 x) (-1022) with he
  have hqpos : (0 : ℚ) < (2 : ℚ) ^ (e - 52) := by positivity
  have hlt : x < (2 : ℚ) ^ (Int.log 2 x + 1) := Int.lt_zpow_succ_log_self (by norm_num) x
  have hle : (2 : ℚ) ^ (Int.log 2 x + 1) ≤ (2 : ℚ) ^ (e + 1) :=
    zpow_le_zpow_right₀ (by norm_num) (by omega)
  have hsplit : (2 : ℚ) ^ (e + 1) = ((2 ^ 53 : Int) : ℚ) * (2 : ℚ) ^ (e - 52) := by
    have : e + 1 = 53 + (e - 52) := by ring
    rw [this, zpow_add₀ (by norm_num)]
    norm_num
  have hdiv : x / (2 : ℚ) ^ (e - 52) ≤ ((2 ^ 53 : Int) : ℚ) := by
    rw [div_le_iff₀ hqpos, ← hsplit]
    exact le_of_lt (lt_of_lt_of_le hlt hle)
  exact roundHalfEven_le hdiv

theorem roundPos_le_zpow {x : ℚ} (hx : 0 < x) :
    roundPos x ≤ (2 : ℚ) ^ (max (Int.log 2 x) (-1022) + 1) := by
  have hr := roundHalfEven_quotient_le x
  unfold roundPos
  rw [quantum_eq hx] at hr ⊢
  set e := max (Int.log 2 x) (-1022) with he
  have hqpos : (0 : ℚ) < (2 : ℚ) ^ (e - 52) := by positivity
  have hsplit : (2 : ℚ) ^ (e + 1) = ((2 ^ 53 : Int) : ℚ) * (2 : ℚ) ^ (e - 52) := by
    have : e + 1 = 53 + (e - 52) := by ring
    rw [this, zpow_add₀ (by norm_num)]
    norm_num
  have hr2 : (roundHalfEven (x / (2 : ℚ) ^ (e - 52)) : ℚ) ≤ ((2 ^ 53 : Int) : ℚ) := by
    exact_mod_cast hr
  rw [hsplit]
  exact mul_le_mul_of_nonneg_right hr2 (le_of_lt hqpos)

theorem zpow_le_roundPos {x : ℚ} (hx : 0 < x) (hn : -1022 ≤ Int.log 2 x) :
    (2 : ℚ) ^ (Int.log 2 x) ≤ roundPos x := by
  unfold roundPos
  have he : max (Int.log 2 x) (-1022) = Int.log 2 x := max_eq_left hn
  have hq : quantum x = (2 : ℚ) ^ (Int.log 2 x - 52) := by rw [quantum_eq hx, he]
  rw [hq]
  set e := Int.log 2 x
  have hqpos : (0 : ℚ) < (2 : ℚ) ^ (e - 52) := by positivity
  have hle : (2 : ℚ) ^ e ≤ x := Int.zpow_log_le_self (by norm_num) hx
  have hsplit : (2 : ℚ) ^ e = ((2 ^ 52 : Int) : ℚ) * (2 : ℚ) ^ (e - 52) := by
    have : e = 52 + (e - 52) := by ring
    nth_rewrite 1 [this]
    rw [zpow_add₀ (by norm_num)]
    norm_num
  have hdiv : ((2 ^ 52 : Int) : ℚ) ≤ x / (2 : ℚ) ^ (e - 52) := by
    rw [le_div_iff₀ hqpos, ← hsplit]
    exact hle
  have hr : (2 ^ 52 : Int) ≤ roundHalfEven (x / (2 : ℚ) ^ (e - 52)) := le_roundHalfEven hdiv
  have hr2 : ((2 ^ 52 : Int) : ℚ) ≤ (roundHalfEven (x / (2 : ℚ) ^ (e - 52)) : ℚ) := by
    exact_mod_cast hr
  rw [hsplit]
  exact mul_le_mul_of_nonneg_right hr2 (le_of_lt hqpos)

theorem roundPos_mono {x y : ℚ} (hx : 0 ≤ x) (h : x ≤ y) : roundPos x ≤ roundPos y := by
  rcases eq_or_lt_of_le hx with h0 | hx
  · rw [← h0, roundPos_zero]
    exact roundPos_nonneg (le_trans hx h)
  have hy : 0 < y := lt_of_lt_of_le hx h
  have hlog : Int.log 2 x ≤ Int.log 2 y := Int.log_mono_right hx h
  rcases eq_or_lt_of_le (max_le_max hlog (le_refl (-1022 : Int))) with heq | hlt
  · unfold roundPos
    have hq : quantum y = quantum x := by rw [quantum_eq hy, quantum_eq hx, heq]
    rw [hq]
    have hqpos := quantum_pos x
    have hdiv : x / quantum x ≤ y / quantum x := div_le_div_of_nonneg_right h (le_of_lt hqpos)
    have hr := roundHalfEven_mono hdiv
    have hr2 : (roundHalfEven (x / quantum x) : ℚ) ≤ (roundHalfEven (y / quantum x) : ℚ) := by
      exact_mod_cast hr
    exact mul_le_mul_of_nonneg_right hr2 (le_of_lt hqpos)
  · have hyn : -1022 ≤ Int.log 2 y := by
      by_contra hc
      have h1 : max (Int.log 2 y) (-1022) = -1022 := max_eq_right (by omega)
      have h2 : (-1022 : Int) ≤ max (Int.log 2 x) (-1022) := le_max_right _ _
      omega
    have h1 : max (Int.log 2 y) (-1022) = Int.log 2 y := max_eq_left hyn
    calc roundPos x ≤ (2 : ℚ) ^ (max (Int.log 2 x) (-1022) + 1) := roundPos_le_zpow hx
      _ ≤ (2 : ℚ) ^ (Int.log 2 y) := zpow_le_zpow_right₀ (by norm_num) (by omega)
      _ ≤ roundPos y := zpow_le_roundPos hy hyn

/-- A value whose quotient by its quantum is an integer is a double. -/
theorem roundPos_eq_self {x : ℚ} {n : Int} (h : x / quantum x = n) : roundPos x = x := by
  unfold roundPos
  rw [h, roundHalfEven_intCast, ← h]
  exact div_mul_cancel₀ x (ne_of_gt (quantum_pos x))

/-- Rounding a double leaves it as it is. -/
theorem roundPos_idem {x : ℚ} (hx : 0 ≤ x) : roundPos (roundPos x) = roundPos x := by
  rcases eq_or_lt_of_le hx with hx0 | hxpos
  · rw [← hx0, roundPos_zero, roundPos_zero]
  set k := roundHalfEven (x / quantum x) with hk
  set e := max (Int.log 2 x) (-1022) with he
  have hq : quantum x = (2 : ℚ) ^ (e - 52) := quantum_eq hxpos
  have hy : roundPos x = (k : ℚ) * (2 : ℚ) ^ (e - 52) := by rw [← hq]; rfl
  have hk53 : k ≤ (2 ^ 53 : Int) := roundHalfEven_quotient_le x
  have hk0 : 0 ≤ k := by
    have : (0 : ℚ) ≤ x / quantum x := div_nonneg hx (le_of_lt (quantum_pos x))
    exact le_roundHalfEven (by simpa using this)
  rcases eq_or_lt_of_le hk0 with h0 | hkpos
  · have : roundPos x = 0 := by rw [hy, ← h0]; simp
    rw [this, roundPos_zero]
  have hyle : roundPos x ≤ (2 : ℚ) ^ (e + 1) := roundPos_le_zpow hxpos
  generalize roundPos x = y at hy hyle ⊢
  have hypos : 0 < y := by
    rw [hy]
    have : (0 : ℚ) < (k : ℚ) := by exact_mod_cast hkpos
    positivity
  set e' := max (Int.log 2 y) (-1022) with he'
  have hq' : quantum y = (2 : ℚ) ^ (e' - 52) := quantum_eq hypos
  have hlogy : Int.log 2 y ≤ e + 1 := by
    have h1 : (2 : ℚ) ^ (Int.log 2 y) ≤ y := Int.zpow_log_le_self (by norm_num) hypos
    have h2 : (2 : ℚ) ^ (Int.log 2 y) ≤ (2 : ℚ) ^ (e + 1) := le_trans h1 hyle
    exact (zpow_le_zpow_iff_right₀ (by norm_num)).1 h2
  have he'le : e' ≤ e + 1 := by
    have : (-1022 : Int) ≤ e := le_max_right _ _
    exact max_le hlogy (by omega)
  rcases le_or_lt e' e with hle | hlt
  · -- the quantum of y divides the quantum of x
    have hpow : (2 : ℚ) ^ (e - 52) = ((2 ^ (e - e').toNat : Int) : ℚ) * (2 : ℚ) ^ (e' - 52) := by
      have h1 : e - 52 = ((e - e').toNat : Int) + (e' - 52) := by omega
      rw [h1, zpow_add₀ (by norm_num), zpow_natCast]
      push_cast
      rfl
    refine @roundPos_eq_self _ (k * 2 ^ (e - e').toNat) ?_
    rw [hq', hy, hpow]
    have hne : (2 : ℚ) ^ (e' - 52) ≠ 0 := by positivity
    field_simp
    ring
  · -- y is the power of two above
    have he'eq : e' = e + 1 := by omega
    have hlog : Int.log 2 y = e + 1 := by
      have h1 : (-1022 : Int) ≤ e := le_max_right _ _
      rcases max_cases (Int.log 2 y) (-1022) with ⟨h2, -⟩ | ⟨h2, -⟩
      · rw [← he', he'eq] at h2; exact h2.symm
      · rw [← he', he'eq] at h2; omega
    have hge : (2 : ℚ) ^ (e + 1) ≤ y := by
      rw [← hlog]
      exact Int.zpow_log_le_self (by norm_num) hypos
    have hyeq : y = (2 : ℚ) ^ (e + 1) := le_antisymm hyle hge
    refine @roundPos_eq_self _ (2 ^ 52) ?_
    rw [hq', he'eq, hyeq]
    have h1 : e + 1 = 52 + (e + 1 - 52) := by ring
    nth_rewrite 1 [h1]
    rw [zpow_add₀ (by norm_num)]
    have hne : (2 : ℚ) ^ (e + 1 - 52) ≠ 0 := by positivity
    field_simp
    norm_num

theorem round_zero : round 0 = 0 := by
  unfold round
  simp [roundPos_zero]

theorem round_neg (x : ℚ) : round (-x) = -round x := by
  unfold round
  rcases lt_trichotomy x 0 with h | h | h
  · have : ¬ (-x < 0) := by linarith
    simp [h, this]
  · subst h; simp [roundPos_zero]
  · have h1 : -x < 0 := by linarith
    have h2 : ¬ x < 0 := by linarith
    simp [h1, h2]

theorem round_nonneg {x : ℚ} (h : 0 ≤ x) : 0 ≤ round x := by
  unfold round
  rw [if_neg (not_lt.mpr h)]
  exact roundPos_nonneg h

theorem round_mono {x y : ℚ} (h : x ≤ y) : round x ≤ round y := by
  unfold round
  split_ifs with hx hy hy
  · have := @roundPos_mono (-y) (-x) (by linarith) (by linarith)
    linarith
  · have h1 := @roundPos_nonneg (-x) (by linarith)
    have h2 := @roundPos_nonneg y (by linarith)
    linarith
  · linarith
  · exact roundPos_mono (by linarith) h

theorem round_abs (x : ℚ) : round |x| = |round x| := by
  rcases le_total 0 x with h | h
  · rw [abs_of_nonneg h, abs_of_nonneg (round_nonneg h)]
  · have h1 : round x ≤ 0 := by
      have := round_mono h
      rwa [round_zero] at this
    rw [abs_of_nonpos h, abs_of_nonpos h1, round_neg]

theorem round_idem (x : ℚ) : round (round x) = round x := by
  rcases le_total 0 x with h | h
  · have h1 : round x = roundPos x := by unfold round; rw [if_neg (not_lt.mpr h)]
    have h2 : round (roundPos x) = roundPos (roundPos x) := by
      unfold round; rw [if_neg (not_lt.mpr (roundPos_nonneg h))]
    rw [h1, h2, roundPos_idem h]
  · have h0 : 0 ≤ -x := by linarith
    have hx : x = -(-x) := by ring
    have h1 : round (-x) = roundPos (-x) := by unfold round; rw [if_neg (not_lt.mpr h0)]
    have h2 : round (roundPos (-x)) = roundPos (roundPos (-x)) := by
      unfold round; rw [if_neg (not_lt.mpr (roundPos_nonneg h0))]
    rw [hx, round_neg, round_neg, h1, h2, roundPos_idem h0]

/-- A value of magnitude below `2 ^ (k + 1)` moves by at most `2 ^ (k - 53)` when it is
rounded, for `k` in the normal range. -/
theorem abs_round_sub_le {x : ℚ} {k : Int} (hk : -1022 ≤ k) (hx : |x| < (2 : ℚ) ^ (k + 1)) :
    |round x - x| ≤ (2 : ℚ) ^ (k - 53) := by
  have key : ∀ z : ℚ, 0 ≤ z → z < (2 : ℚ) ^ (k + 1) → |roundPos z - z| ≤ (2 : ℚ) ^ (k - 53) := by
    intro z hz0 hz
    rcases eq_or_lt_of_le hz0 with h0 | hzpos
    · rw [← h0, roundPos_zero]; simp; positivity
    have hlog : Int.log 2 z ≤ k := by
      have h1 : (2 : ℚ) ^ (Int.log 2 z) ≤ z := Int.zpow_log_le_self (by norm_num) hzpos
      have h2 : (2 : ℚ) ^ (Int.log 2 z) < (2 : ℚ) ^ (k + 1) := lt_of_le_of_lt h1 hz
      have := (zpow_lt_zpow_iff_right₀ (by norm_num : (1 : ℚ) < 2)).1 h2
      omega
    have he : max (Int.log 2 z) (-1022) ≤ k := max_le hlog hk
    have hq : quantum z ≤ (2 : ℚ) ^ (k - 52) := by
      rw [quantum_eq hzpos]
      exact zpow_le_zpow_right₀ (by norm_num) (by omega)
    have hqpos := quantum_pos z
    have herr := abs_roundHalfEven_sub_le (z / quantum z)
    have heq : roundPos z - z = ((roundHalfEven (z / quantum z) : ℚ) - z / quantum z) * quantum z := by
      unfold roundPos
      field_simp
    rw [heq, abs_mul, abs_of_pos hqpos]
    have hsplit : (2 : ℚ) ^ (k - 53) = 1 / 2 * (2 : ℚ) ^ (k - 52) := by
      have : k - 52 = 1 + (k - 53) := by ring
      rw [this, zpow_add₀ (by norm_num)]
      norm_num
      ring
    rw [hsplit]
    exact mul_le_mul herr hq (le_of_lt hqpos) (by norm_num)
  rcases le_total 0 x with h | h
  · have h1 : round x = roundPos x := by unfold round; rw [if_neg (not_lt.mpr h)]
    rw [h1]
    rw [abs_of_nonneg h] at hx
    exact key x h hx
  · rcases eq_or_lt_of_le h with h0 | hneg
    · rw [h0, round_zero]; simp; positivity
    have h1 : round x = -roundPos (-x) := by unfold round; rw [if_pos hneg]
    rw [h1]
    rw [abs_of_nonpos h] at hx
    have := key (-x) (by linarith) hx
    have h2 : -roundPos (-x) - x = -(roundPos (-x) - -x) := by ring
    rw [h2, abs_neg]
    exact this

theorem mul_swap (a b : ℚ) : mul a b = mul b a := by
  unfold mul
  rw [mul_comm]

/-- Half a natural number up to `2 ^ 53` is a double. -/
theorem round_half_nat (n : Nat) (hn : n ≤ 2 ^ 53) : round ((n : ℚ) / 2) = (n : ℚ) / 2 := by
  rcases Nat.eq_zero_or_pos n with h0 | hpos
  · subst h0
    simp [round_zero]
  have hn1 : (1 : ℚ) ≤ (n : ℚ) := by exact_mod_cast hpos
  have hn53 : (n : ℚ) ≤ 2 ^ 53 := by exact_mod_cast hn
  have hx : (0 : ℚ) < (n : ℚ) / 2 := by positivity
  have hr : round ((n : ℚ) / 2) = roundPos ((n : ℚ) / 2) := by
    unfold round
    rw [if_neg (not_lt.mpr (le_of_lt hx))]
  rw [hr]
  have hlo : (-1 : Int) ≤ Int.log 2 ((n : ℚ) / 2) :=
    (Int.zpow_le_iff_le_log (by norm_num) hx).1 (by norm_num; linarith)
  have hhi : Int.log 2 ((n : ℚ) / 2) < 53 :=
    (Int.lt_zpow_iff_log_lt (by norm_num) hx).1 (by norm_num; linarith)
  have hq : quantum ((n : ℚ) / 2) = (2 : ℚ) ^ (Int.log 2 ((n : ℚ) / 2) - 52) := by
    rw [quantum_eq hx, max_eq_left (by omega)]
  have hle : (2 : ℚ) ^ (Int.log 2 ((n : ℚ) / 2)) ≤ (n : ℚ) / 2 :=
    Int.zpow_log_le_self (by norm_num) hx
  generalize Int.log 2 ((n : ℚ) / 2) = e at hlo hhi hq hle
  rcases le_or_lt e 51 with h51 | h52
  · refine @roundPos_eq_self _ ((n : Int) * 2 ^ (51 - e).toNat) ?_
    rw [hq]
    have h1 : e - 52 = -(((51 - e).toNat : Int) + 1) := by omega
    rw [h1, zpow_neg, zpow_add₀ (by norm_num), zpow_natCast, zpow_one]
    push_cast
    field_simp
    ring
  · have he : e = 52 := by omega
    subst he
    have hxeq : (n : ℚ) / 2 = 2 ^ 52 := by
      norm_num at hle
      linarith
    refine @roundPos_eq_self _ (2 ^ 52) ?_
    rw [hq, hxeq]
    norm_num

/-- A running total of `n` doubles that are one half at least is `n / 2` at least, for
counts that a C++ `int` holds. -/
theorem foldl_add_ge (l : List ℚ) (hl : ∀ x ∈ l, 1 / 2 ≤ x) (a : Nat) (acc : ℚ)
    (hacc : (a : ℚ) / 2 ≤ acc) (hlen : a + l.length ≤ 2 ^ 53) :
    ((a + l.length : Nat) : ℚ) / 2 ≤ l.foldl add acc := by
  induction l generalizing a acc with
  | nil => simpa using hacc
  | cons x l ih =>
    have hx : 1 / 2 ≤ x := hl x (List.mem_cons_self _ _)
    have hlen' : a + 1 + l.length ≤ 2 ^ 53 := by
      rw [List.length_cons] at hlen
      omega
    have hstep : ((a + 1 : Nat) : ℚ) / 2 ≤ add acc x := by
      have h1 : ((a + 1 : Nat) : ℚ) / 2 ≤ acc + x := by
        push_cast
        linarith
      have := round_mono h1
      rwa [round_half_nat (a + 1) (by omega)] at this
    have := ih (fun y hy => hl y (List.mem_cons_of_mem _ hy)) (a + 1) (add acc x) hstep hlen'
    rw [List.foldl_cons, List.length_cons]
    have hcast : a + (l.length + 1) = a + 1 + l.length := by omega
    rw [hcast]
    exact this

/-- Adding 2 or more to a double between 0 and 6 gives a greater double. -/
theorem lt_add_of_two_le {p v : ℚ} (hp0 : 0 ≤ p) (hp6 : p ≤ 6) (hv : 2 ≤ v) : p < add p v := by
  unfold add
  rcases lt_or_le p 2 with h2 | h2
  · have := @round_mono 2 (p + v) (by linarith)
    rw [show round 2 = 2 by decide!] at this
    linarith
  rcases lt_or_le p 4 with h4 | h4
  · have := @round_mono 4 (p + v) (by linarith)
    rw [show round 4 = 4 by decide!] at this
    linarith
  rcases lt_or_le p 6 with h6 | h6
  · have := @round_mono 6 (p + v) (by linarith)
    rw [show round 6 = 6 by decide!] at this
    linarith
  · have := @round_mono 8 (p + v) (by linarith)
    rw [show round 8 = 8 by decide!] at this
    linarith

end Binary64

/-! ## Properties of the similarity -/

/-- The constants of the program as doubles. -/
theorem lit_values :
    Binary64.lit 0.0 = 0 ∧ Binary64.lit 1.0 = 1 ∧ Binary64.lit 10.0 = 10
      ∧ Binary64.lit 4.0 = 4 ∧ 0 < Binary64.lit 0.2 := by
  decide!

/-- Closed form of the similarity, shared by the results below: the weights of the shared
attributes add up to the double nearest their sum, and the rating term is added to it. -/
theorem calculateSimilarity_eq (m1 m2 : Movie) :
    calculateSimilarity m1 m2 =
      Binary64.add (Binary64.lit (sharedWeight m1 m2)) (ratingTerm m1.rating m2.rating) := by
  unfold calculateSimilarity sharedWeight ratingTerm
  simp only []
  split_ifs <;> (congr 1; decide!)

theorem ratingTerm_comm (r1 r2 : ℚ) : ratingTerm r1 r2 = ratingTerm r2 r1 := by
  have h : |Binary64.sub r1 r2| = |Binary64.sub r2 r1| := by
    unfold Binary64.sub
    rw [← neg_sub r2 r1, Binary64.round_neg, abs_neg]
  unfold ratingTerm
  rw [h]

theorem sharedWeight_comm (a b : Movie) : sharedWeight a b = sharedWeight b a := by
  unfold sharedWeight
  simp only [eq_comm]

/-- Exchanging the two movies leaves the similarity unchanged; shared by the results on
the graph. -/
theorem calculateSimilarity_swap (a b : Movie) :
    calculateSimilarity a b = calculateSimilarity b a := by
  rw [calculateSimilarity_eq, calculateSimilarity_eq, ratingTerm_comm, sharedWeight_comm]

/-- The rating term never exceeds the double 0.2. -/
theorem ratingTerm_le (r1 r2 : ℚ) : ratingTerm r1 r2 ≤ Binary64.lit 0.2 := by
  obtain ⟨-, h1, h10, -, h02⟩ := lit_values
  unfold ratingTerm Binary64.mul Binary64.sub Binary64.div
  rw [h1, h10]
  have hq : 0 ≤ Binary64.round (|Binary64.round (r1 - r2)| / 10) :=
    Binary64.round_nonneg (div_nonneg (abs_nonneg _) (by norm_num))
  have hu : Binary64.round (1 - Binary64.round (|Binary64.round (r1 - r2)| / 10)) ≤ 1 := by
    have := @Binary64.round_mono (1 - Binary64.round (|Binary64.round (r1 - r2)| / 10)) 1
      (by linarith)
    rwa [← h1, show Binary64.round (Binary64.lit 1.0) = Binary64.lit 1.0 by decide!, h1] at this
  have hmul : Binary64.lit 0.2
      * Binary64.round (1 - Binary64.round (|Binary64.round (r1 - r2)| / 10))
      ≤ Binary64.lit 0.2 := by nlinarith
  have := Binary64.round_mono hmul
  rwa [show Binary64.round (Binary64.lit 0.2) = Binary64.lit 0.2 by decide!] at this

/-- The rating term is not negative when the ratings lie between 0 and 10. -/
theorem ratingTerm_nonneg (r1 r2 : ℚ) (h1 : 0 ≤ r1 ∧ r1 ≤ 10) (h2 : 0 ≤ r2 ∧ r2 ≤ 10) :
    0 ≤ ratingTerm r1 r2 := by
  obtain ⟨-, hl1, h10, -, h02⟩ := lit_values
  unfold ratingTerm Binary64.mul Binary64.sub Binary64.div
  rw [hl1, h10]
  have hd : |Binary64.round (r1 - r2)| ≤ 10 := by
    rw [← Binary64.round_abs]
    have habs : |r1 - r2| ≤ 10 := by
      rw [abs_le]
      constructor <;> linarith [h1.1, h1.2, h2.1, h2.2]
    have := Binary64.round_mono habs
    rwa [show Binary64.round 10 = 10 by decide!] at this
  have hq : Binary64.round (|Binary64.round (r1 - r2)| / 10) ≤ 1 := by
    have hdiv : |Binary64.round (r1 - r2)| / 10 ≤ 1 := by linarith
    have := Binary64.round_mono hdiv
    rwa [show Binary64.round 1 = 1 by decide!] at this
  have hu : 0 ≤ Binary64.round (1 - Binary64.round (|Binary64.round (r1 - r2)| / 10)) :=
    Binary64.round_nonneg (by linarith)
  exact Binary64.round_nonneg (mul_nonneg (le_of_lt h02) hu)

/-- The double nearest the shared weights lies between 0 and the double 0.8. -/
theorem sharedWeight_bounds (m1 m2 : Movie) :
    0 ≤ Binary64.lit (sharedWeight m1 m2)
      ∧ Binary64.lit (sharedWeight m1 m2) ≤ Binary64.lit 0.8 := by
  unfold sharedWeight
  split_ifs <;> decide!

/-- Bounds of the similarity for ratings between 0 and 10, shared by the results below. -/
theorem calculateSimilarity_bounds (m1 m2 : Movie)
    (h1 : 0 ≤ m1.rating ∧ m1.rating ≤ 10) (h2 : 0 ≤ m2.rating ∧ m2.rating ≤ 10) :
    0 ≤ calculateSimilarity m1 m2 ∧ calculateSimilarity m1 m2 ≤ 1 := by
  have hw := sharedWeight_bounds m1 m2
  have ht0 := ratingTerm_nonneg m1.rating m2.rating h1 h2
  have ht1 := ratingTerm_le m1.rating m2.rating
  rw [calculateSimilarity_eq]
  unfold Binary64.add
  constructor
  · exact Binary64.round_nonneg (by linarith [hw.1])
  · have hsum : Binary64.lit (sharedWeight m1 m2) + ratingTerm m1.rating m2.rating
        ≤ Binary64.lit 0.8 + Binary64.lit 0.2 := by linarith [hw.2]
    have := Binary64.round_mono hsum
    rwa [show Binary64.round (Binary64.lit 0.8 + Binary64.lit 0.2) = 1 by decide!] at this

/-- The rating term of two equal ratings is the double 0.2. -/
theorem ratingTerm_self (r : ℚ) : ratingTerm r r = Binary64.lit 0.2 := by
  unfold ratingTerm Binary64.sub Binary64.div
  rw [sub_self, Binary64.round_zero, abs_zero, zero_div, Binary64.round_zero]
  decide!

/-- The distance of a rounded value from the value, for magnitudes up to 16, up to 2 and
up to one quarter. -/
theorem round_error (x : ℚ) :
    (|x| < 16 → |Binary64.round x - x| ≤ 1 / 2 ^ 50)
    ∧ (|x| < 2 → |Binary64.round x - x| ≤ 1 / 2 ^ 53)
    ∧ (|x| < 1 / 4 → |Binary64.round x - x| ≤ 1 / 2 ^ 56) := by
  refine ⟨fun h => ?_, fun h => ?_, fun h => ?_⟩
  · have := @Binary64.abs_round_sub_le x 3 (by norm_num) (by norm_num; exact h)
    norm_num at this ⊢
    exact this
  · have := @Binary64.abs_round_sub_le x 0 (by norm_num) (by norm_num; exact h)
    norm_num at this ⊢
    exact this
  · have := @Binary64.abs_round_sub_le x (-3) (by norm_num) (by norm_num; linarith)
    norm_num at this ⊢
    exact this

/-- The double nearest the shared weights is within `2 ^ (-54)` of them. -/
theorem sharedWeight_error (m1 m2 : Movie) :
    |Binary64.lit (sharedWeight m1 m2) - sharedWeight m1 m2| ≤ 1 / 2 ^ 54 := by
  unfold sharedWeight
  split_ifs <;> decide!

/-- The similarity that the code computes is within `2 ^ (-51)` of the exact value of the
formula when the ratings lie between 0 and 10. -/
theorem calculateSimilarity_error (m1 m2 : Movie)
    (h1 : 0 ≤ m1.rating ∧ m1.rating ≤ 10) (h2 : 0 ≤ m2.rating ∧ m2.rating ≤ 10) :
    |calculateSimilarity m1 m2 - exactSimilarity m1 m2| ≤ 1 / 2 ^ 51 := by
  obtain ⟨-, hl1, h10, -, h02⟩ := lit_values
  have hc : Binary64.lit 0.2 = 3602879701896397 / 18014398509481984 := by decide!
  have h08 : Binary64.lit 0.8 = 3602879701896397 / 4503599627370496 := by decide!
  have hw := sharedWeight_bounds m1 m2
  have hwe := abs_le.1 (sharedWeight_error m1 m2)
  have ht0 := ratingTerm_nonneg m1.rating m2.rating h1 h2
  have ht1 := ratingTerm_le m1.rating m2.rating
  rw [calculateSimilarity_eq]
  unfold exactSimilarity
  generalize hW : Binary64.lit (sharedWeight m1 m2) = W at hw hwe ⊢
  generalize sharedWeight m1 m2 = w at hwe ⊢
  unfold ratingTerm Binary64.mul Binary64.sub Binary64.div at ht0 ht1 ⊢
  rw [hl1, h10] at ht0 ht1 ⊢
  unfold Binary64.add
  have habs : |m1.rating - m2.rating| ≤ 10 := by
    rw [abs_le]
    constructor <;> linarith [h1.1, h1.2, h2.1, h2.2]
  generalize hx : m1.rating - m2.rating = x at habs ht0 ht1 ⊢
  -- the rounded difference
  have hd := (round_error x).1 (by linarith)
  have hD : |abs (Binary64.round x) - abs x| ≤ 1 / 2 ^ 50 :=
    le_trans (abs_abs_sub_abs_le_abs_sub _ _) hd
  have hD10 : |Binary64.round x| ≤ 10 := by
    rw [← Binary64.round_abs]
    have := Binary64.round_mono habs
    rwa [show Binary64.round 10 = 10 by decide!] at this
  have hD0 : 0 ≤ |Binary64.round x| := abs_nonneg _
  generalize |Binary64.round x| = D at hD hD10 hD0 ht0 ht1 ⊢
  have hx0 : 0 ≤ |x| := abs_nonneg _
  generalize |x| = a at hD hx0 habs ⊢
  rw [abs_le] at hD
  -- the quotient
  have hq := (round_error (D / 10)).2.1 (by rw [abs_of_nonneg (by positivity)]; linarith)
  have hq0 : 0 ≤ Binary64.round (D / 10) := Binary64.round_nonneg (by positivity)
  have hq1 : Binary64.round (D / 10) ≤ 1 := by
    have hdiv : D / 10 ≤ 1 := by linarith
    have := Binary64.round_mono hdiv
    rwa [show Binary64.round 1 = 1 by decide!] at this
  generalize Binary64.round (D / 10) = q at hq hq0 hq1 ht0 ht1 ⊢
  rw [abs_le] at hq
  -- the complement
  have hu := (round_error (1 - q)).2.1 (by rw [abs_of_nonneg (by linarith)]; linarith)
  have hu0 : 0 ≤ Binary64.round (1 - q) := Binary64.round_nonneg (by linarith)
  have hu1 : Binary64.round (1 - q) ≤ 1 := by
    have := @Binary64.round_mono (1 - q) 1 (by linarith)
    rwa [show Binary64.round 1 = 1 by decide!] at this
  generalize Binary64.round (1 - q) = u at hu hu0 hu1 ht0 ht1 ⊢
  rw [abs_le] at hu
  -- the product
  rw [hc] at ht0 ht1 ⊢
  have ht := (round_error (3602879701896397 / 18014398509481984 * u)).2.2
    (by rw [abs_of_nonneg (by positivity)]; linarith)
  generalize Binary64.round (3602879701896397 / 18014398509481984 * u) = t at ht ht0 ht1 ⊢
  rw [abs_le] at ht
  -- the sum
  rw [h08] at hw
  have hs := (round_error (W + t)).2.1 (by rw [abs_of_nonneg (by linarith [hw.1])]; linarith [hw.2])
  generalize Binary64.round (W + t) = s at hs ⊢
  rw [abs_le] at hs
  rw [abs_le]
  norm_num at hD hq hu ht hs hwe ⊢
  constructor <;> linarith [hD.1, hD.2, hq.1, hq.2, hu.1, hu.2, ht.1, ht.2, hs.1, hs.2, hwe.1, hwe.2]


/-- C1 fails as stated: the sum is not computed exactly. For two movies that share nothing,
with ratings 0 and 1, the formula gives 0.18, and the code returns neither 0.18 nor the
double nearest to 0.18 but the double above it; for Dunkirk (7.9) and Platoon (8.1) of the
sample catalog the formula on the decimal ratings gives 0.696, and the code returns another
double than the 0.696 it returns for Inception and Interstellar. -/
theorem calculateSimilarity_not_exact :
    (exactSimilarity unrelatedZero unrelatedOne = 0.18
      ∧ calculateSimilarity unrelatedZero unrelatedOne ≠ 0.18
      ∧ calculateSimilarity unrelatedZero unrelatedOne ≠ Binary64.lit 0.18
      ∧ calculateSimilarity unrelatedZero unrelatedOne = Binary64.lit 0.18 + 1 / 2 ^ 55)
    ∧ (sharedWeight dunkirk platoon + 0.2 * (1 - |(7.9 : ℚ) - 8.1| / 10) = 0.696
      ∧ calculateSimilarity dunkirk platoon ≠ Binary64.lit 0.696
      ∧ calculateSimilarity dunkirk platoon ≠ calculateSimilarity inception interstellar) := by
  refine ⟨⟨by decide!, by decide!, by decide!, ?_⟩, ⟨by decide!, by decide!, by decide!⟩⟩
  have h : (1 : ℚ) / 2 ^ 55 = 1 / 36028797018963968 := by norm_num
  rw [h]
  decide!

/-- C1 (amended): the similarity is the formula evaluated in double arithmetic. The
weights of the shared attributes add up to the double nearest their sum, and the rating
term `0.2 * (1 - |rating1 - rating2| / 10)`, rounded at each operation, is added with one
more rounding; for ratings in [0, 10] the result is within `2 ^ (-51)` of the exact value
of the formula; for Inception and Interstellar it is the double 0.696. -/
theorem calculateSimilarity_rounded (m1 m2 : Movie)
    (h1 : 0 ≤ m1.rating ∧ m1.rating ≤ 10) (h2 : 0 ≤ m2.rating ∧ m2.rating ≤ 10) :
    calculateSimilarity m1 m2 =
        Binary64.add (Binary64.lit (sharedWeight m1 m2))
          (Binary64.mul (Binary64.lit 0.2) (Binary64.sub (Binary64.lit 1.0)
            (Binary64.div |Binary64.sub m1.rating m2.rating| (Binary64.lit 10.0))))
    ∧ |calculateSimilarity m1 m2 - exactSimilarity m1 m2| ≤ 1 / 2 ^ 51
    ∧ calculateSimilarity inception interstellar = Binary64.lit 0.696 :=
  ⟨calculateSimilarity_eq m1 m2, calculateSimilarity_error m1 m2 h1 h2, by decide!⟩

/-- Witness of C1 (amended) on the two movies that share nothing. -/
theorem calculateSimilarity_rounded_witness :
    (0 ≤ unrelatedZero.rating ∧ unrelatedZero.rating ≤ 10)
    ∧ (0 ≤ unrelatedOne.rating ∧ unrelatedOne.rating ≤ 10)
    ∧ |calculateSimilarity unrelatedZero unrelatedOne
        - exactSimilarity unrelatedZero unrelatedOne| ≤ 1 / 2 ^ 51 :=
  ⟨by decide!, by decide!,
    (calculateSimilarity_rounded unrelatedZero unrelatedOne (by decide!) (by decide!)).2.1⟩

/-- C2: for every pair of movies A and B the similarity of A and B equals the similarity
of B and A. -/
theorem calculateSimilarity_comm (a b : Movie) :
    calculateSimilarity a b = calculateSimilarity b a :=
  calculateSimilarity_swap a b

/-- C3: for two movies whose ratings lie in [0, 10] the similarity lies in [0, 1]. -/
theorem calculateSimilarity_mem_unit_interval (m1 m2 : Movie)
    (h1 : 0 ≤ m1.rating ∧ m1.rating ≤ 10) (h2 : 0 ≤ m2.rating ∧ m2.rating ≤ 10) :
    0 ≤ calculateSimilarity m1 m2 ∧ calculateSimilarity m1 m2 ≤ 1 :=
  calculateSimilarity_bounds m1 m2 h1 h2

/-- Witness of C3 on the two sample movies. -/
theorem calculateSimilarity_mem_unit_interval_witness :
    0 ≤ calculateSimilarity inception interstellar
      ∧ calculateSimilarity inception interstellar ≤ 1 :=
  calculateSimilarity_mem_unit_interval inception interstellar (by decide!) (by decide!)

/-- Two movies that agree in genre, actor, industry and rating have similarity 1; shared by
the results below. -/
theorem calculateSimilarity_of_agree (m1 m2 : Movie) (hg : m1.genre = m2.genre)
    (ha : m1.actor = m2.actor) (hi : m1.industry = m2.industry)
    (hr : m1.rating = m2.rating) : calculateSimilarity m1 m2 = 1 := by
  rw [calculateSimilarity_eq, hr, ratingTerm_self]
  unfold sharedWeight
  rw [if_pos hg, if_pos ha, if_pos hi]
  decide!

/-- C4: two movies with the same genre, actor, industry and rating have similarity
exactly 1. -/
theorem calculateSimilarity_eq_one (m1 m2 : Movie) (hg : m1.genre = m2.genre)
    (ha : m1.actor = m2.actor) (hi : m1.industry = m2.industry)
    (hr : m1.rating = m2.rating) : calculateSimilarity m1 m2 = 1 :=
  calculateSimilarity_of_agree m1 m2 hg ha hi hr

/-- Witness of C4: a remake with another title and identifier. -/
theorem calculateSimilarity_eq_one_witness :
    calculateSimilarity inception
      (Movie.mk 7 "Inception II" "Sci-Fi" "Leonardo DiCaprio" (Binary64.lit 8.8) "Hollywood")
        = 1 :=
  calculateSimilarity_eq_one inception _ rfl rfl rfl rfl

/-! ## Association lists and buckets -/

theorem StrMap.find_pushBack (M : StrMap (List Nat)) (k' k : String) (x : Nat) :
    StrMap.find (StrMap.pushBack M k' x) k =
      if k' = k then some ((StrMap.find M k).getD [] ++ [x]) else StrMap.find M k := by
  induction M with
  | nil =>
    by_cases h : k' = k <;> simp [StrMap.pushBack, StrMap.find, h]
  | cons e rest ih =>
    obtain ⟨k0, v⟩ := e
    by_cases h0 : k0 = k'
    · subst h0
      by_cases h1 : k0 = k <;> simp [StrMap.pushBack, StrMap.find, h1]
    · by_cases h1 : k0 = k
      · subst h1
        simp [StrMap.pushBack, StrMap.find, h0, Ne.symm h0]
      · simp [StrMap.pushBack, StrMap.find, h0, h1, ih]

theorem positionsOf_nil (p : Movie → Bool) : positionsOf p [] = [] := rfl

theorem positionsOf_concat (p : Movie → Bool) (ms : List Movie) (m : Movie) :
    positionsOf p (ms ++ [m]) = positionsOf p ms ++ (if p m then [ms.length] else []) := by
  unfold positionsOf
  rw [List.length_append, List.length_singleton, List.range_succ, List.filter_append]
  congr 1
  · apply List.filter_congr
    intro i hi
    rw [List.mem_range] at hi
    rw [List.getD_append _ _ _ _ hi]
  · have hlast : (ms ++ [m]).getD ms.length defaultMovie = m := by
      simp [List.getD_eq_getElem?_getD]
    by_cases hp : p m <;> simp [hlast, hp]

theorem mem_positionsOf {p : Movie → Bool} {ms : List Movie} {i : Nat} :
    i ∈ positionsOf p ms ↔ i < ms.length ∧ p (ms.getD i defaultMovie) = true := by
  simp [positionsOf]

theorem positionsOf_nodup (p : Movie → Bool) (ms : List Movie) : (positionsOf p ms).Nodup :=
  (List.nodup_range _).filter _

theorem find_bucket_step (key : Movie → String) (M : StrMap (List Nat)) (ms : List Movie)
    (m : Movie)
    (h : ∀ k, StrMap.find M k =
      if positionsOf (fun x => decide (key x = k)) ms = [] then none
      else some (positionsOf (fun x => decide (key x = k)) ms))
    (k : String) :
    StrMap.find (StrMap.pushBack M (key m) ms.length) k =
      if positionsOf (fun x => decide (key x = k)) (ms ++ [m]) = [] then none
      else some (positionsOf (fun x => decide (key x = k)) (ms ++ [m])) := by
  rw [StrMap.find_pushBack, positionsOf_concat, h k]
  by_cases hk : key m = k
  · by_cases he : positionsOf (fun x => decide (key x = k)) ms = [] <;> simp [hk, he]
  · simp [hk]

namespace ContentBasedRecommender

theorem ofCatalog_concat (ms : List Movie) (m : Movie) :
    ofCatalog (ms ++ [m]) = addMovie (ofCatalog ms) m := by
  simp [ofCatalog, List.foldl_append]

/-- The state reached from a catalog: the movie list is the catalog and every bucket holds
the positions of its key in increasing order; keys without a movie have no bucket. -/
theorem ofCatalog_spec (ms : List Movie) :
    (ofCatalog ms).movies = ms
    ∧ (∀ k, StrMap.find (ofCatalog ms).genreToMovies k =
        if positionsOf (fun x => decide (x.genre = k)) ms = [] then none
        else some (positionsOf (fun x => decide (x.genre = k)) ms))
    ∧ (∀ k, StrMap.find (ofCatalog ms).actorToMovies k =
        if positionsOf (fun x => decide (x.actor = k)) ms = [] then none
        else some (positionsOf (fun x => decide (x.actor = k)) ms))
    ∧ (∀ k, StrMap.find (ofCatalog ms).industryToMovies k =
        if positionsOf (fun x => decide (x.industry = k)) ms = [] then none
        else some (positionsOf (fun x => decide (x.industry = k)) ms)) := by
  induction ms using List.reverseRecOn with
  | nil =>
    refine ⟨rfl, ?_, ?_, ?_⟩ <;> intro k <;> simp [ofCatalog, empty, StrMap.find, positionsOf_nil]
  | append_singleton ms m ih =>
    obtain ⟨hm, hg, ha, hi⟩ := ih
    rw [ofCatalog_concat]
    refine ⟨?_, ?_, ?_, ?_⟩
    · simp [addMovie, hm]
    · intro k
      simpa [addMovie, hm] using find_bucket_step Movie.genre _ ms m hg k
    · intro k
      simpa [addMovie, hm] using find_bucket_step Movie.actor _ ms m ha k
    · intro k
      simpa [addMovie, hm] using find_bucket_step Movie.industry _ ms m hi k

theorem ofCatalog_movies (ms : List Movie) : (ofCatalog ms).movies = ms :=
  (ofCatalog_spec ms).1

end ContentBasedRecommender

/-! ## The loops of the content-based queries -/

theorem moviesAt_eq (ms : List Movie) (idxs : List Nat) (h : ∀ i ∈ idxs, i < ms.length) :
    moviesAt ms idxs = some (idxs.map (fun i => ms.getD i defaultMovie)) := by
  induction idxs with
  | nil => rfl
  | cons i rest ih =>
    have hi : i < ms.length := h i (List.mem_cons_self _ _)
    have hrest := ih (fun j hj => h j (List.mem_cons_of_mem _ hj))
    simp [moviesAt, hrest, List.getElem?_eq_getElem hi, List.getD_eq_getElem _ _ hi]

theorem ContentBasedRecommender.ratingPairsOf_eq (ms : List Movie) (industry : String)
    (idxs : List Nat) (h : ∀ i ∈ idxs, i < ms.length) :
    ratingPairsOf ms industry idxs =
      some ((idxs.filter (fun i => decide ((ms.getD i defaultMovie).industry = industry))).map
        (fun i => ((ms.getD i defaultMovie).rating, i))) := by
  induction idxs with
  | nil => rfl
  | cons i rest ih =>
    have hi : i < ms.length := h i (List.mem_cons_self _ _)
    have hrest := ih (fun j hj => h j (List.mem_cons_of_mem _ hj))
    have hget : ms.getD i defaultMovie = ms[i] := List.getD_eq_getElem _ _ hi
    rw [ratingPairsOf, hrest, List.getElem?_eq_getElem hi, List.filter_cons, hget]
    by_cases hind : ms[i].industry = industry <;>
      simp [hind, List.getElem?_eq_getElem hi]

/-! ## Sorting contract -/

theorem isStdSort_insertionSort_comp (f : List (ℚ × Nat) → List (ℚ × Nat))
    (hf : ∀ l, (f l).Perm l) :
    IsStdSort (fun l => (f l).insertionSort (fun a b => b.1 ≤ a.1)) := by
  intro l
  haveI : IsTotal (ℚ × Nat) (fun a b => b.1 ≤ a.1) := ⟨fun a b => le_total b.1 a.1⟩
  haveI : IsTrans (ℚ × Nat) (fun a b => b.1 ≤ a.1) := ⟨fun a b c hab hbc => le_trans hbc hab⟩
  refine ⟨(List.perm_insertionSort _ _).trans (hf l), ?_⟩
  have hs := List.sorted_insertionSort (fun a b : ℚ × Nat => b.1 ≤ a.1) (f l)
  refine List.Pairwise.imp ?_ hs
  intro a b hab
  simpa [compareByRating] using hab

theorem isStdSort_stableSort : IsStdSort stableSort :=
  isStdSort_insertionSort_comp (fun l => l) (fun l => List.Perm.refl l)

theorem isStdSort_tiesReversedSort : IsStdSort tiesReversedSort :=
  isStdSort_insertionSort_comp List.reverse List.reverse_perm

theorem IsStdSort.nil {sort : List (ℚ × Nat) → List (ℚ × Nat)} (h : IsStdSort sort) :
    sort [] = [] :=
  List.Perm.eq_nil (h []).1

theorem IsStdSort.mem_iff {sort : List (ℚ × Nat) → List (ℚ × Nat)} (h : IsStdSort sort)
    (l : List (ℚ × Nat)) (x : ℚ × Nat) : x ∈ sort l ↔ x ∈ l :=
  (h l).1.mem_iff

theorem IsStdSort.sorted {sort : List (ℚ × Nat) → List (ℚ × Nat)} (h : IsStdSort sort)
    (l : List (ℚ × Nat)) : (sort l).Pairwise (fun a b => b.1 ≤ a.1) := by
  refine List.Pairwise.imp ?_ (h l).2
  intro a b hab
  simpa [compareByRating] using hab

/-! ## Closed form of the content-based ranking -/

theorem mem_ratingPairsSpec {p : Movie → Bool} {ms : List Movie} {x : ℚ × Nat} :
    x ∈ ratingPairsSpec p ms ↔
      x.2 < ms.length ∧ p (ms.getD x.2 defaultMovie) = true
        ∧ x.1 = (ms.getD x.2 defaultMovie).rating := by
  obtain ⟨r, i⟩ := x
  simp only [ratingPairsSpec, List.mem_map, mem_positionsOf, Prod.mk.injEq]
  constructor
  · rintro ⟨j, ⟨hj, hp⟩, hr, rfl⟩
    exact ⟨hj, hp, hr.symm⟩
  · rintro ⟨hj, hp, hr⟩
    exact ⟨i, ⟨hj, hp⟩, hr.symm, rfl⟩

theorem ratingPairsSpec_map_snd (p : Movie → Bool) (ms : List Movie) :
    (ratingPairsSpec p ms).map Prod.snd = positionsOf p ms := by
  simp [ratingPairsSpec, List.map_map, Function.comp_def]

theorem takeTopN_eq (ms : List Movie) (topN : Int) (pairs : List (ℚ × Nat))
    (h : ∀ x ∈ pairs, x.2 < ms.length) :
    takeTopN ms topN pairs =
      some (((pairs.take (min topN (pairs.length : Int)).toNat).map Prod.snd).map
        (fun i => ms.getD i defaultMovie)) := by
  unfold takeTopN
  apply moviesAt_eq
  intro i hi
  rw [List.mem_map] at hi
  obtain ⟨x, hx, rfl⟩ := hi
  exact h x (List.mem_of_mem_take hx)

namespace ContentBasedRecommender

/-- The ranking of `recommendByGenreAndIndustry` on a catalog: the pairs of the matching
positions are sorted and the first `min(topN, size)` positions are looked up. -/
theorem recommendByGenreAndIndustry_eq (sort : List (ℚ × Nat) → List (ℚ × Nat))
    (hsort : IsStdSort sort) (ms : List Movie) (genre industry : String) (topN : Int) :
    recommendByGenreAndIndustry sort (ofCatalog ms) genre industry topN =
      some ((((sort (ratingPairsSpec
          (fun m => decide (m.genre = genre) && decide (m.industry = industry)) ms)).take
        (min topN ((sort (ratingPairsSpec
          (fun m => decide (m.genre = genre) && decide (m.industry = industry)) ms)).length
            : Int)).toNat).map Prod.snd).map (fun i => ms.getD i defaultMovie)) := by
  have hpos : positionsOf (fun m => decide (m.genre = genre) && decide (m.industry = industry)) ms
      = (positionsOf (fun m => decide (m.genre = genre)) ms).filter
          (fun i => decide ((ms.getD i defaultMovie).industry = industry)) := by
    simp only [positionsOf, List.filter_filter]
    apply List.filter_congr
    intro i _
    simp [Bool.and_comm]
  obtain ⟨hm, hg, -, -⟩ := ofCatalog_spec ms
  unfold recommendByGenreAndIndustry
  rw [hg genre, hm]
  by_cases he : positionsOf (fun m => decide (m.genre = genre)) ms = []
  · simp [he, ratingPairsSpec, hpos, hsort.nil]
  · rw [if_neg he]
    simp only
    rw [ratingPairsOf_eq ms industry _ (fun i hi => (mem_positionsOf.1 hi).1)]
    simp only
    rw [← hpos]
    apply takeTopN_eq
    intro x hx
    rw [hsort.mem_iff] at hx
    exact (mem_ratingPairsSpec.1 hx).1

end ContentBasedRecommender

/-! ## Properties of the content-based ranking -/

namespace ContentBasedRecommender

/-- C8 (amended): for every catalog, genre, industry and k the list returned by
`recommendByGenreAndIndustry` is sorted by non-increasing rating, whatever order the sort
leaves among equally rated movies. -/
theorem recommendByGenreAndIndustry_sorted (sort : List (ℚ × Nat) → List (ℚ × Nat))
    (hsort : IsStdSort sort) (ms : List Movie) (genre industry : String) (topN : Int) :
    ∃ l, recommendByGenreAndIndustry sort (ofCatalog ms) genre industry topN = some l
      ∧ l.Pairwise (fun a b => b.rating ≤ a.rating) := by
  refine ⟨_, recommendByGenreAndIndustry_eq sort hsort ms genre industry topN, ?_⟩
  rw [List.map_map, List.pairwise_map]
  refine List.Pairwise.imp_of_mem ?_ ((hsort.sorted _).sublist (List.take_sublist _ _))
  intro a b ha hb hab
  have ha' := mem_ratingPairsSpec.1 ((hsort.mem_iff _ _).1 (List.mem_of_mem_take ha))
  have hb' := mem_ratingPairsSpec.1 ((hsort.mem_iff _ _).1 (List.mem_of_mem_take hb))
  simp only [Function.comp_apply]
  rw [← ha'.2.2, ← hb'.2.2]
  exact hab

/-- Witness of C8 (amended) on the two-movie sample catalog. -/
theorem recommendByGenreAndIndustry_sorted_witness :
    ∃ l, recommendByGenreAndIndustry stableSort (ofCatalog [inception, interstellar])
        "Sci-Fi" "Hollywood" 5 = some l
      ∧ l.Pairwise (fun a b => b.rating ≤ a.rating) :=
  recommendByGenreAndIndustry_sorted stableSort isStdSort_stableSort
    [inception, interstellar] "Sci-Fi" "Hollywood" 5

/-- C8 fails as stated. A sort that meets the contract of `std::sort` may return the later
of two equally rated movies first; and the sort of GNU libstdc++ does so on seventeen
equally rated movies of one genre and industry: the first three returned are the movies
at positions 8, 16 and 15 (identifiers 9, 17, 16), so the movie added at position 16
precedes the one added at position 15. -/
theorem recommendByGenreAndIndustry_ties_not_stable :
    (IsStdSort tiesReversedSort
      ∧ bladeRunner2049.rating = theMartian.rating
      ∧ recommendByGenreAndIndustry tiesReversedSort (ofCatalog [bladeRunner2049, theMartian])
          "Sci-Fi" "Hollywood" 2 = some [theMartian, bladeRunner2049])
    ∧ ((∀ m ∈ tiedCatalog, m.rating = 8.0)
      ∧ (Libstdcxx.sort (ratingPairsSpec
            (fun m => decide (m.genre = "Sci-Fi") && decide (m.industry = "Hollywood"))
            tiedCatalog)).map (fun l => l.map Prod.snd)
          = some [8, 16, 15, 14, 13, 12, 11, 10, 9, 0, 7, 6, 5, 4, 3, 2, 1]
      ∧ (recommendByGenreAndIndustry gnuSort (ofCatalog tiedCatalog)
            "Sci-Fi" "Hollywood" 3).map (fun l => l.map Movie.id) = some [9, 17, 16]) :=
  ⟨⟨isStdSort_tiesReversedSort, rfl, by decide!⟩, by decide!, by decide!, by decide!⟩

/-- C9: for k >= 0 `recommendByGenreAndIndustry` returns at most k movies, each of the
requested genre and the requested industry. -/
theorem recommendByGenreAndIndustry_at_most_k_matching
    (sort : List (ℚ × Nat) → List (ℚ × Nat)) (hsort : IsStdSort sort) (ms : List Movie)
    (genre industry : String) (k : Int) (hk : 0 ≤ k) :
    ∃ l, recommendByGenreAndIndustry sort (ofCatalog ms) genre industry k = some l
      ∧ (l.length : Int) ≤ k
      ∧ ∀ m ∈ l, m.genre = genre ∧ m.industry = industry := by
  refine ⟨_, recommendByGenreAndIndustry_eq sort hsort ms genre industry k, ?_, ?_⟩
  · simp only [List.length_map, List.length_take]
    omega
  · intro m hm
    simp only [List.mem_map] at hm
    obtain ⟨i, ⟨x, hx, rfl⟩, rfl⟩ := hm
    have hx' := mem_ratingPairsSpec.1 ((hsort.mem_iff _ _).1 (List.mem_of_mem_take hx))
    simpa using hx'.2.1

/-- Witness of C9 on the two-movie sample catalog. -/
theorem recommendByGenreAndIndustry_at_most_k_matching_witness :
    ∃ l, recommendByGenreAndIndustry stableSort (ofCatalog [inception, interstellar])
        "Sci-Fi" "Hollywood" 1 = some l
      ∧ (l.length : Int) ≤ 1
      ∧ ∀ m ∈ l, m.genre = "Sci-Fi" ∧ m.industry = "Hollywood" :=
  recommendByGenreAndIndustry_at_most_k_matching stableSort isStdSort_stableSort
    [inception, interstellar] "Sci-Fi" "Hollywood" 1 (by decide)

/-- A list sorted under the contract of `std::sort` splits, at any length, into a prefix
whose ratings dominate those of the rest. -/
theorem take_dominates_drop (sort : List (ℚ × Nat) → List (ℚ × Nat))
    (hsort : IsStdSort sort) (l : List (ℚ × Nat)) (n : Nat) :
    ∀ x ∈ (sort l).take n, ∀ y ∈ (sort l).drop n, y.1 ≤ x.1 := by
  have hs := hsort.sorted l
  rw [← List.take_append_drop n (sort l), List.pairwise_append] at hs
  exact hs.2.2

/-- Any sort that meets the contract leaves the pairs of the two-movie sample catalog in
place: their ratings differ. -/
theorem sort_sample_pairs (sort : List (ℚ × Nat) → List (ℚ × Nat)) (hsort : IsStdSort sort) :
    sort [(Binary64.lit 8.8, 0), (Binary64.lit 8.6, 1)] = [(Binary64.lit 8.8, 0), (Binary64.lit 8.6, 1)] := by
  have hp := (hsort [(Binary64.lit 8.8, 0), (Binary64.lit 8.6, 1)]).1
  have hs := hsort.sorted [(Binary64.lit 8.8, 0), (Binary64.lit 8.6, 1)]
  have hlen := hp.length_eq
  obtain ⟨x, y, hxy⟩ := List.length_eq_two.1 hlen
  rw [hxy] at hp hs ⊢
  have hx : x ∈ [(Binary64.lit 8.8, 0), (Binary64.lit 8.6, 1)] := hp.subset (List.mem_cons_self _ _)
  have hy : y ∈ [(Binary64.lit 8.8, 0), (Binary64.lit 8.6, 1)] :=
    hp.subset (List.mem_cons_of_mem _ (List.mem_cons_self _ _))
  have hnd : [x, y].Nodup := hp.nodup_iff.2 (by decide!)
  have hne : x ≠ y := by
    intro h
    simp [h] at hnd
  have hle : y.1 ≤ x.1 := by
    simpa using hs
  simp only [List.mem_cons, List.mem_singleton, List.not_mem_nil, or_false] at hx hy
  rcases hx with rfl | rfl <;> rcases hy with rfl | rfl
  · exact absurd rfl hne
  · rfl
  · exact absurd hle (by decide!)
  · exact absurd rfl hne

/-- C10: `recommendByGenreAndIndustry` returns the best matches: the matching positions
split into the returned ones and the others, and every returned movie is rated at least as
high as every matching movie that is not returned; on the two-movie sample catalog the
query ("Sci-Fi", "Hollywood", 1) returns Inception alone. -/
theorem recommendByGenreAndIndustry_k_best (sort : List (ℚ × Nat) → List (ℚ × Nat))
    (hsort : IsStdSort sort) (ms : List Movie) (genre industry : String) (k : Int) :
    (∃ ret rest : List Nat,
      recommendByGenreAndIndustry sort (ofCatalog ms) genre industry k
          = some (ret.map (fun i => ms.getD i defaultMovie))
        ∧ (ret ++ rest).Perm
            (positionsOf (fun m => decide (m.genre = genre) && decide (m.industry = industry)) ms)
        ∧ (∀ p ∈ ret, ∀ q ∈ rest,
            (ms.getD q defaultMovie).rating ≤ (ms.getD p defaultMovie).rating)
        ∧ ∀ m ∈ ms, m.genre = genre → m.industry = industry →
            m ∉ ret.map (fun i => ms.getD i defaultMovie) →
            ∀ r ∈ ret.map (fun i => ms.getD i defaultMovie), m.rating ≤ r.rating)
    ∧ recommendByGenreAndIndustry sort (ofCatalog [inception, interstellar])
        "Sci-Fi" "Hollywood" 1 = some [inception] := by
  constructor
  · have hdom : ∀ p ∈ ((sort (ratingPairsSpec
          (fun m => decide (m.genre = genre) && decide (m.industry = industry)) ms)).take
            (min k ((sort (ratingPairsSpec
              (fun m => decide (m.genre = genre) && decide (m.industry = industry)) ms)).length
                : Int)).toNat).map Prod.snd,
        ∀ q ∈ ((sort (ratingPairsSpec
          (fun m => decide (m.genre = genre) && decide (m.industry = industry)) ms)).drop
            (min k ((sort (ratingPairsSpec
              (fun m => decide (m.genre = genre) && decide (m.industry = industry)) ms)).length
                : Int)).toNat).map Prod.snd,
          (ms.getD q defaultMovie).rating ≤ (ms.getD p defaultMovie).rating := by
      intro p hp q hq
      rw [List.mem_map] at hp hq
      obtain ⟨x, hx, rfl⟩ := hp
      obtain ⟨y, hy, rfl⟩ := hq
      have hx' := mem_ratingPairsSpec.1 ((hsort.mem_iff _ _).1 (List.mem_of_mem_take hx))
      have hy' := mem_ratingPairsSpec.1 ((hsort.mem_iff _ _).1 (List.mem_of_mem_drop hy))
      rw [← hx'.2.2, ← hy'.2.2]
      exact take_dominates_drop sort hsort _ _ x hx y hy
    have hperm : (((sort (ratingPairsSpec
          (fun m => decide (m.genre = genre) && decide (m.industry = industry)) ms)).take
            (min k ((sort (ratingPairsSpec
              (fun m => decide (m.genre = genre) && decide (m.industry = industry)) ms)).length
                : Int)).toNat).map Prod.snd
        ++ ((sort (ratingPairsSpec
          (fun m => decide (m.genre = genre) && decide (m.industry = industry)) ms)).drop
            (min k ((sort (ratingPairsSpec
              (fun m => decide (m.genre = genre) && decide (m.industry = industry)) ms)).length
                : Int)).toNat).map Prod.snd).Perm
        (positionsOf (fun m => decide (m.genre = genre) && decide (m.industry = industry)) ms) := by
      rw [← List.map_append, List.take_append_drop, ← ratingPairsSpec_map_snd]
      exact (hsort _).1.map _
    refine ⟨_, _, recommendByGenreAndIndustry_eq sort hsort ms genre industry k, hperm, hdom, ?_⟩
    intro m hm hg hi hnot r hr
    obtain ⟨q, hq, rfl⟩ := List.getElem_of_mem hm
    have hqD : ms.getD q defaultMovie = ms[q] := List.getD_eq_getElem _ _ hq
    have hqpos : q ∈ positionsOf
        (fun m => decide (m.genre = genre) && decide (m.industry = industry)) ms := by
      rw [mem_positionsOf, hqD]
      exact ⟨hq, by simp [hg, hi]⟩
    rcases List.mem_append.1 (hperm.mem_iff.2 hqpos) with hret | hrest
    · exact absurd (List.mem_map.2 ⟨q, hret, hqD⟩) hnot
    · obtain ⟨p, hp, rfl⟩ := List.mem_map.1 hr
      rw [← hqD]
      exact hdom p hp q hrest
  · rw [recommendByGenreAndIndustry_eq sort hsort]
    have hpairs : ratingPairsSpec
        (fun m => decide (m.genre = "Sci-Fi") && decide (m.industry = "Hollywood"))
        [inception, interstellar] = [(Binary64.lit 8.8, 0), (Binary64.lit 8.6, 1)] := by decide!
    rw [hpairs, sort_sample_pairs sort hsort]
    decide!

/-- Witness of C10 with a concrete sort on the two-movie sample catalog. -/
theorem recommendByGenreAndIndustry_k_best_witness :
    recommendByGenreAndIndustry stableSort (ofCatalog [inception, interstellar])
        "Sci-Fi" "Hollywood" 1 = some [inception] :=
  (recommendByGenreAndIndustry_k_best stableSort isStdSort_stableSort
    [inception, interstellar] "Sci-Fi" "Hollywood" 1).2

end ContentBasedRecommender

/-! ## List lemmas -/

theorem flatMap_ite_singleton {α β : Type} (l : List α) (p : α → Bool) (g : α → β) :
    l.flatMap (fun x => if p x = true then [g x] else []) = (l.filter p).map g := by
  induction l with
  | nil => rfl
  | cons x l ih =>
    by_cases hp : p x = true <;> simp [List.flatMap_cons, List.filter_cons, hp, ih]

theorem flatMap_congr_mem {α β : Type} (l : List α) (f g : α → List β)
    (h : ∀ x ∈ l, f x = g x) : l.flatMap f = l.flatMap g := by
  induction l with
  | nil => rfl
  | cons x l ih =>
    rw [List.flatMap_cons, List.flatMap_cons, h x (List.mem_cons_self _ _),
      ih (fun y hy => h y (List.mem_cons_of_mem _ hy))]

theorem flatMap_eq_nil_of_forall {α β : Type} (l : List α) (f : α → List β)
    (h : ∀ x ∈ l, f x = []) : l.flatMap f = [] := by
  rw [flatMap_congr_mem l f (fun _ => []) h]
  induction l with
  | nil => rfl
  | cons x l ih => simp [List.flatMap_cons]

theorem filter_eq_and (l : List Nat) (r : Nat) (q : Nat → Bool) (hnd : l.Nodup)
    (hr : r ∈ l) :
    l.filter (fun j => decide (j = r) && q j) = if q r = true then [r] else [] := by
  induction l with
  | nil => simp at hr
  | cons x l ih =>
    rw [List.nodup_cons] at hnd
    by_cases hx : x = r
    · subst hx
      have hrest : l.filter (fun j => decide (j = x) && q j) = [] := by
        rw [List.filter_eq_nil_iff]
        intro j hj
        have hne : j ≠ x := fun h => hnd.1 (h ▸ hj)
        simp [hne]
      by_cases hq : q x = true <;> simp [List.filter_cons, hq, hrest]
    · have hr' : r ∈ l := by
        rcases List.mem_cons.1 hr with h | h
        · exact absurd h.symm hx
        · exact h
      simp [List.filter_cons, hx, ih hnd.2 hr']

theorem range_split (n r : Nat) (hr : r < n) :
    List.range n = List.range r ++ r :: List.range' (r + 1) (n - (r + 1)) := by
  have h1 : n = ((n - (r + 1)) + 1) + r := by omega
  conv_lhs => rw [h1]
  rw [List.range_eq_range', List.range_eq_range', ← List.range'_append 0 r _ 1,
    List.range'_succ]
  simp

/-! ## The adjacency lists as a sequence of pushes -/

theorem pushAt_length (adj : List (List (Nat × ℚ))) (i : Nat) (e : Nat × ℚ) :
    (pushAt adj i e).length = adj.length := by
  induction adj generalizing i with
  | nil => rfl
  | cons row rows ih =>
    cases i with
    | zero => rfl
    | succ i => simp [pushAt, ih]

theorem getD_pushAt (adj : List (List (Nat × ℚ))) (i r : Nat) (e : Nat × ℚ)
    (hr : r < adj.length) :
    (pushAt adj i e).getD r [] = adj.getD r [] ++ (if i = r then [e] else []) := by
  induction adj generalizing i r with
  | nil => simp at hr
  | cons row rows ih =>
    cases i with
    | zero =>
      cases r with
      | zero => simp [pushAt]
      | succ r => simp [pushAt]
    | succ i =>
      cases r with
      | zero => simp [pushAt]
      | succ r =>
        have hr' : r < rows.length := by simpa using hr
        simpa [pushAt] using ih i r hr'

namespace GraphBasedRecommender

theorem applyPushes_nil (adj : List (List (Nat × ℚ))) : applyPushes adj [] = adj := rfl

theorem applyPushes_cons (adj : List (List (Nat × ℚ))) (p : Nat × (Nat × ℚ))
    (ps : List (Nat × (Nat × ℚ))) :
    applyPushes adj (p :: ps) = applyPushes (pushAt adj p.1 p.2) ps := rfl

theorem applyPushes_append (adj : List (List (Nat × ℚ))) (ps qs : List (Nat × (Nat × ℚ))) :
    applyPushes adj (ps ++ qs) = applyPushes (applyPushes adj ps) qs := by
  simp [applyPushes, List.foldl_append]

theorem applyPushes_length (adj : List (List (Nat × ℚ))) (ps : List (Nat × (Nat × ℚ))) :
    (applyPushes adj ps).length = adj.length := by
  induction ps generalizing adj with
  | nil => rfl
  | cons p ps ih => rw [applyPushes_cons, ih, pushAt_length]

theorem getD_applyPushes (adj : List (List (Nat × ℚ))) (ps : List (Nat × (Nat × ℚ)))
    (r : Nat) (hr : r < adj.length) :
    (applyPushes adj ps).getD r [] =
      adj.getD r [] ++ (ps.filter (fun p => decide (p.1 = r))).map Prod.snd := by
  induction ps generalizing adj with
  | nil => simp [applyPushes_nil]
  | cons p ps ih =>
    rw [applyPushes_cons, ih _ (by rw [pushAt_length]; exact hr), getD_pushAt _ _ _ _ hr]
    by_cases hp : p.1 = r <;> simp [List.filter_cons, hp]

theorem addEdge_eq (ms : List Movie) (i : Nat) (adj : List (List (Nat × ℚ))) (j : Nat) :
    addEdge ms i adj j = applyPushes adj (edgePushes ms i j) := by
  unfold addEdge edgePushes
  simp only
  split_ifs <;> rfl

theorem foldl_applyPushes {α : Type} (f : α → List (Nat × (Nat × ℚ))) (l : List α)
    (adj : List (List (Nat × ℚ))) :
    l.foldl (fun a x => applyPushes a (f x)) adj = applyPushes adj (l.flatMap f) := by
  induction l generalizing adj with
  | nil => rfl
  | cons x l ih => rw [List.foldl_cons, ih, List.flatMap_cons, applyPushes_append]

theorem buildAdj_eq (ms : List Movie) :
    buildAdj ms = applyPushes (List.replicate ms.length [])
      ((List.range ms.length).flatMap (fun i =>
        (List.range' (i + 1) (ms.length - (i + 1))).flatMap (edgePushes ms i))) := by
  unfold buildAdj
  rw [← foldl_applyPushes]
  congr 1
  funext adj i
  unfold buildRow
  rw [← foldl_applyPushes]
  congr 1
  funext a j
  exact addEdge_eq ms i a j

theorem buildAdj_length (ms : List Movie) : (buildAdj ms).length = ms.length := by
  rw [buildAdj_eq, applyPushes_length, List.length_replicate]

/-- The entries that the pair `(i, j)` leaves in row `r`. -/
theorem edgePushes_row (ms : List Movie) (i j r : Nat) :
    ((edgePushes ms i j).filter (fun p => decide (p.1 = r))).map Prod.snd =
      if calculateSimilarity (ms.getD i defaultMovie) (ms.getD j defaultMovie) > Binary64.lit 0.2 then
        (if i = r then
            [(j, calculateSimilarity (ms.getD i defaultMovie) (ms.getD j defaultMovie))]
          else [])
        ++ (if j = r then
            [(i, calculateSimilarity (ms.getD i defaultMovie) (ms.getD j defaultMovie))]
          else [])
      else [] := by
  unfold edgePushes
  simp only
  generalize calculateSimilarity (ms.getD i defaultMovie) (ms.getD j defaultMovie) = s
  by_cases hs : s > Binary64.lit 0.2
  · by_cases hi : i = r <;> by_cases hj : j = r <;> simp [hs, hi, hj, List.filter_cons]
  · simp [hs]

/-- The entries that the inner loop for a position `i` below `r` leaves in row `r`: the
edge to `i`, when it is retained. -/
theorem inner_row_lt (ms : List Movie) (i r : Nat) (hir : i < r) (hr : r < ms.length) :
    (List.range' (i + 1) (ms.length - (i + 1))).flatMap
        (fun j => ((edgePushes ms i j).filter (fun p => decide (p.1 = r))).map Prod.snd) =
      if decide (calculateSimilarity (ms.getD r defaultMovie) (ms.getD i defaultMovie) > Binary64.lit 0.2)
          = true then
        [(i, calculateSimilarity (ms.getD r defaultMovie) (ms.getD i defaultMovie))]
      else [] := by
  have hne : i ≠ r := Nat.ne_of_lt hir
  have hfun : (fun j => ((edgePushes ms i j).filter (fun p => decide (p.1 = r))).map Prod.snd)
      = fun j => if (decide (j = r) && decide (calculateSimilarity
            (ms.getD i defaultMovie) (ms.getD j defaultMovie) > Binary64.lit 0.2)) = true then
          [(fun _ : Nat => (i, calculateSimilarity (ms.getD r defaultMovie)
            (ms.getD i defaultMovie))) j]
        else [] := by
    funext j
    rw [edgePushes_row]
    by_cases hj : j = r
    · subst hj
      rw [calculateSimilarity_swap (ms.getD j defaultMovie) (ms.getD i defaultMovie)]
      by_cases hs : calculateSimilarity (ms.getD i defaultMovie) (ms.getD j defaultMovie) > Binary64.lit 0.2
        <;> simp [hs, hne]
    · by_cases hs : calculateSimilarity (ms.getD i defaultMovie) (ms.getD j defaultMovie) > Binary64.lit 0.2
        <;> simp [hs, hne, hj]
  rw [hfun, flatMap_ite_singleton,
    filter_eq_and _ r _ (List.nodup_range' _ _) (by rw [List.mem_range'_1]; omega)]
  rw [calculateSimilarity_swap (ms.getD i defaultMovie) (ms.getD r defaultMovie)]
  split_ifs <;> rfl

/-- The entries that the inner loop for position `r` leaves in row `r`: the retained edges
to the positions above `r`, in increasing order. -/
theorem inner_row_eq (ms : List Movie) (r : Nat) :
    (List.range' (r + 1) (ms.length - (r + 1))).flatMap
        (fun j => ((edgePushes ms r j).filter (fun p => decide (p.1 = r))).map Prod.snd) =
      ((List.range' (r + 1) (ms.length - (r + 1))).filter (fun j => decide (j ≠ r) &&
        decide (calculateSimilarity (ms.getD r defaultMovie) (ms.getD j defaultMovie)
          > Binary64.lit 0.2))).map
      (fun j => (j, calculateSimilarity (ms.getD r defaultMovie) (ms.getD j defaultMovie))) := by
  rw [← flatMap_ite_singleton]
  apply flatMap_congr_mem
  intro j hj
  rw [List.mem_range'_1] at hj
  have hne : j ≠ r := by omega
  rw [edgePushes_row]
  by_cases hs : calculateSimilarity (ms.getD r defaultMovie) (ms.getD j defaultMovie) > Binary64.lit 0.2
    <;> simp [hs, hne]

/-- The inner loop for a position above `r` leaves row `r` alone. -/
theorem inner_row_gt (ms : List Movie) (i r : Nat) (hri : r < i) :
    (List.range' (i + 1) (ms.length - (i + 1))).flatMap
        (fun j => ((edgePushes ms i j).filter (fun p => decide (p.1 = r))).map Prod.snd) = [] := by
  apply flatMap_eq_nil_of_forall
  intro j hj
  rw [List.mem_range'_1] at hj
  have hne : j ≠ r := by omega
  have hne' : i ≠ r := by omega
  rw [edgePushes_row]
  simp [hne, hne']

/-- The adjacency list that `buildSimilarityGraph` leaves at a position, in closed form. -/
theorem getD_buildAdj (ms : List Movie) (r : Nat) (hr : r < ms.length) :
    (buildAdj ms).getD r [] = neighboursSpec ms r := by
  rw [buildAdj_eq, getD_applyPushes _ _ _ (by simpa using hr)]
  have hempty : (List.replicate ms.length ([] : List (Nat × ℚ))).getD r [] = [] := by
    simp [List.getD_eq_getElem?_getD, List.getElem?_replicate, hr]
  rw [hempty, List.nil_append, List.filter_flatMap, List.map_flatMap]
  simp only [List.filter_flatMap, List.map_flatMap]
  unfold neighboursSpec
  rw [range_split ms.length r hr, List.flatMap_append, List.flatMap_cons, List.filter_append,
    List.filter_cons, List.map_append]
  have hA : (List.range r).flatMap (fun i =>
      (List.range' (i + 1) (ms.length - (i + 1))).flatMap
        (fun j => ((edgePushes ms i j).filter (fun p => decide (p.1 = r))).map Prod.snd))
      = ((List.range r).filter (fun j => decide (j ≠ r) &&
          decide (calculateSimilarity (ms.getD r defaultMovie) (ms.getD j defaultMovie)
            > Binary64.lit 0.2))).map
        (fun j => (j, calculateSimilarity (ms.getD r defaultMovie)
          (ms.getD j defaultMovie))) := by
    rw [← flatMap_ite_singleton]
    apply flatMap_congr_mem
    intro i hi
    rw [List.mem_range] at hi
    rw [inner_row_lt ms i r hi hr]
    have hne : i ≠ r := Nat.ne_of_lt hi
    simp [hne]
  have hC : (List.range' (r + 1) (ms.length - (r + 1))).flatMap (fun i =>
      (List.range' (i + 1) (ms.length - (i + 1))).flatMap
        (fun j => ((edgePushes ms i j).filter (fun p => decide (p.1 = r))).map Prod.snd))
      = [] := by
    apply flatMap_eq_nil_of_forall
    intro i hi
    rw [List.mem_range'_1] at hi
    exact inner_row_gt ms i r (by omega)
  rw [hA, hC, inner_row_eq]
  simp

theorem foldl_addMovie_movies (ms : List Movie) (g : GraphBasedRecommender) :
    (ms.foldl addMovie g).movies = g.movies ++ ms := by
  induction ms generalizing g with
  | nil => simp
  | cons m ms ih => simp [List.foldl_cons, ih, addMovie]

theorem graph_movies (ms : List Movie) : (ofCatalog ms).movies = ms := by
  simp [ofCatalog, buildSimilarityGraph, foldl_addMovie_movies, empty]

theorem ofCatalog_adjList (ms : List Movie) : (ofCatalog ms).adjList = buildAdj ms := by
  simp [ofCatalog, buildSimilarityGraph, foldl_addMovie_movies, empty]

theorem mem_neighboursSpec (ms : List Movie) (x y : Nat) (s : ℚ) :
    (y, s) ∈ neighboursSpec ms x ↔
      y < ms.length ∧ y ≠ x
        ∧ calculateSimilarity (ms.getD x defaultMovie) (ms.getD y defaultMovie) > Binary64.lit 0.2
        ∧ s = calculateSimilarity (ms.getD x defaultMovie) (ms.getD y defaultMovie) := by
  unfold neighboursSpec
  simp only [List.mem_map, List.mem_filter, List.mem_range, Bool.and_eq_true, decide_eq_true_eq,
    Prod.mk.injEq]
  constructor
  · rintro ⟨j, ⟨hj, hne, hs⟩, rfl, rfl⟩
    exact ⟨hj, hne, hs, rfl⟩
  · rintro ⟨hj, hne, hs, rfl⟩
    exact ⟨y, ⟨hj, hne, hs⟩, rfl, rfl⟩

/-- Membership in an adjacency list after `buildSimilarityGraph`. -/
theorem mem_adjList_iff (ms : List Movie) (x y : Nat) (s : ℚ) :
    (y, s) ∈ (ofCatalog ms).adjList.getD x [] ↔
      x < ms.length ∧ y < ms.length ∧ y ≠ x
        ∧ calculateSimilarity (ms.getD x defaultMovie) (ms.getD y defaultMovie) > Binary64.lit 0.2
        ∧ s = calculateSimilarity (ms.getD x defaultMovie) (ms.getD y defaultMovie) := by
  rw [ofCatalog_adjList]
  by_cases hx : x < ms.length
  · rw [getD_buildAdj ms x hx, mem_neighboursSpec]
    simp [hx]
  · have hnil : (buildAdj ms).getD x [] = [] := by
      rw [List.getD_eq_default]
      rw [buildAdj_length]
      omega
    rw [hnil]
    simp [hx]

/-- C5: after `buildSimilarityGraph`, for two distinct positions i and j, j occurs in
`adjList[i]` (and i in `adjList[j]`) exactly when the similarity of the two movies exceeds
0.2, and the score stored with the entry is that similarity; in the catalog
[Inception, Interstellar] the edge is retained. -/
theorem buildSimilarityGraph_edge_iff (ms : List Movie) :
    (∀ i j, i < ms.length → j < ms.length → i ≠ j →
      ((∃ s, (j, s) ∈ (ofCatalog ms).adjList.getD i []) ↔
          calculateSimilarity (ms.getD i defaultMovie) (ms.getD j defaultMovie) > Binary64.lit 0.2)
        ∧ ((∃ s, (i, s) ∈ (ofCatalog ms).adjList.getD j []) ↔
          calculateSimilarity (ms.getD i defaultMovie) (ms.getD j defaultMovie) > Binary64.lit 0.2)
        ∧ (∀ s, (j, s) ∈ (ofCatalog ms).adjList.getD i [] →
          s = calculateSimilarity (ms.getD i defaultMovie) (ms.getD j defaultMovie))
        ∧ (∀ s, (i, s) ∈ (ofCatalog ms).adjList.getD j [] →
          s = calculateSimilarity (ms.getD i defaultMovie) (ms.getD j defaultMovie)))
    ∧ (ofCatalog [inception, interstellar]).adjList
        = [[(1, Binary64.lit 0.696)], [(0, Binary64.lit 0.696)]] := by
  refine ⟨?_, by decide!⟩
  intro i j hi hj hij
  have hcomm := calculateSimilarity_swap (ms.getD j defaultMovie) (ms.getD i defaultMovie)
  refine ⟨?_, ?_, ?_, ?_⟩
  · constructor
    · rintro ⟨s, hs⟩
      exact ((mem_adjList_iff ms i j s).1 hs).2.2.2.1
    · intro hs
      exact ⟨_, (mem_adjList_iff ms i j _).2 ⟨hi, hj, Ne.symm hij, hs, rfl⟩⟩
  · constructor
    · rintro ⟨s, hs⟩
      rw [← hcomm]
      exact ((mem_adjList_iff ms j i s).1 hs).2.2.2.1
    · intro hs
      rw [← hcomm] at hs
      exact ⟨_, (mem_adjList_iff ms j i _).2 ⟨hj, hi, hij, hs, rfl⟩⟩
  · intro s hs
    exact ((mem_adjList_iff ms i j s).1 hs).2.2.2.2
  · intro s hs
    rw [← hcomm]
    exact ((mem_adjList_iff ms j i s).1 hs).2.2.2.2

/-- Witness of C5: the two positions of the two-movie sample catalog. -/
theorem buildSimilarityGraph_edge_iff_witness :
    (∃ s, (1, s) ∈ (ofCatalog [inception, interstellar]).adjList.getD 0 []) ↔
      calculateSimilarity ([inception, interstellar].getD 0 defaultMovie)
        ([inception, interstellar].getD 1 defaultMovie) > Binary64.lit 0.2 :=
  ((buildSimilarityGraph_edge_iff [inception, interstellar]).1 0 1
    (by decide) (by decide) (by decide)).1

/-- C6: after `buildSimilarityGraph` the adjacency structure is symmetric: (y, s) is an
entry of `adjList[x]` exactly when (x, s) is an entry of `adjList[y]`. -/
theorem buildSimilarityGraph_symmetric (ms : List Movie) (x y : Nat) (s : ℚ) :
    (y, s) ∈ (ofCatalog ms).adjList.getD x [] ↔ (x, s) ∈ (ofCatalog ms).adjList.getD y [] := by
  rw [mem_adjList_iff, mem_adjList_iff,
    calculateSimilarity_swap (ms.getD y defaultMovie) (ms.getD x defaultMovie)]
  constructor
  · rintro ⟨hx, hy, hne, hs, rfl⟩
    exact ⟨hy, hx, Ne.symm hne, hs, rfl⟩
  · rintro ⟨hy, hx, hne, hs, rfl⟩
    exact ⟨hx, hy, Ne.symm hne, hs, rfl⟩

/-- C7: after `buildSimilarityGraph` on a catalog whose ratings lie in [0, 10], no
adjacency list contains its own position, none contains a neighbour position twice, and
every stored score lies in [0, 1]. -/
theorem buildSimilarityGraph_invariants (ms : List Movie)
    (hrat : ∀ m ∈ ms, 0 ≤ m.rating ∧ m.rating ≤ 10) (i : Nat) :
    (∀ s, (i, s) ∉ (ofCatalog ms).adjList.getD i [])
    ∧ (((ofCatalog ms).adjList.getD i []).map Prod.fst).Nodup
    ∧ ∀ e ∈ (ofCatalog ms).adjList.getD i [], 0 ≤ e.2 ∧ e.2 ≤ 1 := by
  refine ⟨?_, ?_, ?_⟩
  · intro s hs
    exact ((mem_adjList_iff ms i i s).1 hs).2.2.1 rfl
  · rw [ofCatalog_adjList]
    by_cases hi : i < ms.length
    · rw [getD_buildAdj ms i hi]
      unfold neighboursSpec
      rw [List.map_map]
      have hid : (Prod.fst ∘ fun j => (j, calculateSimilarity (ms.getD i defaultMovie)
          (ms.getD j defaultMovie))) = id := by
        funext j
        rfl
      rw [hid, List.map_id]
      exact (List.nodup_range _).filter _
    · have hnil : (buildAdj ms).getD i [] = [] := by
        rw [List.getD_eq_default]
        rw [buildAdj_length]
        omega
      rw [hnil]
      exact List.nodup_nil
  · rintro ⟨j, s⟩ he
    obtain ⟨hi, hj, -, -, rfl⟩ := (mem_adjList_iff ms i j s).1 he
    have hmi : ms.getD i defaultMovie ∈ ms := by
      rw [List.getD_eq_getElem _ _ hi]
      exact List.getElem_mem _
    have hmj : ms.getD j defaultMovie ∈ ms := by
      rw [List.getD_eq_getElem _ _ hj]
      exact List.getElem_mem _
    exact calculateSimilarity_bounds _ _ (hrat _ hmi) (hrat _ hmj)

/-- Witness of C7 on the two-movie sample catalog. -/
theorem buildSimilarityGraph_invariants_witness :
    (∀ s, (0, s) ∉ (ofCatalog [inception, interstellar]).adjList.getD 0 [])
    ∧ (((ofCatalog [inception, interstellar]).adjList.getD 0 []).map Prod.fst).Nodup
    ∧ ∀ e ∈ (ofCatalog [inception, interstellar]).adjList.getD 0 [], 0 ≤ e.2 ∧ e.2 ≤ 1 :=
  buildSimilarityGraph_invariants [inception, interstellar]
    (by decide!)
    0

end GraphBasedRecommender

/-! ## Positions and filtered catalogs -/

theorem positionsOf_map_getD (p : Movie → Bool) (ms : List Movie) :
    (positionsOf p ms).map (fun i => ms.getD i defaultMovie) = ms.filter p := by
  induction ms using List.reverseRecOn with
  | nil => rfl
  | append_singleton ms m ih =>
    rw [positionsOf_concat, List.map_append, List.filter_append, ← ih]
    congr 1
    · apply List.map_congr_left
      intro i hi
      rw [List.getD_append _ _ _ _ (mem_positionsOf.1 hi).1]
    · have hlast : (ms ++ [m]).getD ms.length defaultMovie = m := by
        simp [List.getD_eq_getElem?_getD]
      by_cases hp : p m = true
      · simp [hp, hlast]
      · simp [hp]

theorem positionsOf_length (p : Movie → Bool) (ms : List Movie) :
    (positionsOf p ms).length = (ms.filter p).length := by
  rw [← positionsOf_map_getD, List.length_map]

theorem positionsOf_filter (p q : Movie → Bool) (ms : List Movie) :
    (positionsOf p ms).filter (fun i => q (ms.getD i defaultMovie))
      = positionsOf (fun m => p m && q m) ms := by
  simp only [positionsOf, List.filter_filter]
  apply List.filter_congr
  intro i _
  simp [Bool.and_comm]

theorem positionsOf_eq_nil_iff (p : Movie → Bool) (ms : List Movie) :
    positionsOf p ms = [] ↔ ∀ m ∈ ms, p m = false := by
  rw [← List.length_eq_zero, positionsOf_length, List.length_eq_zero, List.filter_eq_nil_iff]
  simp

namespace ContentBasedRecommender

theorem moviesOfIndustry_eq (ms : List Movie) (industry : String)
    (idxs : List Nat) (h : ∀ i ∈ idxs, i < ms.length) :
    moviesOfIndustry ms industry idxs =
      some ((idxs.filter (fun i => decide ((ms.getD i defaultMovie).industry = industry))).map
        (fun i => ms.getD i defaultMovie)) := by
  induction idxs with
  | nil => rfl
  | cons i rest ih =>
    have hi : i < ms.length := h i (List.mem_cons_self _ _)
    have hrest := ih (fun j hj => h j (List.mem_cons_of_mem _ hj))
    have hget : ms.getD i defaultMovie = ms[i] := List.getD_eq_getElem _ _ hi
    rw [moviesOfIndustry, hrest, List.getElem?_eq_getElem hi, List.filter_cons, hget]
    by_cases hind : ms[i].industry = industry <;>
      simp [hind, List.getElem?_eq_getElem hi]

/-- The list returned by `getMoviesByGenreAndIndustry` on a catalog. -/
theorem getMoviesByGenreAndIndustry_eq (ms : List Movie) (genre industry : String) :
    getMoviesByGenreAndIndustry (ofCatalog ms) genre industry =
      some (ms.filter (fun m => decide (m.genre = genre) && decide (m.industry = industry))) := by
  obtain ⟨hm, hg, -, -⟩ := ofCatalog_spec ms
  unfold getMoviesByGenreAndIndustry
  rw [hg genre, hm, ← positionsOf_map_getD, ← positionsOf_filter]
  by_cases he : positionsOf (fun m => decide (m.genre = genre)) ms = []
  · simp [he]
  · rw [if_neg he]
    simp only
    rw [moviesOfIndustry_eq ms industry _ (fun i hi => (mem_positionsOf.1 hi).1)]

/-- C13: `getMoviesByGenreAndIndustry` returns the catalog movies whose genre and industry
both equal the arguments, each once, in catalog order: the catalog list filtered by that
predicate. -/
theorem getMoviesByGenreAndIndustry_filter (ms : List Movie) (genre industry : String) :
    getMoviesByGenreAndIndustry (ofCatalog ms) genre industry =
      some (ms.filter (fun m => decide (m.genre = genre ∧ m.industry = industry))) := by
  rw [getMoviesByGenreAndIndustry_eq]
  congr 1
  apply List.filter_congr
  intro m _
  simp [Bool.decide_and]

end ContentBasedRecommender

/-! ## The shared ranking step -/

/-- The ranking step shared by the recommenders, on the pairs of the positions that
satisfy `p`: the positions split into the returned ones and the others, the returned ones
are `min(k, m)` many, sorted by non-increasing rating, and dominate the others. -/
theorem takeTopN_sort_spec (sort : List (ℚ × Nat) → List (ℚ × Nat)) (hsort : IsStdSort sort)
    (ms : List Movie) (p : Movie → Bool) (k : Int) :
    ∃ ret rest : List Nat,
      takeTopN ms k (sort (ratingPairsSpec p ms))
          = some (ret.map (fun i => ms.getD i defaultMovie))
        ∧ (ret ++ rest).Perm (positionsOf p ms)
        ∧ ret.length = min k.toNat (ms.filter p).length
        ∧ (ret.map (fun i => ms.getD i defaultMovie)).Pairwise
            (fun a b => b.rating ≤ a.rating)
        ∧ ∀ i ∈ ret, ∀ j ∈ rest,
            (ms.getD j defaultMovie).rating ≤ (ms.getD i defaultMovie).rating := by
  have hmem : ∀ x ∈ sort (ratingPairsSpec p ms),
      x.2 < ms.length ∧ x.1 = (ms.getD x.2 defaultMovie).rating := by
    intro x hx
    have hx' := mem_ratingPairsSpec.1 ((hsort.mem_iff _ _).1 hx)
    exact ⟨hx'.1, hx'.2.2⟩
  have hlen : (sort (ratingPairsSpec p ms)).length = (ms.filter p).length := by
    rw [(hsort _).1.length_eq, ratingPairsSpec, List.length_map, positionsOf_length]
  refine ⟨((sort (ratingPairsSpec p ms)).take
      (min k ((sort (ratingPairsSpec p ms)).length : Int)).toNat).map Prod.snd,
    ((sort (ratingPairsSpec p ms)).drop
      (min k ((sort (ratingPairsSpec p ms)).length : Int)).toNat).map Prod.snd,
    takeTopN_eq ms k _ (fun x hx => (hmem x hx).1), ?_, ?_, ?_, ?_⟩
  · rw [← List.map_append, List.take_append_drop, ← ratingPairsSpec_map_snd]
    exact (hsort _).1.map _
  · simp only [List.length_map, List.length_take]
    omega
  · rw [List.map_map, List.pairwise_map]
    refine List.Pairwise.imp_of_mem ?_ ((hsort.sorted _).sublist (List.take_sublist _ _))
    intro a b ha hb hab
    simp only [Function.comp_apply]
    rw [← (hmem a (List.mem_of_mem_take ha)).2, ← (hmem b (List.mem_of_mem_take hb)).2]
    exact hab
  · intro i hi j hj
    rw [List.mem_map] at hi hj
    obtain ⟨x, hx, rfl⟩ := hi
    obtain ⟨y, hy, rfl⟩ := hj
    rw [← (hmem x (List.mem_of_mem_take hx)).2, ← (hmem y (List.mem_of_mem_drop hy)).2]
    exact ContentBasedRecommender.take_dominates_drop sort hsort _ _ x hx y hy

/-- When at least as many movies are asked for as there are candidates, the returned
positions are all the candidates. -/
theorem perm_of_length_le {ret rest cand : List Nat} (hperm : (ret ++ rest).Perm cand)
    (hlen : cand.length ≤ ret.length) : ret.Perm cand := by
  have h := hperm.length_eq
  rw [List.length_append] at h
  have hrest : rest = [] := List.length_eq_zero.1 (by omega)
  simpa [hrest] using hperm

namespace ContentBasedRecommender

theorem recommendByGenreAndIndustry_takeTopN (sort : List (ℚ × Nat) → List (ℚ × Nat))
    (hsort : IsStdSort sort) (ms : List Movie) (genre industry : String) (topN : Int) :
    recommendByGenreAndIndustry sort (ofCatalog ms) genre industry topN =
      takeTopN ms topN (sort (ratingPairsSpec
        (fun m => decide (m.genre = genre) && decide (m.industry = industry)) ms)) := by
  rw [recommendByGenreAndIndustry_eq sort hsort, takeTopN_eq]
  intro x hx
  exact (mem_ratingPairsSpec.1 ((hsort.mem_iff _ _).1 hx)).1

/-- C12: for k >= 0 the result of `recommendByGenreAndIndustry` has exactly min(k, m)
movies, where m is the number of catalog movies of the genre and industry, and for k >= m
it is a permutation of the result of `getMoviesByGenreAndIndustry`. -/
theorem recommendByGenreAndIndustry_length (sort : List (ℚ × Nat) → List (ℚ × Nat))
    (hsort : IsStdSort sort) (ms : List Movie) (genre industry : String) (k : Int)
    (hk : 0 ≤ k) :
    ∃ l all, recommendByGenreAndIndustry sort (ofCatalog ms) genre industry k = some l
      ∧ getMoviesByGenreAndIndustry (ofCatalog ms) genre industry = some all
      ∧ all = ms.filter (fun m => decide (m.genre = genre ∧ m.industry = industry))
      ∧ (l.length : Int) = min k (all.length : Int)
      ∧ ((all.length : Int) ≤ k → l.Perm all) := by
  obtain ⟨ret, rest, hres, hperm, hlen, -, -⟩ := takeTopN_sort_spec sort hsort ms
    (fun m => decide (m.genre = genre) && decide (m.industry = industry)) k
  have hall : ms.filter (fun m => decide (m.genre = genre) && decide (m.industry = industry))
      = ms.filter (fun m => decide (m.genre = genre ∧ m.industry = industry)) := by
    apply List.filter_congr
    intro m _
    simp [Bool.decide_and]
  refine ⟨_, _, (recommendByGenreAndIndustry_takeTopN sort hsort ms genre industry k).trans hres,
    getMoviesByGenreAndIndustry_eq ms genre industry, hall, ?_, ?_⟩
  · rw [List.length_map, hlen]
    omega
  · intro hle
    rw [← positionsOf_map_getD]
    apply List.Perm.map
    apply perm_of_length_le hperm
    rw [hlen, positionsOf_length]
    omega

/-- Witness of C12 on the two-movie sample catalog. -/
theorem recommendByGenreAndIndustry_length_witness :
    ∃ l all, recommendByGenreAndIndustry stableSort (ofCatalog [inception, interstellar])
        "Sci-Fi" "Hollywood" 1 = some l
      ∧ getMoviesByGenreAndIndustry (ofCatalog [inception, interstellar]) "Sci-Fi" "Hollywood"
        = some all
      ∧ all = [inception, interstellar].filter
          (fun m => decide (m.genre = "Sci-Fi" ∧ m.industry = "Hollywood"))
      ∧ (l.length : Int) = min 1 (all.length : Int)
      ∧ ((all.length : Int) ≤ 1 → l.Perm all) :=
  recommendByGenreAndIndustry_length stableSort isStdSort_stableSort
    [inception, interstellar] "Sci-Fi" "Hollywood" 1 (by decide)

theorem actorRatingPairs_eq (ms : List Movie) (idxs : List Nat)
    (h : ∀ i ∈ idxs, i < ms.length) :
    actorRatingPairs ms idxs =
      some (idxs.map (fun i => ((ms.getD i defaultMovie).rating, i))) := by
  induction idxs with
  | nil => rfl
  | cons i rest ih =>
    have hi : i < ms.length := h i (List.mem_cons_self _ _)
    have hrest := ih (fun j hj => h j (List.mem_cons_of_mem _ hj))
    rw [actorRatingPairs, hrest, List.getElem?_eq_getElem hi]
    simp [List.getElem?_eq_getElem hi]

theorem recommendByActor_takeTopN (sort : List (ℚ × Nat) → List (ℚ × Nat))
    (hsort : IsStdSort sort) (ms : List Movie) (actor : String) (topN : Int) :
    recommendByActor sort (ofCatalog ms) actor topN =
      takeTopN ms topN (sort (ratingPairsSpec (fun m => decide (m.actor = actor)) ms)) := by
  obtain ⟨hm, -, ha, -⟩ := ofCatalog_spec ms
  unfold recommendByActor
  rw [ha actor, hm]
  by_cases he : positionsOf (fun m => decide (m.actor = actor)) ms = []
  · simp [he, ratingPairsSpec, hsort.nil, takeTopN, moviesAt]
  · rw [if_neg he]
    simp only
    rw [actorRatingPairs_eq ms _ (fun i hi => (mem_positionsOf.1 hi).1)]
    rfl

/-- C17: for k >= 0 `recommendByActor` returns min(k, m) movies, where m is the number of
catalog movies with that actor; every returned movie has that actor, the result is sorted
by non-increasing rating, and every returned movie is rated at least as high as every
movie of that actor that is not returned. -/
theorem recommendByActor_top (sort : List (ℚ × Nat) → List (ℚ × Nat))
    (hsort : IsStdSort sort) (ms : List Movie) (actor : String) (k : Int) (hk : 0 ≤ k) :
    ∃ ret rest : List Nat,
      recommendByActor sort (ofCatalog ms) actor k
          = some (ret.map (fun i => ms.getD i defaultMovie))
        ∧ (ret ++ rest).Perm (positionsOf (fun m => decide (m.actor = actor)) ms)
        ∧ (ret.length : Int)
            = min k ((ms.filter (fun m => decide (m.actor = actor))).length : Int)
        ∧ (∀ m ∈ ret.map (fun i => ms.getD i defaultMovie), m.actor = actor)
        ∧ (ret.map (fun i => ms.getD i defaultMovie)).Pairwise
            (fun a b => b.rating ≤ a.rating)
        ∧ ∀ i ∈ ret, ∀ j ∈ rest,
            (ms.getD j defaultMovie).rating ≤ (ms.getD i defaultMovie).rating := by
  obtain ⟨ret, rest, hres, hperm, hlen, hsorted, hdom⟩ :=
    takeTopN_sort_spec sort hsort ms (fun m => decide (m.actor = actor)) k
  refine ⟨ret, rest, (recommendByActor_takeTopN sort hsort ms actor k).trans hres, hperm,
    ?_, ?_, hsorted, hdom⟩
  · rw [hlen]
    omega
  · intro m hm
    obtain ⟨i, hi, rfl⟩ := List.mem_map.1 hm
    have hpos := hperm.mem_iff.1 (List.mem_append_left _ hi)
    simpa using (mem_positionsOf.1 hpos).2

end ContentBasedRecommender

/-! ## The index invariant -/

/-- What a bucket map with the closed form of `ofCatalog_spec` holds for a position. -/
theorem bucket_facts (key : Movie → String) (M : StrMap (List Nat)) (ms : List Movie)
    (hM : ∀ k, StrMap.find M k =
      if positionsOf (fun x => decide (key x = k)) ms = [] then none
      else some (positionsOf (fun x => decide (key x = k)) ms)) :
    (∀ p, p < ms.length →
      ∃ b, StrMap.find M (key (ms.getD p defaultMovie)) = some b ∧ b.count p = 1)
    ∧ (∀ p k b, k ≠ key (ms.getD p defaultMovie) → StrMap.find M k = some b → p ∉ b)
    ∧ (∀ k b q, StrMap.find M k = some b → q ∈ b → q < ms.length) := by
  have hsome : ∀ k b, StrMap.find M k = some b →
      b = positionsOf (fun x => decide (key x = k)) ms := by
    intro k b hb
    rw [hM k] at hb
    by_cases he : positionsOf (fun x => decide (key x = k)) ms = []
    · simp [he] at hb
    · rw [if_neg he] at hb
      exact (Option.some.inj hb).symm
  refine ⟨?_, ?_, ?_⟩
  · intro p hp
    have hmem : p ∈ positionsOf (fun x => decide (key x = key (ms.getD p defaultMovie))) ms :=
      mem_positionsOf.2 ⟨hp, by simp⟩
    refine ⟨_, ?_, List.count_eq_one_of_mem (positionsOf_nodup _ ms) hmem⟩
    rw [hM, if_neg (List.ne_nil_of_mem hmem)]
  · intro p k b hk hb hmem
    rw [hsome k b hb] at hmem
    have := (mem_positionsOf.1 hmem).2
    simp only [decide_eq_true_eq] at this
    exact hk this.symm
  · intro k b q hb hq
    rw [hsome k b hb] at hq
    exact (mem_positionsOf.1 hq).1

namespace ContentBasedRecommender

/-- C15: after any sequence of `addMovie` calls every position below the movie count
occurs exactly once in the genre bucket of its movie, exactly once in the actor bucket and
exactly once in the industry bucket, occurs in no other bucket of the same map, and the
genre buckets together hold exactly the positions below the movie count. -/
theorem addMovie_index_invariant (ms : List Movie) :
    (ofCatalog ms).movies = ms
    ∧ (∀ p, p < ms.length →
        (∃ b, StrMap.find (ofCatalog ms).genreToMovies (ms.getD p defaultMovie).genre = some b
          ∧ b.count p = 1)
        ∧ (∃ b, StrMap.find (ofCatalog ms).actorToMovies (ms.getD p defaultMovie).actor = some b
          ∧ b.count p = 1)
        ∧ (∃ b, StrMap.find (ofCatalog ms).industryToMovies (ms.getD p defaultMovie).industry
            = some b ∧ b.count p = 1)
        ∧ (∀ k b, k ≠ (ms.getD p defaultMovie).genre →
            StrMap.find (ofCatalog ms).genreToMovies k = some b → p ∉ b)
        ∧ (∀ k b, k ≠ (ms.getD p defaultMovie).actor →
            StrMap.find (ofCatalog ms).actorToMovies k = some b → p ∉ b)
        ∧ (∀ k b, k ≠ (ms.getD p defaultMovie).industry →
            StrMap.find (ofCatalog ms).industryToMovies k = some b → p ∉ b))
    ∧ (∀ q, (∃ k b, StrMap.find (ofCatalog ms).genreToMovies k = some b ∧ q ∈ b)
        ↔ q < ms.length) := by
  obtain ⟨hm, hg, ha, hi⟩ := ofCatalog_spec ms
  obtain ⟨hg1, hg2, hg3⟩ := bucket_facts Movie.genre _ ms hg
  obtain ⟨ha1, ha2, -⟩ := bucket_facts Movie.actor _ ms ha
  obtain ⟨hi1, hi2, -⟩ := bucket_facts Movie.industry _ ms hi
  refine ⟨hm, ?_, ?_⟩
  · intro p hp
    exact ⟨hg1 p hp, ha1 p hp, hi1 p hp, hg2 p, ha2 p, hi2 p⟩
  · intro q
    constructor
    · rintro ⟨k, b, hb, hq⟩
      exact hg3 k b q hb hq
    · intro hq
      obtain ⟨b, hb, hcount⟩ := hg1 q hq
      refine ⟨_, b, hb, ?_⟩
      rw [← List.count_pos_iff]
      omega

/-- Witness of C15: position 0 of the two-movie sample catalog. -/
theorem addMovie_index_invariant_witness :
    ∃ b, StrMap.find (ofCatalog [inception, interstellar]).genreToMovies
        ([inception, interstellar].getD 0 defaultMovie).genre = some b ∧ b.count 0 = 1 :=
  ((addMovie_index_invariant [inception, interstellar]).2.1 0 (by decide)).1

/-- Witness of C17 on the two-movie sample catalog. -/
theorem recommendByActor_top_witness :
    ∃ ret rest : List Nat,
      recommendByActor stableSort (ofCatalog [inception, interstellar]) "Leonardo DiCaprio" 1
          = some (ret.map (fun i => [inception, interstellar].getD i defaultMovie))
        ∧ (ret ++ rest).Perm
            (positionsOf (fun m => decide (m.actor = "Leonardo DiCaprio"))
              [inception, interstellar])
        ∧ (ret.length : Int) = min 1 (([inception, interstellar].filter
            (fun m => decide (m.actor = "Leonardo DiCaprio"))).length : Int)
        ∧ (∀ m ∈ ret.map (fun i => [inception, interstellar].getD i defaultMovie),
            m.actor = "Leonardo DiCaprio")
        ∧ (ret.map (fun i => [inception, interstellar].getD i defaultMovie)).Pairwise
            (fun a b => b.rating ≤ a.rating)
        ∧ ∀ i ∈ ret, ∀ j ∈ rest,
            ([inception, interstellar].getD j defaultMovie).rating
              ≤ ([inception, interstellar].getD i defaultMovie).rating :=
  recommendByActor_top stableSort isStdSort_stableSort [inception, interstellar]
    "Leonardo DiCaprio" 1 (by decide)

end ContentBasedRecommender

/-! ## Distinct genres of an industry -/

theorem StrMap.find_assign {V : Type} (M : StrMap V) (k' k : String) (x : V) :
    StrMap.find (StrMap.assign M k' x) k = if k' = k then some x else StrMap.find M k := by
  induction M with
  | nil =>
    by_cases h : k' = k <;> simp [StrMap.assign, StrMap.find, h]
  | cons e rest ih =>
    obtain ⟨k0, v⟩ := e
    by_cases h0 : k0 = k'
    · subst h0
      by_cases h1 : k0 = k <;> simp [StrMap.assign, StrMap.find, h1]
    · by_cases h1 : k0 = k
      · subst h1
        simp [StrMap.assign, StrMap.find, h0, Ne.symm h0]
      · simp [StrMap.assign, StrMap.find, h0, h1, ih]

theorem appendNew_append (seen l1 l2 : List String) :
    appendNew seen (l1 ++ l2) = appendNew (appendNew seen l1) l2 := by
  induction l1 generalizing seen with
  | nil => rfl
  | cons g rest ih =>
    by_cases hg : g ∈ seen <;> simp [appendNew, hg, ih]

theorem appendNew_singleton (seen : List String) (g : String) :
    appendNew seen [g] = if g ∈ seen then seen else seen ++ [g] := by
  by_cases hg : g ∈ seen <;> simp [appendNew, hg]

namespace ContentBasedRecommender

theorem genresLoop_eq (ms : List Movie) (idxs : List Nat) (genreExists : StrMap Bool)
    (genres : List String) (h : ∀ i ∈ idxs, i < ms.length)
    (hinv : ∀ g, (StrMap.find genreExists g).getD false = true ↔ g ∈ genres) :
    genresLoop ms idxs genreExists genres =
      some (appendNew genres (idxs.map (fun i => (ms.getD i defaultMovie).genre))) := by
  induction idxs generalizing genreExists genres with
  | nil => rfl
  | cons i rest ih =>
    have hi : i < ms.length := h i (List.mem_cons_self _ _)
    have hrest : ∀ j ∈ rest, j < ms.length := fun j hj => h j (List.mem_cons_of_mem _ hj)
    have hget : ms.getD i defaultMovie = ms[i] := List.getD_eq_getElem _ _ hi
    rw [genresLoop, List.getElem?_eq_getElem hi, List.map_cons, appendNew, hget]
    simp only
    by_cases hseen : ms[i].genre ∈ genres
    · rw [if_pos ((hinv _).2 hseen), if_pos hseen]
      exact ih genreExists genres hrest hinv
    · have hnot : ¬ (StrMap.find genreExists ms[i].genre).getD false = true :=
        fun hc => hseen ((hinv _).1 hc)
      rw [if_neg hnot, if_neg hseen]
      apply ih _ _ hrest
      intro g
      rw [StrMap.find_assign]
      by_cases hg : ms[i].genre = g
      · simp [hg]
      · rw [if_neg hg, hinv g]
        simp [Ne.symm hg]

/-- The list returned by `getGenresByIndustry` on a catalog. -/
theorem getGenresByIndustry_eq (ms : List Movie) (industry : String) :
    getGenresByIndustry (ofCatalog ms) industry =
      some (appendNew [] ((ms.filter (fun m => decide (m.industry = industry))).map
        Movie.genre)) := by
  obtain ⟨hm, -, -, hi⟩ := ofCatalog_spec ms
  unfold getGenresByIndustry
  rw [hi industry, hm, ← positionsOf_map_getD, List.map_map]
  by_cases he : positionsOf (fun m => decide (m.industry = industry)) ms = []
  · simp [he, appendNew]
  · rw [if_neg he]
    simp only
    rw [genresLoop_eq ms _ [] [] (fun i hi => (mem_positionsOf.1 hi).1)
      (by intro g; simp [StrMap.find])]
    rfl

/-- The genres of an industry after one more movie. -/
theorem genres_concat (ms : List Movie) (m : Movie) (industry : String) :
    appendNew [] (((ms ++ [m]).filter (fun m => decide (m.industry = industry))).map
        Movie.genre) =
      if m.industry = industry then
        (if m.genre ∈ appendNew [] ((ms.filter (fun m => decide (m.industry = industry))).map
            Movie.genre) then
          appendNew [] ((ms.filter (fun m => decide (m.industry = industry))).map Movie.genre)
        else appendNew [] ((ms.filter (fun m => decide (m.industry = industry))).map
          Movie.genre) ++ [m.genre])
      else appendNew [] ((ms.filter (fun m => decide (m.industry = industry))).map
        Movie.genre) := by
  rw [List.filter_append, List.map_append, appendNew_append]
  by_cases hind : m.industry = industry
  · simp only [List.filter_cons, hind, decide_True, if_true, List.filter_nil, List.map_cons,
      List.map_nil, appendNew_singleton]
  · simp [List.filter_cons, hind, appendNew]

/-- The genres of an industry: free of duplicates, exactly the genres carried by a movie
of the industry, ordered by the position of the first such movie. -/
theorem genres_spec (ms : List Movie) (industry : String) :
    (appendNew [] ((ms.filter (fun m => decide (m.industry = industry))).map
        Movie.genre)).Nodup
    ∧ (∀ g, g ∈ appendNew [] ((ms.filter (fun m => decide (m.industry = industry))).map
        Movie.genre) ↔ ∃ m ∈ ms, m.industry = industry ∧ m.genre = g)
    ∧ (appendNew [] ((ms.filter (fun m => decide (m.industry = industry))).map
        Movie.genre)).Pairwise (fun g h =>
          ms.findIdx (fun m => decide (m.industry = industry ∧ m.genre = g))
            < ms.findIdx (fun m => decide (m.industry = industry ∧ m.genre = h))) := by
  induction ms using List.reverseRecOn with
  | nil => simp [appendNew]
  | append_singleton ms m ih =>
    obtain ⟨hnd, hmem, hord⟩ := ih
    have hold : ∀ g, g ∈ appendNew [] ((ms.filter (fun m => decide (m.industry = industry))).map
        Movie.genre) →
        (ms ++ [m]).findIdx (fun m => decide (m.industry = industry ∧ m.genre = g))
          = ms.findIdx (fun m => decide (m.industry = industry ∧ m.genre = g))
        ∧ ms.findIdx (fun m => decide (m.industry = industry ∧ m.genre = g)) < ms.length := by
      intro g hg
      obtain ⟨x, hx, hxi, hxg⟩ := (hmem g).1 hg
      have hlt : ms.findIdx (fun m => decide (m.industry = industry ∧ m.genre = g))
          < ms.length :=
        List.findIdx_lt_length_of_exists ⟨x, hx, by simp [hxi, hxg]⟩
      rw [List.findIdx_append, if_pos hlt]
      exact ⟨rfl, hlt⟩
    have hord' : (appendNew [] ((ms.filter (fun m => decide (m.industry = industry))).map
        Movie.genre)).Pairwise (fun g h =>
          (ms ++ [m]).findIdx (fun m => decide (m.industry = industry ∧ m.genre = g))
            < (ms ++ [m]).findIdx (fun m => decide (m.industry = industry ∧ m.genre = h))) := by
      refine List.Pairwise.imp_of_mem ?_ hord
      intro g h hg hh hlt
      rw [(hold g hg).1, (hold h hh).1]
      exact hlt
    rw [genres_concat]
    by_cases hind : m.industry = industry
    · rw [if_pos hind]
      by_cases hseen : m.genre ∈ appendNew []
          ((ms.filter (fun m => decide (m.industry = industry))).map Movie.genre)
      · rw [if_pos hseen]
        refine ⟨hnd, ?_, hord'⟩
        intro g
        rw [hmem g]
        constructor
        · rintro ⟨x, hx, hxi, hxg⟩
          exact ⟨x, List.mem_append_left _ hx, hxi, hxg⟩
        · rintro ⟨x, hx, hxi, hxg⟩
          rcases List.mem_append.1 hx with hx | hx
          · exact ⟨x, hx, hxi, hxg⟩
          · rw [List.mem_singleton] at hx
            subst hx
            subst hxg
            exact (hmem _).1 hseen
      · rw [if_neg hseen]
        refine ⟨?_, ?_, ?_⟩
        · rw [List.nodup_append]
          refine ⟨hnd, List.nodup_singleton _, ?_⟩
          intro g hg hg'
          rw [List.mem_singleton] at hg'
          subst hg'
          exact hseen hg
        · intro g
          rw [List.mem_append, hmem g, List.mem_singleton]
          constructor
          · rintro (⟨x, hx, hxi, hxg⟩ | rfl)
            · exact ⟨x, List.mem_append_left _ hx, hxi, hxg⟩
            · exact ⟨m, by simp, hind, rfl⟩
          · rintro ⟨x, hx, hxi, hxg⟩
            rcases List.mem_append.1 hx with hx | hx
            · exact Or.inl ⟨x, hx, hxi, hxg⟩
            · rw [List.mem_singleton] at hx
              subst hx
              exact Or.inr hxg.symm
        · rw [List.pairwise_append]
          refine ⟨hord', List.pairwise_singleton _ _, ?_⟩
          intro g hg h hh
          rw [List.mem_singleton] at hh
          subst hh
          rw [(hold g hg).1]
          have hnone : ∀ x ∈ ms,
              (fun m' : Movie => decide (m'.industry = industry ∧ m'.genre = m.genre)) x
                = false := by
            intro x hx
            by_contra hc
            simp only [Bool.not_eq_false, decide_eq_true_eq] at hc
            exact hseen ((hmem _).2 ⟨x, hx, hc.1, hc.2⟩)
          have hge : ms.length ≤ (ms ++ [m]).findIdx
              (fun m' => decide (m'.industry = industry ∧ m'.genre = m.genre)) := by
            rw [List.findIdx_append, List.findIdx_eq_length_of_false hnone]
            simp
          exact lt_of_lt_of_le (hold g hg).2 hge
    · rw [if_neg hind]
      refine ⟨hnd, ?_, hord'⟩
      intro g
      rw [hmem g]
      constructor
      · rintro ⟨x, hx, hxi, hxg⟩
        exact ⟨x, List.mem_append_left _ hx, hxi, hxg⟩
      · rintro ⟨x, hx, hxi, hxg⟩
        rcases List.mem_append.1 hx with hx | hx
        · exact ⟨x, hx, hxi, hxg⟩
        · rw [List.mem_singleton] at hx
          subst hx
          exact absurd hxi hind

/-- C16: `getGenresByIndustry` returns a duplicate-free list of exactly the genres carried
by at least one catalog movie of the industry, ordered by the catalog position of each
genre's first movie in that industry. -/
theorem getGenresByIndustry_distinct_first_order (ms : List Movie) (industry : String) :
    ∃ l, getGenresByIndustry (ofCatalog ms) industry = some l
      ∧ l.Nodup
      ∧ (∀ g, g ∈ l ↔ ∃ m ∈ ms, m.industry = industry ∧ m.genre = g)
      ∧ l.Pairwise (fun g h =>
          ms.findIdx (fun m => decide (m.industry = industry ∧ m.genre = g))
            < ms.findIdx (fun m => decide (m.industry = industry ∧ m.genre = h))) :=
  ⟨_, getGenresByIndustry_eq ms industry, genres_spec ms industry⟩

end ContentBasedRecommender

/-! ## The state of the graph-based recommender -/

namespace GraphBasedRecommender

theorem foldl_addMovie_concat (ms : List Movie) (m : Movie) :
    (ms ++ [m]).foldl addMovie empty = addMovie (ms.foldl addMovie empty) m := by
  simp [List.foldl_append]

/-- The maps reached from a catalog: the genre buckets hold the positions of their genre
and a title is mapped to the last position that carries it. -/
theorem foldl_addMovie_spec (ms : List Movie) :
    (ms.foldl addMovie empty).movies = ms
    ∧ (∀ k, StrMap.find (ms.foldl addMovie empty).genreToMovies k =
        if positionsOf (fun x => decide (x.genre = k)) ms = [] then none
        else some (positionsOf (fun x => decide (x.genre = k)) ms))
    ∧ (∀ t, StrMap.find (ms.foldl addMovie empty).titleToId t =
        (positionsOf (fun x => decide (x.title = t)) ms).getLast?) := by
  induction ms using List.reverseRecOn with
  | nil =>
    refine ⟨rfl, ?_, ?_⟩ <;> intro k <;> simp [empty, StrMap.find, positionsOf_nil]
  | append_singleton ms m ih =>
    obtain ⟨hm, hg, ht⟩ := ih
    rw [foldl_addMovie_concat]
    refine ⟨?_, ?_, ?_⟩
    · simp [addMovie, hm]
    · intro k
      simpa [addMovie, hm] using find_bucket_step Movie.genre _ ms m hg k
    · intro t
      simp only [addMovie, hm]
      rw [StrMap.find_assign, positionsOf_concat, ht t]
      by_cases htitle : m.title = t
      · simp [htitle]
      · simp [htitle]

theorem graph_genreToMovies (ms : List Movie) (k : String) :
    StrMap.find (ofCatalog ms).genreToMovies k =
      if positionsOf (fun x => decide (x.genre = k)) ms = [] then none
      else some (positionsOf (fun x => decide (x.genre = k)) ms) :=
  (foldl_addMovie_spec ms).2.1 k

/-- The position a title resolves to in the graph-based recommender: the last position of
the catalog that carries the title. -/
theorem graph_titleToId (ms : List Movie) (t : String) :
    StrMap.find (ofCatalog ms).titleToId t =
      (positionsOf (fun x => decide (x.title = t)) ms).getLast? :=
  (foldl_addMovie_spec ms).2.2 t

theorem graph_titleToId_lt (ms : List Movie) (t : String) (i : Nat)
    (h : StrMap.find (ofCatalog ms).titleToId t = some i) : i < ms.length := by
  rw [graph_titleToId] at h
  exact (mem_positionsOf.1 (List.mem_of_getLast?_eq_some h)).1

theorem adjList_getElem? (ms : List Movie) (i : Nat) (hi : i < ms.length) :
    (ofCatalog ms).adjList[i]? = some (neighboursSpec ms i) := by
  rw [ofCatalog_adjList]
  have hlen : i < (buildAdj ms).length := by rw [buildAdj_length]; exact hi
  rw [List.getElem?_eq_getElem hlen, ← getD_buildAdj ms i hi, List.getD_eq_getElem _ _ hlen]

theorem neighboursSpec_lt (ms : List Movie) (i : Nat) (e : Nat × ℚ)
    (he : e ∈ neighboursSpec ms i) : e.1 < ms.length := by
  obtain ⟨j, s⟩ := e
  exact ((mem_neighboursSpec ms i j s).1 he).1

end GraphBasedRecommender

/-! ## The loops of the graph-based queries -/

namespace GraphBasedRecommender

theorem industryFilter_eq (ms : List Movie) (industry : String) (idxs : List Nat)
    (h : ∀ i ∈ idxs, i < ms.length) :
    industryFilter ms industry idxs =
      some (idxs.filter (fun i => decide ((ms.getD i defaultMovie).industry = industry))) := by
  induction idxs with
  | nil => rfl
  | cons i rest ih =>
    have hi : i < ms.length := h i (List.mem_cons_self _ _)
    have hrest := ih (fun j hj => h j (List.mem_cons_of_mem _ hj))
    have hget : ms.getD i defaultMovie = ms[i] := List.getD_eq_getElem _ _ hi
    rw [industryFilter, hrest, List.getElem?_eq_getElem hi, List.filter_cons, hget]
    by_cases hind : ms[i].industry = industry <;> simp [hind]

theorem neighbourTotals_eq (ms : List Movie) (genre industry : String)
    (row : List (Nat × ℚ)) (total : ℚ) (count : Nat) (h : ∀ e ∈ row, e.1 < ms.length) :
    neighbourTotals ms genre industry row total count =
      some (((row.filter (fun e =>
          decide ((ms.getD e.1 defaultMovie).genre = genre)
            && decide ((ms.getD e.1 defaultMovie).industry = industry))).map Prod.snd).foldl
              Binary64.add total,
        count + (row.filter (fun e =>
          decide ((ms.getD e.1 defaultMovie).genre = genre)
            && decide ((ms.getD e.1 defaultMovie).industry = industry))).length) := by
  induction row generalizing total count with
  | nil => simp [neighbourTotals]
  | cons e rest ih =>
    obtain ⟨j, sc⟩ := e
    have hj : j < ms.length := h (j, sc) (List.mem_cons_self _ _)
    have hrest : ∀ e ∈ rest, e.1 < ms.length := fun e he => h e (List.mem_cons_of_mem _ he)
    have hget : ms.getD j defaultMovie = ms[j] := List.getD_eq_getElem _ _ hj
    rw [neighbourTotals, List.getElem?_eq_getElem hj, List.filter_cons]
    simp only [hget]
    by_cases hq : ms[j].genre = genre ∧ ms[j].industry = industry
    · rw [if_pos hq, ih _ _ hrest]
      simp only [hq.1, hq.2, decide_True, Bool.and_self, if_true, List.map_cons,
        List.foldl_cons, List.length_cons]
      congr 1
      rw [Prod.mk.injEq]
      constructor
      · rfl
      · omega
    · rw [if_neg hq, ih _ _ hrest]
      have hq' : (decide (ms[j].genre = genre) && decide (ms[j].industry = industry)) = false := by
        simpa [Bool.and_eq_false_iff, not_and_or] using hq
      rw [hq']
      simp

theorem movieScores_eq (ms : List Movie) (genre industry : String) (idxs : List Nat)
    (h : ∀ i ∈ idxs, i < ms.length) :
    movieScores (ofCatalog ms) genre industry idxs =
      some (idxs.map (fun i =>
        (compositeScoreSpec ms (ofCatalog ms).adjList genre industry i, i))) := by
  induction idxs with
  | nil => rfl
  | cons i rest ih =>
    have hi : i < ms.length := h i (List.mem_cons_self _ _)
    have hrest := ih (fun j hj => h j (List.mem_cons_of_mem _ hj))
    have hrow : (ofCatalog ms).adjList.getD i [] = neighboursSpec ms i := by
      rw [List.getD_eq_getElem?_getD, adjList_getElem? ms i hi]
      rfl
    rw [movieScores, hrest, adjList_getElem? ms i hi, graph_movies,
      List.getElem?_eq_getElem hi]
    simp only
    rw [neighbourTotals_eq ms genre industry _ _ _ (neighboursSpec_lt ms i)]
    simp only [List.map_cons, Option.some.injEq, List.cons.injEq, Prod.mk.injEq, and_true]
    unfold compositeScoreSpec Binary64.sum
    simp only [hrow, List.getD_eq_getElem _ _ hi, lit_values.1]
    generalize (neighboursSpec ms i).filter (fun e =>
      decide ((ms.getD e.1 defaultMovie).genre = genre)
        && decide ((ms.getD e.1 defaultMovie).industry = industry)) = q
    by_cases hq : q = []
    · subst hq
      simp
    · have hpos : 0 < q.length := List.length_pos.2 hq
      simp only [hq, if_false, Nat.zero_add, gt_iff_lt, hpos, if_true]

end GraphBasedRecommender

/-! ## Closed forms of the queries -/

theorem takeTopN_nonpos (ms : List Movie) (k : Int) (hk : k ≤ 0) (pairs : List (ℚ × Nat)) :
    takeTopN ms k pairs = some [] := by
  have h0 : (min k (pairs.length : Int)).toNat = 0 := by omega
  simp [takeTopN, h0, moviesAt]

theorem takeTopN_nil (ms : List Movie) (k : Int) : takeTopN ms k [] = some [] := by
  simp [takeTopN, moviesAt]

theorem ContentBasedRecommender.recommendByGenreAndIndustry_cases
    (sort : List (ℚ × Nat) → List (ℚ × Nat)) (ms : List Movie) (genre industry : String)
    (topN : Int) :
    ContentBasedRecommender.recommendByGenreAndIndustry sort
        (ContentBasedRecommender.ofCatalog ms) genre industry topN =
      if positionsOf (fun m => decide (m.genre = genre)) ms = [] then some []
      else takeTopN ms topN (sort (ratingPairsSpec
        (fun m => decide (m.genre = genre) && decide (m.industry = industry)) ms)) := by
  obtain ⟨hm, hg, -, -⟩ := ContentBasedRecommender.ofCatalog_spec ms
  unfold ContentBasedRecommender.recommendByGenreAndIndustry
  rw [hg genre, hm]
  by_cases he : positionsOf (fun m => decide (m.genre = genre)) ms = []
  · simp [he]
  · rw [if_neg he, if_neg he]
    simp only
    rw [ContentBasedRecommender.ratingPairsOf_eq ms industry _
      (fun i hi => (mem_positionsOf.1 hi).1)]
    simp only
    rw [positionsOf_filter (fun m => decide (m.genre = genre))
      (fun m => decide (m.industry = industry)) ms]
    rfl

theorem ContentBasedRecommender.recommendByActor_cases
    (sort : List (ℚ × Nat) → List (ℚ × Nat)) (ms : List Movie) (actor : String)
    (topN : Int) :
    ContentBasedRecommender.recommendByActor sort
        (ContentBasedRecommender.ofCatalog ms) actor topN =
      if positionsOf (fun m => decide (m.actor = actor)) ms = [] then some []
      else takeTopN ms topN (sort (ratingPairsSpec (fun m => decide (m.actor = actor)) ms)) := by
  obtain ⟨hm, -, ha, -⟩ := ContentBasedRecommender.ofCatalog_spec ms
  unfold ContentBasedRecommender.recommendByActor
  rw [ha actor, hm]
  by_cases he : positionsOf (fun m => decide (m.actor = actor)) ms = []
  · simp [he]
  · rw [if_neg he, if_neg he]
    simp only
    rw [ContentBasedRecommender.actorRatingPairs_eq ms _
      (fun i hi => (mem_positionsOf.1 hi).1)]
    rfl

namespace GraphBasedRecommender

theorem recommendByGenreGraph_cases (sort : List (ℚ × Nat) → List (ℚ × Nat))
    (ms : List Movie) (genre industry : String) (topN : Int) :
    recommendByGenreGraph sort (ofCatalog ms) genre industry topN =
      if positionsOf (fun m => decide (m.genre = genre) && decide (m.industry = industry)) ms
          = [] then some []
      else takeTopN ms topN (sort
        ((positionsOf (fun m => decide (m.genre = genre) && decide (m.industry = industry))
          ms).map
          (fun i => (compositeScoreSpec ms (ofCatalog ms).adjList genre industry i, i)))) := by
  have hfil := positionsOf_filter (fun m => decide (m.genre = genre))
    (fun m => decide (m.industry = industry)) ms
  unfold recommendByGenreGraph
  rw [graph_genreToMovies, graph_movies]
  by_cases he : positionsOf (fun m => decide (m.genre = genre)) ms = []
  · have hc : positionsOf
        (fun m => decide (m.genre = genre) && decide (m.industry = industry)) ms = [] := by
      rw [← hfil, he]
      rfl
    simp [he, hc]
  · rw [if_neg he]
    simp only
    rw [industryFilter_eq ms industry _ (fun i hi => (mem_positionsOf.1 hi).1), hfil]
    simp only
    by_cases hc : positionsOf
        (fun m => decide (m.genre = genre) && decide (m.industry = industry)) ms = []
    · rw [if_pos hc, if_pos hc]
    · rw [if_neg hc, if_neg hc, movieScores_eq ms genre industry _
        (fun i hi => (mem_positionsOf.1 hi).1)]

theorem findSimilarMovies_cases (sort : List (ℚ × Nat) → List (ℚ × Nat))
    (ms : List Movie) (title : String) (topN : Int) :
    findSimilarMovies sort (ofCatalog ms) title topN =
      match (positionsOf (fun m => decide (m.title = title)) ms).getLast? with
      | none => some []
      | some movieId =>
        takeTopN ms topN (sort ((neighboursSpec ms movieId).map (fun e => (e.2, e.1)))) := by
  unfold findSimilarMovies
  have hlt := graph_titleToId_lt ms title
  rw [graph_titleToId] at hlt ⊢
  cases hfind : (positionsOf (fun m => decide (m.title = title)) ms).getLast? with
  | none => rfl
  | some movieId =>
    simp only
    rw [adjList_getElem? ms movieId (hlt movieId hfind), graph_movies]

end GraphBasedRecommender

/-! ## Empty results -/

/-- C11: for every catalog and every k <= 0 each of the four top-K queries
(`recommendByGenreAndIndustry`, `recommendByActor`, `recommendByGenreGraph`,
`findSimilarMovies`) returns the empty list, whatever the other arguments are. -/
theorem topK_nonpos_empty (sort : List (ℚ × Nat) → List (ℚ × Nat)) (ms : List Movie)
    (k : Int) (hk : k ≤ 0) :
    (∀ genre industry, ContentBasedRecommender.recommendByGenreAndIndustry sort
        (ContentBasedRecommender.ofCatalog ms) genre industry k = some [])
    ∧ (∀ actor, ContentBasedRecommender.recommendByActor sort
        (ContentBasedRecommender.ofCatalog ms) actor k = some [])
    ∧ (∀ genre industry, GraphBasedRecommender.recommendByGenreGraph sort
        (GraphBasedRecommender.ofCatalog ms) genre industry k = some [])
    ∧ (∀ title, GraphBasedRecommender.findSimilarMovies sort
        (GraphBasedRecommender.ofCatalog ms) title k = some []) := by
  refine ⟨?_, ?_, ?_, ?_⟩
  · intro genre industry
    rw [ContentBasedRecommender.recommendByGenreAndIndustry_cases]
    split_ifs
    · rfl
    · exact takeTopN_nonpos ms k hk _
  · intro actor
    rw [ContentBasedRecommender.recommendByActor_cases]
    split_ifs
    · rfl
    · exact takeTopN_nonpos ms k hk _
  · intro genre industry
    rw [GraphBasedRecommender.recommendByGenreGraph_cases]
    split_ifs
    · rfl
    · exact takeTopN_nonpos ms k hk _
  · intro title
    rw [GraphBasedRecommender.findSimilarMovies_cases]
    cases (positionsOf (fun m => decide (m.title = title)) ms).getLast? with
    | none => rfl
    | some movieId => exact takeTopN_nonpos ms k hk _

/-- Witness of C11: k = 0 on the two-movie sample catalog with the sort of libstdc++. -/
theorem topK_nonpos_empty_witness :
    ContentBasedRecommender.recommendByGenreAndIndustry gnuSort
        (ContentBasedRecommender.ofCatalog [inception, interstellar]) "Sci-Fi" "Hollywood" 0
      = some []
    ∧ GraphBasedRecommender.findSimilarMovies gnuSort
        (GraphBasedRecommender.ofCatalog [inception, interstellar]) "Inception" 0 = some [] :=
  ⟨(topK_nonpos_empty gnuSort [inception, interstellar] 0 (by decide)).1 "Sci-Fi" "Hollywood",
    (topK_nonpos_empty gnuSort [inception, interstellar] 0 (by decide)).2.2.2 "Inception"⟩

/-- C14: a lookup on a key that no catalog movie carries returns the empty list rather
than failing: `getMoviesByGenreAndIndustry`, `recommendByGenreAndIndustry` and
`recommendByGenreGraph` for a genre and industry that no movie combines,
`recommendByActor` for an unknown actor, `getGenresByIndustry` for an unknown industry and
`findSimilarMovies` for an unknown title. -/
theorem unknown_key_empty (sort : List (ℚ × Nat) → List (ℚ × Nat)) (hsort : IsStdSort sort)
    (ms : List Movie) (k : Int) :
    (∀ genre industry, (∀ m ∈ ms, ¬ (m.genre = genre ∧ m.industry = industry)) →
      ContentBasedRecommender.getMoviesByGenreAndIndustry
          (ContentBasedRecommender.ofCatalog ms) genre industry = some []
        ∧ ContentBasedRecommender.recommendByGenreAndIndustry sort
          (ContentBasedRecommender.ofCatalog ms) genre industry k = some []
        ∧ GraphBasedRecommender.recommendByGenreGraph sort
          (GraphBasedRecommender.ofCatalog ms) genre industry k = some [])
    ∧ (∀ actor, (∀ m ∈ ms, m.actor ≠ actor) →
      ContentBasedRecommender.recommendByActor sort
        (ContentBasedRecommender.ofCatalog ms) actor k = some [])
    ∧ (∀ industry, (∀ m ∈ ms, m.industry ≠ industry) →
      ContentBasedRecommender.getGenresByIndustry
        (ContentBasedRecommender.ofCatalog ms) industry = some [])
    ∧ (∀ title, (∀ m ∈ ms, m.title ≠ title) →
      GraphBasedRecommender.findSimilarMovies sort
        (GraphBasedRecommender.ofCatalog ms) title k = some []) := by
  refine ⟨?_, ?_, ?_, ?_⟩
  · intro genre industry hnone
    have hfalse : ∀ m ∈ ms,
        (fun m : Movie => decide (m.genre = genre) && decide (m.industry = industry)) m
          = false := by
      intro m hm
      have := hnone m hm
      simpa [Bool.and_eq_false_iff, not_and_or] using this
    have hpos := (positionsOf_eq_nil_iff _ ms).2 hfalse
    refine ⟨?_, ?_, ?_⟩
    · rw [ContentBasedRecommender.getMoviesByGenreAndIndustry_eq,
        List.filter_eq_nil_iff.2 (fun m hm => by simp [hfalse m hm])]
    · rw [ContentBasedRecommender.recommendByGenreAndIndustry_cases]
      split_ifs
      · rfl
      · rw [ratingPairsSpec, hpos, List.map_nil, hsort.nil, takeTopN_nil]
    · rw [GraphBasedRecommender.recommendByGenreGraph_cases, if_pos hpos]
  · intro actor hnone
    have hpos : positionsOf (fun m => decide (m.actor = actor)) ms = [] :=
      (positionsOf_eq_nil_iff _ ms).2 (fun m hm => by simp [hnone m hm])
    rw [ContentBasedRecommender.recommendByActor_cases, if_pos hpos]
  · intro industry hnone
    rw [ContentBasedRecommender.getGenresByIndustry_eq,
      List.filter_eq_nil_iff.2 (fun m hm => by simp [hnone m hm])]
    rfl
  · intro title hnone
    have hpos : positionsOf (fun m => decide (m.title = title)) ms = [] :=
      (positionsOf_eq_nil_iff _ ms).2 (fun m hm => by simp [hnone m hm])
    rw [GraphBasedRecommender.findSimilarMovies_cases, hpos]
    rfl

/-- Witness of C14: the genre "Horror" and the title "Nonexistent Title" on the two-movie
sample catalog. -/
theorem unknown_key_empty_witness :
    ContentBasedRecommender.getMoviesByGenreAndIndustry
        (ContentBasedRecommender.ofCatalog [inception, interstellar]) "Horror" "Hollywood"
      = some []
    ∧ GraphBasedRecommender.findSimilarMovies stableSort
        (GraphBasedRecommender.ofCatalog [inception, interstellar]) "Nonexistent Title" 3
      = some [] :=
  ⟨((unknown_key_empty stableSort isStdSort_stableSort [inception, interstellar] 3).1
      "Horror" "Hollywood" (by decide)).1,
    (unknown_key_empty stableSort isStdSort_stableSort [inception, interstellar] 3).2.2.2
      "Nonexistent Title" (by decide)⟩

/-! ## Ranking by composite score -/

/-- The ranking step on candidates scored by `f`: the sorted candidates are a permutation
of the candidates in non-increasing order of score, and the first `min(k, m)` of them are
returned. -/
theorem takeTopN_sort_order (sort : List (ℚ × Nat) → List (ℚ × Nat)) (hsort : IsStdSort sort)
    (ms : List Movie) (cands : List Nat) (f : Nat → ℚ) (k : Int)
    (hc : ∀ i ∈ cands, i < ms.length) :
    ∃ order : List Nat, order.Perm cands
      ∧ order.Pairwise (fun i j => f j ≤ f i)
      ∧ takeTopN ms k (sort (cands.map (fun i => (f i, i))))
          = some ((order.take (min k (cands.length : Int)).toNat).map
              (fun i => ms.getD i defaultMovie)) := by
  have hmem : ∀ x ∈ sort (cands.map (fun i => (f i, i))), x.2 < ms.length ∧ x.1 = f x.2 := by
    intro x hx
    rw [hsort.mem_iff, List.mem_map] at hx
    obtain ⟨i, hi, rfl⟩ := hx
    exact ⟨hc i hi, rfl⟩
  have hperm : ((sort (cands.map (fun i => (f i, i)))).map Prod.snd).Perm cands := by
    have h := ((hsort (cands.map (fun i => (f i, i)))).1).map Prod.snd
    simpa [List.map_map, Function.comp_def] using h
  refine ⟨(sort (cands.map (fun i => (f i, i)))).map Prod.snd, hperm, ?_, ?_⟩
  · rw [List.pairwise_map]
    refine List.Pairwise.imp_of_mem ?_ (hsort.sorted _)
    intro a b ha hb hab
    rw [← (hmem a ha).2, ← (hmem b hb).2]
    exact hab
  · rw [takeTopN_eq ms k _ (fun x hx => (hmem x hx).1), List.map_take]
    have hlen : (sort (cands.map (fun i => (f i, i)))).length = cands.length := by
      rw [(hsort _).1.length_eq, List.length_map]
    rw [hlen]

namespace GraphBasedRecommender

/-- The ranking of `recommendByGenreGraph` on a catalog with its graph built. -/
theorem recommendByGenreGraph_order (sort : List (ℚ × Nat) → List (ℚ × Nat))
    (hsort : IsStdSort sort) (ms : List Movie) (genre industry : String) (k : Int) :
    ∃ order : List Nat,
      order.Perm
        (positionsOf (fun m => decide (m.genre = genre) && decide (m.industry = industry)) ms)
      ∧ order.Pairwise (fun i j =>
          compositeScoreSpec ms (ofCatalog ms).adjList genre industry j
            ≤ compositeScoreSpec ms (ofCatalog ms).adjList genre industry i)
      ∧ recommendByGenreGraph sort (ofCatalog ms) genre industry k
          = some ((order.take (min k ((ms.filter (fun m =>
              decide (m.genre = genre) && decide (m.industry = industry))).length : Int)).toNat).map
            (fun i => ms.getD i defaultMovie)) := by
  obtain ⟨order, hperm, hsorted, hres⟩ := takeTopN_sort_order sort hsort ms
    (positionsOf (fun m => decide (m.genre = genre) && decide (m.industry = industry)) ms)
    (compositeScoreSpec ms (ofCatalog ms).adjList genre industry) k
    (fun i hi => (mem_positionsOf.1 hi).1)
  refine ⟨order, hperm, hsorted, ?_⟩
  rw [recommendByGenreGraph_cases, ← positionsOf_length]
  by_cases hc : positionsOf
      (fun m => decide (m.genre = genre) && decide (m.industry = industry)) ms = []
  · rw [if_pos hc]
    have hnil : order = [] := by
      rw [hc] at hperm
      exact hperm.eq_nil
    simp [hnil]
  · rw [if_neg hc]
    exact hres

/-- C18: on a catalog with its graph built `recommendByGenreGraph` returns the first
min(k, m) movies of the genre-and-industry candidates sorted by non-increasing composite
score, where the composite score is rating * 0.6 + avg * 4.0 and avg is the mean of the
stored similarity scores of the neighbours of the same genre and industry, or 0 when there
is none. -/
theorem recommendByGenreGraph_ranked (sort : List (ℚ × Nat) → List (ℚ × Nat))
    (hsort : IsStdSort sort) (ms : List Movie) (genre industry : String) (k : Int) :
    ∃ order : List Nat,
      order.Perm
        (positionsOf (fun m => decide (m.genre = genre) && decide (m.industry = industry)) ms)
      ∧ order.Pairwise (fun i j =>
          compositeScoreSpec ms (ofCatalog ms).adjList genre industry j
            ≤ compositeScoreSpec ms (ofCatalog ms).adjList genre industry i)
      ∧ recommendByGenreGraph sort (ofCatalog ms) genre industry k
          = some ((order.take (min k ((ms.filter (fun m =>
              decide (m.genre = genre) && decide (m.industry = industry))).length : Int)).toNat).map
            (fun i => ms.getD i defaultMovie)) :=
  recommendByGenreGraph_order sort hsort ms genre industry k

/-- Witness of C18 on the two-movie sample catalog. -/
theorem recommendByGenreGraph_ranked_witness :
    ∃ order : List Nat,
      order.Perm
        (positionsOf (fun m => decide (m.genre = "Sci-Fi") && decide (m.industry = "Hollywood"))
          [inception, interstellar])
      ∧ order.Pairwise (fun i j =>
          compositeScoreSpec [inception, interstellar]
              (ofCatalog [inception, interstellar]).adjList "Sci-Fi" "Hollywood" j
            ≤ compositeScoreSpec [inception, interstellar]
              (ofCatalog [inception, interstellar]).adjList "Sci-Fi" "Hollywood" i)
      ∧ recommendByGenreGraph stableSort (ofCatalog [inception, interstellar])
            "Sci-Fi" "Hollywood" 1
          = some ((order.take (min 1 (([inception, interstellar].filter (fun m =>
              decide (m.genre = "Sci-Fi") && decide (m.industry = "Hollywood"))).length
                : Int)).toNat).map
            (fun i => [inception, interstellar].getD i defaultMovie)) :=
  recommendByGenreGraph_ranked stableSort isStdSort_stableSort [inception, interstellar]
    "Sci-Fi" "Hollywood" 1

/-- The ranking of the ten Hollywood war movies of the sample catalog under the sort of GNU
libstdc++: the five best have the identifiers 65, 67, 68, 66, 69. Full Metal Jacket (68)
precedes 1917 (66): their ratings are equal, and the composite score of 1917, whose
similarities are added in another order, is the smaller double. -/
theorem recommendByGenreGraph_war_sample :
    (recommendByGenreGraph gnuSort (ofCatalog warCatalog) "War" "Hollywood" 5).map
        (fun l => l.map Movie.id) = some [65, 67, 68, 66, 69]
    ∧ (warCatalog.getD 2 defaultMovie).rating = (warCatalog.getD 4 defaultMovie).rating
    ∧ compositeScoreSpec warCatalog (ofCatalog warCatalog).adjList "War" "Hollywood" 2
      < compositeScoreSpec warCatalog (ofCatalog warCatalog).adjList "War" "Hollywood" 4 := by
  decide!

/-- C19 (amended): on a catalog with its graph built the list returned by
`recommendByGenreGraph` is ordered by non-increasing composite score, whatever order the
sort leaves among candidates of equal composite score. -/
theorem recommendByGenreGraph_sorted (sort : List (ℚ × Nat) → List (ℚ × Nat))
    (hsort : IsStdSort sort) (ms : List Movie) (genre industry : String) (k : Int) :
    ∃ ret : List Nat,
      recommendByGenreGraph sort (ofCatalog ms) genre industry k
          = some (ret.map (fun i => ms.getD i defaultMovie))
      ∧ ret.Pairwise (fun i j =>
          compositeScoreSpec ms (ofCatalog ms).adjList genre industry j
            ≤ compositeScoreSpec ms (ofCatalog ms).adjList genre industry i) := by
  obtain ⟨order, -, hsorted, hres⟩ := recommendByGenreGraph_order sort hsort ms genre industry k
  exact ⟨_, hres, hsorted.sublist (List.take_sublist _ _)⟩

/-- Witness of C19 (amended) on the two-movie sample catalog. -/
theorem recommendByGenreGraph_sorted_witness :
    ∃ ret : List Nat,
      recommendByGenreGraph stableSort (ofCatalog [inception, interstellar])
          "Sci-Fi" "Hollywood" 5
          = some (ret.map (fun i => [inception, interstellar].getD i defaultMovie))
      ∧ ret.Pairwise (fun i j =>
          compositeScoreSpec [inception, interstellar]
              (ofCatalog [inception, interstellar]).adjList "Sci-Fi" "Hollywood" j
            ≤ compositeScoreSpec [inception, interstellar]
              (ofCatalog [inception, interstellar]).adjList "Sci-Fi" "Hollywood" i) :=
  recommendByGenreGraph_sorted stableSort isStdSort_stableSort [inception, interstellar]
    "Sci-Fi" "Hollywood" 5

/-- The adjacency list of a position in the catalog of seventeen movies that agree in
everything but the identifier: every other position, with similarity 1. -/
theorem tiedCatalog_row (i : Nat) (hi : i < 17) :
    (ofCatalog tiedCatalog).adjList.getD i []
      = ((List.range 17).filter (fun j => decide (j ≠ i))).map (fun j => (j, (1 : ℚ))) := by
  have hlen : tiedCatalog.length = 17 := by decide
  have hattr : ∀ j, j < 17 →
      (tiedCatalog.getD j defaultMovie).genre = "Sci-Fi"
        ∧ (tiedCatalog.getD j defaultMovie).actor = "Nobody"
        ∧ (tiedCatalog.getD j defaultMovie).industry = "Hollywood"
        ∧ (tiedCatalog.getD j defaultMovie).rating = 8 := by
    decide!
  have hsim : ∀ a b, a < 17 → b < 17 →
      calculateSimilarity (tiedCatalog.getD a defaultMovie) (tiedCatalog.getD b defaultMovie)
        = 1 := by
    intro a b ha hb
    obtain ⟨g1, a1, i1, r1⟩ := hattr a ha
    obtain ⟨g2, a2, i2, r2⟩ := hattr b hb
    exact calculateSimilarity_of_agree _ _ (g1.trans g2.symm) (a1.trans a2.symm)
      (i1.trans i2.symm) (r1.trans r2.symm)
  have h02 : (1 : ℚ) > Binary64.lit 0.2 := by decide!
  rw [List.getD_eq_getElem?_getD, adjList_getElem? tiedCatalog i (by rw [hlen]; exact hi)]
  show neighboursSpec tiedCatalog i = _
  unfold neighboursSpec
  rw [hlen]
  have hf : (List.range 17).filter (fun j => decide (j ≠ i) && decide (calculateSimilarity
        (tiedCatalog.getD i defaultMovie) (tiedCatalog.getD j defaultMovie) > Binary64.lit 0.2))
      = (List.range 17).filter (fun j => decide (j ≠ i)) := by
    apply List.filter_congr
    intro j hj
    rw [List.mem_range] at hj
    rw [hsim i j hi hj]
    simp [h02]
  rw [hf]
  apply List.map_congr_left
  intro j hj
  rw [hsim i j hi (List.mem_range.1 (List.mem_filter.1 hj).1)]

/-- Every composite score in the catalog of seventeen equal movies is the double 8.8. -/
theorem tiedCatalog_scores (i : Nat) (hi : i < 17) :
    compositeScoreSpec tiedCatalog (ofCatalog tiedCatalog).adjList "Sci-Fi" "Hollywood" i
      = Binary64.lit 8.8 := by
  unfold compositeScoreSpec
  simp only []
  rw [tiedCatalog_row i hi]
  interval_cases i <;> decide!

/-- C19 fails as stated. A sort that meets the contract of `std::sort` may return the
later of two candidates of equal composite score first; and the sort of GNU libstdc++
does so on seventeen candidates of equal composite score: the first three returned are
the movies at positions 8, 16 and 15 (identifiers 9, 17, 16). -/
theorem recommendByGenreGraph_ties_not_stable :
    (IsStdSort tiesReversedSort
      ∧ compositeScoreSpec [bladeRunner2049, theMartian]
          (ofCatalog [bladeRunner2049, theMartian]).adjList "Sci-Fi" "Hollywood" 0
        = compositeScoreSpec [bladeRunner2049, theMartian]
          (ofCatalog [bladeRunner2049, theMartian]).adjList "Sci-Fi" "Hollywood" 1
      ∧ recommendByGenreGraph tiesReversedSort (ofCatalog [bladeRunner2049, theMartian])
          "Sci-Fi" "Hollywood" 2 = some [theMartian, bladeRunner2049])
    ∧ ((∀ i ∈ List.range 17,
          compositeScoreSpec tiedCatalog (ofCatalog tiedCatalog).adjList "Sci-Fi" "Hollywood" i
            = Binary64.lit 8.8)
      ∧ (recommendByGenreGraph gnuSort (ofCatalog tiedCatalog)
            "Sci-Fi" "Hollywood" 3).map (fun l => l.map Movie.id) = some [9, 17, 16]) := by
  refine ⟨⟨isStdSort_tiesReversedSort, by decide!, by decide!⟩,
    fun i hi => tiedCatalog_scores i (List.mem_range.1 hi), ?_⟩
  have hpos : positionsOf
      (fun m => decide (m.genre = "Sci-Fi") && decide (m.industry = "Hollywood")) tiedCatalog
      = List.range 17 := by decide!
  have hmap : (List.range 17).map (fun i =>
        (compositeScoreSpec tiedCatalog (ofCatalog tiedCatalog).adjList "Sci-Fi" "Hollywood" i,
          i))
      = (List.range 17).map (fun i => ((2476979795053773 / 281474976710656 : ℚ), i)) := by
    apply List.map_congr_left
    intro i hi
    rw [tiedCatalog_scores i (List.mem_range.1 hi)]
    have h88 : Binary64.lit 8.8 = 2476979795053773 / 281474976710656 := by decide!
    rw [h88]
  rw [recommendByGenreGraph_cases, hpos, hmap]
  decide!

/-- C20 fails on the code: with two movies of one title, `findSimilarMovies` resolves the
title to the later one (position 2) and returns its neighbours, the first movie of that
title among them, while `findMovieIndex` resolves the same title to position 0, whose
neighbours in ranked order are the movies at positions 2 and 1. -/
theorem findSimilarMovies_duplicate_title :
    ContentBasedRecommender.findMovieIndex
        (ContentBasedRecommender.ofCatalog [matrixSciFi, theDarkKnight, matrixAction])
        "The Matrix" = 0
    ∧ StrMap.find (ofCatalog [matrixSciFi, theDarkKnight, matrixAction]).titleToId
        "The Matrix" = some 2
    ∧ findSimilarMovies gnuSort (ofCatalog [matrixSciFi, theDarkKnight, matrixAction])
        "The Matrix" 3 = some [matrixSciFi, theDarkKnight]
    ∧ takeTopN [matrixSciFi, theDarkKnight, matrixAction] 3
        (gnuSort (((ofCatalog [matrixSciFi, theDarkKnight, matrixAction]).adjList.getD 0 []).map
          (fun e => (e.2, e.1)))) = some [matrixAction, theDarkKnight] :=
  ⟨by decide!, by decide!, by decide!, by decide!⟩

end GraphBasedRecommender

/-! ## Neighbours of a title -/

/-- The ranking step on candidates scored by `f`, split into the returned positions and
the others. -/
theorem takeTopN_sort_split (sort : List (ℚ × Nat) → List (ℚ × Nat)) (hsort : IsStdSort sort)
    (ms : List Movie) (cands : List Nat) (f : Nat → ℚ) (k : Int)
    (hc : ∀ i ∈ cands, i < ms.length) :
    ∃ ret rest : List Nat,
      takeTopN ms k (sort (cands.map (fun i => (f i, i))))
          = some (ret.map (fun i => ms.getD i defaultMovie))
        ∧ (ret ++ rest).Perm cands
        ∧ ret.length = min k.toNat cands.length
        ∧ ret.Pairwise (fun i j => f j ≤ f i)
        ∧ ∀ i ∈ ret, ∀ j ∈ rest, f j ≤ f i := by
  obtain ⟨order, hperm, hsorted, hres⟩ := takeTopN_sort_order sort hsort ms cands f k hc
  refine ⟨order.take (min k (cands.length : Int)).toNat,
    order.drop (min k (cands.length : Int)).toNat, hres, ?_, ?_, ?_, ?_⟩
  · rw [List.take_append_drop]
    exact hperm
  · rw [List.length_take, hperm.length_eq]
    omega
  · exact hsorted.sublist (List.take_sublist _ _)
  · have h := hsorted
    rw [← List.take_append_drop (min k (cands.length : Int)).toNat order,
      List.pairwise_append] at h
    exact h.2.2

namespace GraphBasedRecommender

theorem neighboursSpec_map_fst (ms : List Movie) (r : Nat) :
    (neighboursSpec ms r).map Prod.fst =
      (List.range ms.length).filter (fun j => decide (j ≠ r) &&
        decide (calculateSimilarity (ms.getD r defaultMovie) (ms.getD j defaultMovie)
          > Binary64.lit 0.2)) := by
  unfold neighboursSpec
  rw [List.map_map]
  have hid : (Prod.fst ∘ fun j => (j, calculateSimilarity (ms.getD r defaultMovie)
      (ms.getD j defaultMovie))) = id := by
    funext j
    rfl
  rw [hid, List.map_id]

theorem neighboursSpec_swap (ms : List Movie) (r : Nat) :
    (neighboursSpec ms r).map (fun e => (e.2, e.1)) =
      ((neighboursSpec ms r).map Prod.fst).map (fun j =>
        (calculateSimilarity (ms.getD r defaultMovie) (ms.getD j defaultMovie), j)) := by
  unfold neighboursSpec
  simp only [List.map_map]
  rfl

theorem adjList_getD (ms : List Movie) (i : Nat) (hi : i < ms.length) :
    (ofCatalog ms).adjList.getD i [] = neighboursSpec ms i := by
  rw [List.getD_eq_getElem?_getD, adjList_getElem? ms i hi]
  rfl

/-- Every adjacency list lists its neighbour positions in strictly increasing order. -/
theorem adjList_pairwise_lt (ms : List Movie) (i : Nat) :
    (((ofCatalog ms).adjList.getD i []).map Prod.fst).Pairwise (fun a b => a < b) := by
  by_cases hi : i < ms.length
  · rw [adjList_getD ms i hi, neighboursSpec_map_fst]
    exact (List.pairwise_lt_range ms.length).sublist (List.filter_sublist _)
  · have hnil : (ofCatalog ms).adjList.getD i [] = [] := by
      rw [List.getD_eq_default]
      rw [ofCatalog_adjList, buildAdj_length]
      omega
    rw [hnil]
    exact List.Pairwise.nil

/-- C30: after `buildSimilarityGraph` every adjacency list is strictly increasing in
neighbour position: the neighbours below the list's own position come first, then those
above it, each in ascending order. -/
theorem adjList_strictly_increasing (ms : List Movie) (i : Nat) :
    (((ofCatalog ms).adjList.getD i []).map Prod.fst).Pairwise (fun a b => a < b) :=
  adjList_pairwise_lt ms i

/-- C22: `buildSimilarityGraph` is idempotent: calling it twice in a row leaves the same
recommender, adjacency lists included, as calling it once. -/
theorem buildSimilarityGraph_idempotent (g : GraphBasedRecommender) (calls : List Call) :
    buildSimilarityGraph (buildSimilarityGraph g) = buildSimilarityGraph g
    ∧ (buildSimilarityGraph (buildSimilarityGraph g)).adjList
        = (buildSimilarityGraph g).adjList
    ∧ runCalls (calls ++ [Call.build, Call.build]) = runCalls (calls ++ [Call.build]) := by
  refine ⟨rfl, rfl, ?_⟩
  unfold runCalls
  rw [List.foldl_append, List.foldl_append]
  rfl

/-- The neighbours of the movie a title resolves to, as ranked by `findSimilarMovies`. -/
theorem findSimilarMovies_split (sort : List (ℚ × Nat) → List (ℚ × Nat))
    (hsort : IsStdSort sort) (ms : List Movie) (title : String) (k : Int)
    (hknown : ∃ m ∈ ms, m.title = title) :
    ∃ movieId, ∃ ret rest : List Nat,
      StrMap.find (ofCatalog ms).titleToId title = some movieId
        ∧ movieId < ms.length
        ∧ findSimilarMovies sort (ofCatalog ms) title k
          = some (ret.map (fun i => ms.getD i defaultMovie))
        ∧ (ret ++ rest).Perm (((ofCatalog ms).adjList.getD movieId []).map Prod.fst)
        ∧ ret.length = min k.toNat ((ofCatalog ms).adjList.getD movieId []).length
        ∧ ret.Pairwise (fun i j =>
            calculateSimilarity (ms.getD movieId defaultMovie) (ms.getD j defaultMovie)
              ≤ calculateSimilarity (ms.getD movieId defaultMovie) (ms.getD i defaultMovie))
        ∧ ∀ i ∈ ret, ∀ j ∈ rest,
            calculateSimilarity (ms.getD movieId defaultMovie) (ms.getD j defaultMovie)
              ≤ calculateSimilarity (ms.getD movieId defaultMovie) (ms.getD i defaultMovie) := by
  have hne : positionsOf (fun m => decide (m.title = title)) ms ≠ [] := by
    intro hnil
    obtain ⟨m, hm, ht⟩ := hknown
    have := (positionsOf_eq_nil_iff _ ms).1 hnil m hm
    simp [ht] at this
  obtain ⟨movieId, hlast⟩ : ∃ movieId,
      (positionsOf (fun m => decide (m.title = title)) ms).getLast? = some movieId := by
    cases hl : (positionsOf (fun m => decide (m.title = title)) ms).getLast? with
    | none => exact absurd (List.getLast?_eq_none_iff.1 hl) hne
    | some movieId => exact ⟨movieId, rfl⟩
  have hfind : StrMap.find (ofCatalog ms).titleToId title = some movieId := by
    rw [graph_titleToId, hlast]
  have hlt : movieId < ms.length := graph_titleToId_lt ms title movieId hfind
  obtain ⟨ret, rest, hres, hperm, hlen, hsorted, hdom⟩ := takeTopN_sort_split sort hsort ms
    ((neighboursSpec ms movieId).map Prod.fst)
    (fun j => calculateSimilarity (ms.getD movieId defaultMovie) (ms.getD j defaultMovie)) k
    (by
      intro i hi
      obtain ⟨e, he, rfl⟩ := List.mem_map.1 hi
      exact neighboursSpec_lt ms movieId e he)
  refine ⟨movieId, ret, rest, hfind, hlt, ?_, ?_, ?_, hsorted, hdom⟩
  · rw [findSimilarMovies_cases, hlast]
    simp only
    rw [neighboursSpec_swap]
    exact hres
  · rw [adjList_getD ms movieId hlt]
    exact hperm
  · rw [adjList_getD ms movieId hlt, hlen, List.length_map]

/-- C21: for a known title and k >= 0 `findSimilarMovies` returns exactly min(k, d)
movies, where d is the number of graph neighbours of the resolved movie; they are
neighbours of that movie, whatever their genre or industry, in non-increasing order of
similarity to it, and every neighbour left out has similarity at most that of every
neighbour returned. -/
theorem findSimilarMovies_top (sort : List (ℚ × Nat) → List (ℚ × Nat))
    (hsort : IsStdSort sort) (ms : List Movie) (title : String) (k : Int) (hk : 0 ≤ k)
    (hknown : ∃ m ∈ ms, m.title = title) :
    ∃ movieId, ∃ ret rest : List Nat,
      StrMap.find (ofCatalog ms).titleToId title = some movieId
        ∧ findSimilarMovies sort (ofCatalog ms) title k
          = some (ret.map (fun i => ms.getD i defaultMovie))
        ∧ (ret.length : Int)
          = min k (((ofCatalog ms).adjList.getD movieId []).length : Int)
        ∧ (ret ++ rest).Perm (((ofCatalog ms).adjList.getD movieId []).map Prod.fst)
        ∧ (∀ i, i ∈ ret ++ rest ↔ i < ms.length ∧ i ≠ movieId
            ∧ calculateSimilarity (ms.getD movieId defaultMovie) (ms.getD i defaultMovie)
              > Binary64.lit 0.2)
        ∧ ret.Pairwise (fun i j =>
            calculateSimilarity (ms.getD movieId defaultMovie) (ms.getD j defaultMovie)
              ≤ calculateSimilarity (ms.getD movieId defaultMovie) (ms.getD i defaultMovie))
        ∧ ∀ i ∈ ret, ∀ j ∈ rest,
            calculateSimilarity (ms.getD movieId defaultMovie) (ms.getD j defaultMovie)
              ≤ calculateSimilarity (ms.getD movieId defaultMovie) (ms.getD i defaultMovie) := by
  obtain ⟨movieId, ret, rest, hfind, hlt, hres, hperm, hlen, hsorted, hdom⟩ :=
    findSimilarMovies_split sort hsort ms title k hknown
  refine ⟨movieId, ret, rest, hfind, hres, ?_, hperm, ?_, hsorted, hdom⟩
  · rw [hlen]
    omega
  · intro i
    rw [hperm.mem_iff, List.mem_map]
    constructor
    · rintro ⟨⟨j, s⟩, he, rfl⟩
      obtain ⟨-, hj, hne, hs, -⟩ := (mem_adjList_iff ms movieId j s).1 he
      exact ⟨hj, hne, hs⟩
    · rintro ⟨hi, hne, hs⟩
      exact ⟨(i, _), (mem_adjList_iff ms movieId i _).2 ⟨hlt, hi, hne, hs, rfl⟩, rfl⟩

/-- The neighbours of Dunkirk among five movies of the sample catalog under the sort of GNU
libstdc++: Mad Max, Platoon and Hacksaw Ridge are returned and Black Hawk Down is left
out, its similarity to Dunkirk being the smaller double although its rating is 0.2 away
from that of Dunkirk like the ratings of Platoon and Hacksaw Ridge. -/
theorem findSimilarMovies_dunkirk_sample :
    (findSimilarMovies gnuSort
        (ofCatalog [madMax, dunkirk, platoon, blackHawkDown, hacksawRidge]) "Dunkirk" 3).map
        (fun l => l.map Movie.id) = some [17, 69, 73]
    ∧ calculateSimilarity dunkirk blackHawkDown < calculateSimilarity dunkirk platoon
    ∧ calculateSimilarity dunkirk platoon = calculateSimilarity dunkirk hacksawRidge := by
  decide!

/-- Witness of C21: the title "Inception" on the two-movie sample catalog. -/
theorem findSimilarMovies_top_witness :
    ∃ movieId, ∃ ret rest : List Nat,
      StrMap.find (ofCatalog [inception, interstellar]).titleToId "Inception" = some movieId
        ∧ findSimilarMovies stableSort (ofCatalog [inception, interstellar]) "Inception" 3
          = some (ret.map (fun i => [inception, interstellar].getD i defaultMovie))
        ∧ (ret.length : Int)
          = min 3 (((ofCatalog [inception, interstellar]).adjList.getD movieId []).length : Int)
        ∧ (ret ++ rest).Perm
            (((ofCatalog [inception, interstellar]).adjList.getD movieId []).map Prod.fst)
        ∧ (∀ i, i ∈ ret ++ rest ↔ i < [inception, interstellar].length ∧ i ≠ movieId
            ∧ calculateSimilarity ([inception, interstellar].getD movieId defaultMovie)
              ([inception, interstellar].getD i defaultMovie) > Binary64.lit 0.2)
        ∧ ret.Pairwise (fun i j =>
            calculateSimilarity ([inception, interstellar].getD movieId defaultMovie)
                ([inception, interstellar].getD j defaultMovie)
              ≤ calculateSimilarity ([inception, interstellar].getD movieId defaultMovie)
                ([inception, interstellar].getD i defaultMovie))
        ∧ ∀ i ∈ ret, ∀ j ∈ rest,
            calculateSimilarity ([inception, interstellar].getD movieId defaultMovie)
                ([inception, interstellar].getD j defaultMovie)
              ≤ calculateSimilarity ([inception, interstellar].getD movieId defaultMovie)
                ([inception, interstellar].getD i defaultMovie) :=
  findSimilarMovies_top stableSort isStdSort_stableSort [inception, interstellar]
    "Inception" 3 (by decide) ⟨inception, by simp, rfl⟩

end GraphBasedRecommender

/-! ## Sequences of calls -/

namespace GraphBasedRecommender

theorem buildSimilarityGraph_addMovie_congr (g1 g2 : GraphBasedRecommender) (m : Movie)
    (h : buildSimilarityGraph g1 = buildSimilarityGraph g2) :
    buildSimilarityGraph (addMovie g1 m) = buildSimilarityGraph (addMovie g2 m) := by
  simp only [buildSimilarityGraph, mk.injEq] at h
  obtain ⟨hm, -, ht, hg⟩ := h
  simp only [buildSimilarityGraph, addMovie, hm, ht, hg]

theorem buildSimilarityGraph_foldl_congr (ms : List Movie) (g1 g2 : GraphBasedRecommender)
    (h : buildSimilarityGraph g1 = buildSimilarityGraph g2) :
    buildSimilarityGraph (ms.foldl addMovie g1) = buildSimilarityGraph (ms.foldl addMovie g2) := by
  induction ms generalizing g1 g2 with
  | nil => exact h
  | cons m ms ih =>
    exact ih _ _ (buildSimilarityGraph_addMovie_congr g1 g2 m h)

theorem buildSimilarityGraph_foldl_apply (calls : List Call) (g : GraphBasedRecommender) :
    buildSimilarityGraph (calls.foldl Call.apply g)
      = buildSimilarityGraph ((addedMovies calls).foldl addMovie g) := by
  induction calls generalizing g with
  | nil => rfl
  | cons c calls ih =>
    cases c with
    | add movie => exact ih (addMovie g movie)
    | build =>
      rw [List.foldl_cons, ih]
      exact buildSimilarityGraph_foldl_congr _ _ _ rfl

/-- Whatever calls came before, once `buildSimilarityGraph` ran after the last `addMovie`
the recommender is the one of the catalog of the added movies. -/
theorem runCalls_build (calls : List Call) :
    runCalls (calls ++ [Call.build]) = ofCatalog (addedMovies calls) := by
  unfold runCalls ofCatalog
  rw [List.foldl_append]
  exact buildSimilarityGraph_foldl_apply calls empty

/-- Every index kept by a recommender with its graph built is a position of the catalog,
and the two graph queries then never read outside a vector. -/
theorem ofCatalog_in_range (ms : List Movie) :
    (ofCatalog ms).adjList.length = (ofCatalog ms).movies.length
    ∧ (∀ k b i, StrMap.find (ofCatalog ms).genreToMovies k = some b → i ∈ b →
        i < (ofCatalog ms).movies.length)
    ∧ (∀ t i, StrMap.find (ofCatalog ms).titleToId t = some i →
        i < (ofCatalog ms).movies.length)
    ∧ (∀ row ∈ (ofCatalog ms).adjList, ∀ e ∈ row, e.1 < (ofCatalog ms).movies.length)
    ∧ (∀ sort, IsStdSort sort → ∀ genre industry k,
        ∃ l, recommendByGenreGraph sort (ofCatalog ms) genre industry k = some l)
    ∧ (∀ sort, IsStdSort sort → ∀ title k,
        ∃ l, findSimilarMovies sort (ofCatalog ms) title k = some l) := by
  rw [graph_movies]
  refine ⟨?_, ?_, ?_, ?_, ?_, ?_⟩
  · rw [ofCatalog_adjList, buildAdj_length]
  · intro k b i hb hi
    exact (bucket_facts Movie.genre _ ms (graph_genreToMovies ms)).2.2 k b i hb hi
  · intro t i hi
    exact graph_titleToId_lt ms t i hi
  · intro row hrow e he
    obtain ⟨i, hi, rfl⟩ := List.getElem_of_mem hrow
    have hi' : i < ms.length := by
      rw [ofCatalog_adjList, buildAdj_length] at hi
      exact hi
    have hrow' : (ofCatalog ms).adjList[i] = neighboursSpec ms i := by
      have h := adjList_getElem? ms i hi'
      rw [List.getElem?_eq_getElem hi] at h
      exact Option.some.inj h
    rw [hrow'] at he
    exact neighboursSpec_lt ms i e he
  · intro sort hsort genre industry k
    obtain ⟨order, -, -, hres⟩ := recommendByGenreGraph_order sort hsort ms genre industry k
    exact ⟨_, hres⟩
  · intro sort hsort title k
    rw [findSimilarMovies_cases]
    cases hl : (positionsOf (fun m => decide (m.title = title)) ms).getLast? with
    | none => exact ⟨[], rfl⟩
    | some movieId =>
      simp only
      have hlt : movieId < ms.length :=
        (mem_positionsOf.1 (List.mem_of_getLast?_eq_some hl)).1
      rw [neighboursSpec_swap]
      obtain ⟨order, -, -, hres⟩ := takeTopN_sort_order sort hsort ms
        ((neighboursSpec ms movieId).map Prod.fst)
        (fun j => calculateSimilarity (ms.getD movieId defaultMovie) (ms.getD j defaultMovie)) k
        (by
          intro i hi
          obtain ⟨e, he, rfl⟩ := List.mem_map.1 hi
          exact neighboursSpec_lt ms movieId e he)
      exact ⟨_, hres⟩

/-- C24: if `buildSimilarityGraph` was called after the last `addMovie`, every index that
`recommendByGenreGraph` and `findSimilarMovies` use into `movies` and `adjList` is in
range: every bucket entry, every `titleToId` value and every stored neighbour position is
below `movies.size() = adjList.size()`, and the queries never read outside a vector. -/
theorem graph_queries_in_range (calls : List Call) :
    (runCalls (calls ++ [Call.build])).adjList.length
      = (runCalls (calls ++ [Call.build])).movies.length
    ∧ (∀ k b i, StrMap.find (runCalls (calls ++ [Call.build])).genreToMovies k = some b →
        i ∈ b → i < (runCalls (calls ++ [Call.build])).movies.length)
    ∧ (∀ t i, StrMap.find (runCalls (calls ++ [Call.build])).titleToId t = some i →
        i < (runCalls (calls ++ [Call.build])).movies.length)
    ∧ (∀ row ∈ (runCalls (calls ++ [Call.build])).adjList, ∀ e ∈ row,
        e.1 < (runCalls (calls ++ [Call.build])).movies.length)
    ∧ (∀ sort, IsStdSort sort → ∀ genre industry k,
        ∃ l, recommendByGenreGraph sort (runCalls (calls ++ [Call.build])) genre industry k
          = some l)
    ∧ (∀ sort, IsStdSort sort → ∀ title k,
        ∃ l, findSimilarMovies sort (runCalls (calls ++ [Call.build])) title k = some l) := by
  rw [runCalls_build]
  exact ofCatalog_in_range (addedMovies calls)

/-- Witness of C24: the sample catalog with a graph built before and after the second
movie; the title query stays inside the vectors, whereas it reads outside `adjList` when
the graph was never built. -/
theorem graph_queries_in_range_witness :
    (∃ l, findSimilarMovies stableSort
        (runCalls ([Call.add inception, Call.build, Call.add interstellar] ++ [Call.build]))
        "Interstellar" 3 = some l)
    ∧ findSimilarMovies stableSort (runCalls [Call.add inception]) "Inception" 3 = none :=
  ⟨(graph_queries_in_range [Call.add inception, Call.build, Call.add interstellar]).2.2.2.2.2
      stableSort isStdSort_stableSort "Interstellar" 3,
    by decide⟩

end GraphBasedRecommender

/-! ## Records are not validated -/

/-- C23 (amended): `addMovie` performs no validation and signals no failure: for every
record, also one with an empty title or a rating outside [0, 10], it appends the record
to the movie list and records its position under its genre, actor and industry (in the
graph recommender: under its genre and its title). -/
theorem addMovie_absorbs (movie : Movie) (r : ContentBasedRecommender)
    (g : GraphBasedRecommender) :
    (ContentBasedRecommender.addMovie r movie).movies = r.movies ++ [movie]
    ∧ StrMap.find (ContentBasedRecommender.addMovie r movie).genreToMovies movie.genre
        = some ((StrMap.find r.genreToMovies movie.genre).getD [] ++ [r.movies.length])
    ∧ StrMap.find (ContentBasedRecommender.addMovie r movie).actorToMovies movie.actor
        = some ((StrMap.find r.actorToMovies movie.actor).getD [] ++ [r.movies.length])
    ∧ StrMap.find (ContentBasedRecommender.addMovie r movie).industryToMovies movie.industry
        = some ((StrMap.find r.industryToMovies movie.industry).getD [] ++ [r.movies.length])
    ∧ (GraphBasedRecommender.addMovie g movie).movies = g.movies ++ [movie]
    ∧ StrMap.find (GraphBasedRecommender.addMovie g movie).genreToMovies movie.genre
        = some ((StrMap.find g.genreToMovies movie.genre).getD [] ++ [g.movies.length])
    ∧ StrMap.find (GraphBasedRecommender.addMovie g movie).titleToId movie.title
        = some g.movies.length := by
  refine ⟨rfl, ?_, ?_, ?_, rfl, ?_, ?_⟩
  · simp [ContentBasedRecommender.addMovie, StrMap.find_pushBack]
  · simp [ContentBasedRecommender.addMovie, StrMap.find_pushBack]
  · simp [ContentBasedRecommender.addMovie, StrMap.find_pushBack]
  · simp [GraphBasedRecommender.addMovie, StrMap.find_pushBack]
  · simp [GraphBasedRecommender.addMovie, StrMap.find_assign]

/-- C23 fails as stated: a record with an empty title and rating 11 is absorbed by both
recommenders; the movie list and the index change. -/
theorem addMovie_accepts_malformed :
    malformedMovie.title = "" ∧ ¬ (malformedMovie.rating ≤ 10)
    ∧ (ContentBasedRecommender.addMovie ContentBasedRecommender.empty malformedMovie).movies
        = [malformedMovie]
    ∧ (ContentBasedRecommender.addMovie ContentBasedRecommender.empty malformedMovie).movies
        ≠ ContentBasedRecommender.empty.movies
    ∧ StrMap.find
        (ContentBasedRecommender.addMovie ContentBasedRecommender.empty
          malformedMovie).genreToMovies "Sci-Fi" = some [0]
    ∧ StrMap.find ContentBasedRecommender.empty.genreToMovies "Sci-Fi" = none
    ∧ (GraphBasedRecommender.addMovie GraphBasedRecommender.empty malformedMovie).movies
        = [malformedMovie]
    ∧ StrMap.find
        (GraphBasedRecommender.addMovie GraphBasedRecommender.empty malformedMovie).titleToId ""
        = some 0 :=
  ⟨rfl, by decide!, rfl, by decide!, by decide!, by decide!, rfl, by decide!⟩

/-! ## Title lookup by scanning -/

namespace ContentBasedRecommender

theorem findMovieIndexFrom_eq (title : String) (ms : List Movie) (start : Nat) :
    findMovieIndexFrom title ms start =
      if ms.findIdx (fun m => decide (m.title = title)) < ms.length then
        ((start + ms.findIdx (fun m => decide (m.title = title)) : Nat) : Int)
      else -1 := by
  induction ms generalizing start with
  | nil => simp [findMovieIndexFrom]
  | cons m ms ih =>
    rw [findMovieIndexFrom, List.findIdx_cons]
    by_cases ht : m.title = title
    · simp [ht]
    · rw [if_neg ht, ih]
      simp only [ht, decide_False, cond_false, List.length_cons, Nat.add_lt_add_iff_right]
      split_ifs
      · congr 1
        omega
      · rfl

/-- The position that `findMovieIndex` returns on a catalog. -/
theorem findMovieIndex_eq (ms : List Movie) (title : String) :
    findMovieIndex (ofCatalog ms) title =
      if ms.findIdx (fun m => decide (m.title = title)) < ms.length then
        ((ms.findIdx (fun m => decide (m.title = title)) : Nat) : Int)
      else -1 := by
  unfold findMovieIndex
  rw [ofCatalog_movies, findMovieIndexFrom_eq]
  simp

/-- What `findMovieIndex` returns: -1 exactly when no movie has the title, else the least
position whose movie has it. -/
theorem findMovieIndex_spec (ms : List Movie) (title : String) :
    (findMovieIndex (ofCatalog ms) title = -1 ↔ ∀ m ∈ ms, m.title ≠ title)
    ∧ (∀ i : Nat, findMovieIndex (ofCatalog ms) title = (i : Int) →
        i < ms.length ∧ (ms.getD i defaultMovie).title = title
          ∧ ∀ j, j < i → (ms.getD j defaultMovie).title ≠ title)
    ∧ ((∃ m ∈ ms, m.title = title) → ∃ i : Nat, findMovieIndex (ofCatalog ms) title = (i : Int)) := by
  rw [findMovieIndex_eq]
  refine ⟨?_, ?_, ?_⟩
  · constructor
    · intro h m hm ht
      have hlt : ms.findIdx (fun m => decide (m.title = title)) < ms.length :=
        List.findIdx_lt_length_of_exists ⟨m, hm, by simp [ht]⟩
      rw [if_pos hlt] at h
      omega
    · intro h
      have hge : ¬ ms.findIdx (fun m => decide (m.title = title)) < ms.length := by
        rw [List.findIdx_eq_length_of_false (fun m hm => by simp [h m hm])]
        omega
      rw [if_neg hge]
  · intro i hi
    by_cases hlt : ms.findIdx (fun m => decide (m.title = title)) < ms.length
    · rw [if_pos hlt] at hi
      have hi' : ms.findIdx (fun m => decide (m.title = title)) = i := by omega
      subst hi'
      refine ⟨hlt, ?_, ?_⟩
      · rw [List.getD_eq_getElem _ _ hlt]
        have := @List.findIdx_getElem _ (fun m : Movie => decide (m.title = title)) ms hlt
        simpa using this
      · intro j hj
        have hjlt : j < ms.length := lt_trans hj hlt
        rw [List.getD_eq_getElem _ _ hjlt]
        have := @List.not_of_lt_findIdx _ (fun m : Movie => decide (m.title = title)) ms j hj
        simpa using this
    · rw [if_neg hlt] at hi
      omega
  · rintro ⟨m, hm, ht⟩
    have hlt : ms.findIdx (fun m => decide (m.title = title)) < ms.length :=
      List.findIdx_lt_length_of_exists ⟨m, hm, by simp [ht]⟩
    rw [if_pos hlt]
    exact ⟨_, rfl⟩

/-- C28: `findMovieIndex` returns the least position whose movie has exactly the title,
and -1 if and only if no catalog movie has it; `getMovieByTitle` returns the movie at that
position, or the default movie (id 0, empty strings, rating 0) when the result is -1. -/
theorem findMovieIndex_least (ms : List Movie) (title : String) :
    (findMovieIndex (ofCatalog ms) title = -1 ↔ ∀ m ∈ ms, m.title ≠ title)
    ∧ (∀ i : Nat, findMovieIndex (ofCatalog ms) title = (i : Int) →
        i < ms.length ∧ (ms.getD i defaultMovie).title = title
          ∧ ∀ j, j < i → (ms.getD j defaultMovie).title ≠ title)
    ∧ ((∃ m ∈ ms, m.title = title) → ∃ i : Nat, findMovieIndex (ofCatalog ms) title = (i : Int))
    ∧ getMovieByTitle (ofCatalog ms) title
        = some (if findMovieIndex (ofCatalog ms) title = -1 then defaultMovie
            else ms.getD (findMovieIndex (ofCatalog ms) title).toNat defaultMovie)
    ∧ defaultMovie = Movie.mk 0 "" "" "" 0 "" := by
  obtain ⟨h1, h2, h3⟩ := findMovieIndex_spec ms title
  refine ⟨h1, h2, h3, ?_, rfl⟩
  unfold getMovieByTitle
  simp only [ofCatalog_movies]
  by_cases hidx : findMovieIndex (ofCatalog ms) title = -1
  · simp [hidx]
  · rw [if_pos hidx, if_neg hidx]
    have hex : ∃ m ∈ ms, m.title = title := by
      by_contra hne
      exact hidx (h1.2 (fun m hm ht => hne ⟨m, hm, ht⟩))
    obtain ⟨i, hi⟩ := h3 hex
    have hlt : i < ms.length := (h2 i hi).1
    rw [hi, Int.toNat_ofNat, List.getElem?_eq_getElem hlt, List.getD_eq_getElem _ _ hlt]

/-- Witness of C28: the title "The Matrix" on a catalog that carries it twice. -/
theorem findMovieIndex_least_witness :
    0 < [matrixSciFi, theDarkKnight, matrixAction].length
      ∧ ([matrixSciFi, theDarkKnight, matrixAction].getD 0 defaultMovie).title = "The Matrix"
      ∧ ∀ j, j < 0 →
        ([matrixSciFi, theDarkKnight, matrixAction].getD j defaultMovie).title ≠ "The Matrix" :=
  (findMovieIndex_least [matrixSciFi, theDarkKnight, matrixAction] "The Matrix").2.1 0
    (by decide!)

end ContentBasedRecommender

/-! ## Title lookup through the map -/

theorem positionsOf_pairwise_lt (p : Movie → Bool) (ms : List Movie) :
    (positionsOf p ms).Pairwise (fun a b => a < b) :=
  (List.pairwise_lt_range ms.length).sublist (List.filter_sublist _)

/-- A duplicate-free list whose members all equal `a` has at most one member. -/
theorem length_le_one_of_forall_eq {l : List Nat} {a : Nat} (hnd : l.Nodup)
    (h : ∀ b ∈ l, b = a) : l.length ≤ 1 := by
  have hrep := List.eq_replicate_of_mem h
  rw [hrep] at hnd
  exact List.nodup_replicate.1 hnd

namespace GraphBasedRecommender

/-- The position a title resolves to in the graph-based recommender is the greatest
position that carries it, and there is none exactly when no movie carries it. -/
theorem titleToId_spec (ms : List Movie) (title : String) :
    (∀ i, StrMap.find (ofCatalog ms).titleToId title = some i →
      i < ms.length ∧ (ms.getD i defaultMovie).title = title
        ∧ ∀ j, j < ms.length → (ms.getD j defaultMovie).title = title → j ≤ i)
    ∧ (StrMap.find (ofCatalog ms).titleToId title = none ↔ ∀ m ∈ ms, m.title ≠ title) := by
  rw [graph_titleToId]
  constructor
  · intro i hi
    have hmem := mem_positionsOf.1 (List.mem_of_getLast?_eq_some hi)
    refine ⟨hmem.1, by simpa using hmem.2, ?_⟩
    intro j hj htj
    have hjmem : j ∈ positionsOf (fun m => decide (m.title = title)) ms :=
      mem_positionsOf.2 ⟨hj, by simpa using htj⟩
    obtain ⟨ys, hys⟩ := List.getLast?_eq_some_iff.1 hi
    have hpw := positionsOf_pairwise_lt (fun m => decide (m.title = title)) ms
    rw [hys] at hjmem hpw
    rcases List.mem_append.1 hjmem with hj' | hj'
    · exact le_of_lt ((List.pairwise_append.1 hpw).2.2 j hj' i (List.mem_singleton_self i))
    · rw [List.mem_singleton] at hj'
      exact le_of_eq hj'
  · rw [List.getLast?_eq_none_iff, positionsOf_eq_nil_iff]
    constructor
    · intro h m hm ht
      have := h m hm
      simp [ht] at this
    · intro h m hm
      simp [h m hm]

/-- C27: the graph-based recommender maps a title to the greatest catalog position that
carries it, `findSimilarMovies` ranks the neighbours of that position, and that position
is the one `ContentBasedRecommender::findMovieIndex` returns if and only if the title
occurs exactly once in the catalog. -/
theorem titleToId_greatest (ms : List Movie) (title : String) :
    (∀ i, StrMap.find (ofCatalog ms).titleToId title = some i →
      i < ms.length ∧ (ms.getD i defaultMovie).title = title
        ∧ ∀ j, j < ms.length → (ms.getD j defaultMovie).title = title → j ≤ i)
    ∧ (StrMap.find (ofCatalog ms).titleToId title = none ↔ ∀ m ∈ ms, m.title ≠ title)
    ∧ (∀ sort k, findSimilarMovies sort (ofCatalog ms) title k =
        match StrMap.find (ofCatalog ms).titleToId title with
        | none => some []
        | some movieId =>
          takeTopN ms k (sort (((ofCatalog ms).adjList.getD movieId []).map
            (fun e => (e.2, e.1)))))
    ∧ ((∃ i : Nat, StrMap.find (ofCatalog ms).titleToId title = some i
          ∧ ContentBasedRecommender.findMovieIndex (ContentBasedRecommender.ofCatalog ms) title
            = (i : Int))
        ↔ (ms.filter (fun m => decide (m.title = title))).length = 1) := by
  obtain ⟨hgreat, hnone⟩ := titleToId_spec ms title
  obtain ⟨-, hleast, hex⟩ := ContentBasedRecommender.findMovieIndex_spec ms title
  refine ⟨hgreat, hnone, ?_, ?_⟩
  · intro sort k
    rw [findSimilarMovies_cases]
    have hlt := graph_titleToId_lt ms title
    rw [graph_titleToId] at hlt ⊢
    cases hl : (positionsOf (fun m => decide (m.title = title)) ms).getLast? with
    | none => rfl
    | some movieId =>
      simp only
      rw [adjList_getD ms movieId (hlt movieId hl)]
  · rw [← positionsOf_length]
    constructor
    · rintro ⟨i, hlast, hfirst⟩
      obtain ⟨hi, hti, hle⟩ := hgreat i hlast
      obtain ⟨-, -, hge⟩ := hleast i hfirst
      have hall : ∀ b ∈ positionsOf (fun m => decide (m.title = title)) ms, b = i := by
        intro b hb
        obtain ⟨hb1, hb2⟩ := mem_positionsOf.1 hb
        have hb3 : (ms.getD b defaultMovie).title = title := by simpa using hb2
        have h1 : b ≤ i := hle b hb1 hb3
        by_contra hne
        exact hge b (lt_of_le_of_ne h1 hne) hb3
      have h1 := length_le_one_of_forall_eq (positionsOf_nodup _ ms) hall
      have hmem : i ∈ positionsOf (fun m => decide (m.title = title)) ms :=
        mem_positionsOf.2 ⟨hi, by simpa using hti⟩
      have h2 := List.length_pos_of_mem hmem
      omega
    · intro hone
      obtain ⟨a, ha⟩ := List.length_eq_one.1 hone
      have hamem : a ∈ positionsOf (fun m => decide (m.title = title)) ms := by
        rw [ha]
        exact List.mem_singleton_self a
      obtain ⟨ha1, ha2⟩ := mem_positionsOf.1 hamem
      have hta : (ms.getD a defaultMovie).title = title := by simpa using ha2
      have hmovie : ∃ m ∈ ms, m.title = title := by
        refine ⟨ms.getD a defaultMovie, ?_, hta⟩
        rw [List.getD_eq_getElem _ _ ha1]
        exact List.getElem_mem _
      obtain ⟨i, hi⟩ := hex hmovie
      obtain ⟨hi1, hi2, -⟩ := hleast i hi
      have himem : i ∈ positionsOf (fun m => decide (m.title = title)) ms :=
        mem_positionsOf.2 ⟨hi1, by simpa using hi2⟩
      rw [ha, List.mem_singleton] at himem
      refine ⟨i, ?_, hi⟩
      rw [graph_titleToId, ha, himem]
      rfl

/-- Witness of C27: the title "The Matrix", carried by positions 0 and 2, resolves to
position 2. -/
theorem titleToId_greatest_witness :
    2 < [matrixSciFi, theDarkKnight, matrixAction].length
      ∧ ([matrixSciFi, theDarkKnight, matrixAction].getD 2 defaultMovie).title = "The Matrix"
      ∧ ∀ j, j < [matrixSciFi, theDarkKnight, matrixAction].length →
        ([matrixSciFi, theDarkKnight, matrixAction].getD j defaultMovie).title = "The Matrix" →
        j ≤ 2 :=
  (titleToId_greatest [matrixSciFi, theDarkKnight, matrixAction] "The Matrix").1 2 (by decide!)

end GraphBasedRecommender

/-! ## Which pairs are adjacent -/

/-- A value below `10 - 2 ^ (-50)` is rounded to the double below 10 at most. -/
theorem round_le_pred_ten {z : ℚ} (h0 : 0 ≤ z) (h : z < 10 - 1 / 2 ^ 50) :
    Binary64.round z ≤ 10 - 1 / 2 ^ 49 := by
  rcases lt_or_le z 8 with h8 | h8
  · have := Binary64.round_mono (le_of_lt h8)
    rw [show Binary64.round 8 = 8 by decide!] at this
    have h9 : (8 : ℚ) ≤ 10 - 1 / 2 ^ 49 := by norm_num
    linarith
  · have hzpos : 0 < z := by linarith
    have hlog : Int.log 2 z = 3 := by
      have hlo : (3 : Int) ≤ Int.log 2 z :=
        (Int.zpow_le_iff_le_log (by norm_num) hzpos).1 (by norm_num; linarith)
      have hhi : Int.log 2 z < 4 :=
        (Int.lt_zpow_iff_log_lt (by norm_num) hzpos).1 (by norm_num; linarith)
      omega
    have hq : Binary64.quantum z = 1 / 2 ^ 49 := by
      rw [Binary64.quantum_eq hzpos, hlog]
      norm_num
    have hr : Binary64.round z = Binary64.roundPos z := by
      unfold Binary64.round
      rw [if_neg (not_lt.mpr h0)]
    rw [hr]
    unfold Binary64.roundPos
    rw [hq]
    have hlt : z / (1 / 2 ^ 49) < ((10 * 2 ^ 49 - 1 : Int) : ℚ) + 1 / 2 := by
      push_cast
      rw [div_lt_iff₀ (by norm_num)]
      norm_num at h ⊢
      linarith
    have hk := Binary64.roundHalfEven_le_of_lt hlt
    have hk2 : (Binary64.roundHalfEven (z / (1 / 2 ^ 49)) : ℚ) ≤ ((10 * 2 ^ 49 - 1 : Int) : ℚ) := by
      exact_mod_cast hk
    push_cast at hk2
    have hmul := mul_le_mul_of_nonneg_right hk2 (show (0 : ℚ) ≤ 1 / 2 ^ 49 by norm_num)
    norm_num at hmul ⊢
    linarith

/-- The double nearest the shared weights is the double 0.3 at least when the genre or the
actor is shared, the double 0.2 when the industry alone is shared, and 0 when nothing is
shared. -/
theorem sharedWeight_cases (m1 m2 : Movie) :
    ((m1.genre = m2.genre ∨ m1.actor = m2.actor) →
        Binary64.lit 0.3 ≤ Binary64.lit (sharedWeight m1 m2))
    ∧ (m1.genre ≠ m2.genre → m1.actor ≠ m2.actor → m1.industry = m2.industry →
        Binary64.lit (sharedWeight m1 m2) = Binary64.lit 0.2)
    ∧ (m1.genre ≠ m2.genre → m1.actor ≠ m2.actor → m1.industry ≠ m2.industry →
        Binary64.lit (sharedWeight m1 m2) = 0)
    ∧ (m1.genre = m2.genre → m1.industry = m2.industry →
        1 / 2 ≤ Binary64.lit (sharedWeight m1 m2)) := by
  unfold sharedWeight
  refine ⟨?_, ?_, ?_, ?_⟩
  · intro h
    split_ifs with hg ha hi hi ha hi hi
    all_goals first
      | decide!
      | (exfalso; rcases h with h | h <;> contradiction)
  · intro hg ha hi
    rw [if_neg hg, if_neg ha, if_pos hi]
    decide!
  · intro hg ha hi
    rw [if_neg hg, if_neg ha, if_neg hi]
    decide!
  · intro hg hi
    rw [if_pos hg, if_pos hi]
    split_ifs <;> decide!

/-- When the similarity exceeds the threshold of the graph, for ratings between 0 and 10:
a shared genre or actor suffices; a shared industry alone does when the ratings differ by
less than `10 - 2 ^ (-50)`, a difference that is not rounded to 10. -/
theorem calculateSimilarity_gt_iff (m1 m2 : Movie)
    (h1 : 0 ≤ m1.rating ∧ m1.rating ≤ 10) (h2 : 0 ≤ m2.rating ∧ m2.rating ≤ 10) :
    calculateSimilarity m1 m2 > Binary64.lit 0.2 ↔
      m1.genre = m2.genre ∨ m1.actor = m2.actor
        ∨ (m1.industry = m2.industry ∧ |m1.rating - m2.rating| < 10 - 1 / 2 ^ 50) := by
  obtain ⟨-, hl1, h10, -, h02⟩ := lit_values
  obtain ⟨hw3, hw2, hw0, -⟩ := sharedWeight_cases m1 m2
  have ht0 := ratingTerm_nonneg m1.rating m2.rating h1 h2
  have ht1 := ratingTerm_le m1.rating m2.rating
  rw [calculateSimilarity_eq]
  by_cases hga : m1.genre = m2.genre ∨ m1.actor = m2.actor
  · have hW := hw3 hga
    have hsum : Binary64.lit 0.3 ≤ Binary64.lit (sharedWeight m1 m2)
        + ratingTerm m1.rating m2.rating := by linarith
    have hr := Binary64.round_mono hsum
    rw [show Binary64.round (Binary64.lit 0.3) = Binary64.lit 0.3 by decide!] at hr
    have hlt : Binary64.lit 0.2 < Binary64.lit 0.3 := by decide!
    constructor
    · intro _
      rcases hga with h | h
      · exact Or.inl h
      · exact Or.inr (Or.inl h)
    · intro _
      unfold Binary64.add
      exact lt_of_lt_of_le hlt hr
  · have hg : m1.genre ≠ m2.genre := fun h => hga (Or.inl h)
    have ha : m1.actor ≠ m2.actor := fun h => hga (Or.inr h)
    by_cases hi : m1.industry = m2.industry
    · rw [hw2 hg ha hi]
      have hx0 : 0 ≤ |m1.rating - m2.rating| := abs_nonneg _
      have hD : |Binary64.sub m1.rating m2.rating| = Binary64.round |m1.rating - m2.rating| := by
        unfold Binary64.sub
        rw [Binary64.round_abs]
      unfold ratingTerm Binary64.mul Binary64.div Binary64.add
      rw [hD, hl1, h10]
      unfold Binary64.sub
      generalize |m1.rating - m2.rating| = a at hx0 ⊢
      by_cases hlt : a < 10 - 1 / 2 ^ 50
      · have hDle := round_le_pred_ten hx0 hlt
        have hq := @Binary64.round_mono (Binary64.round a / 10) ((10 - 1 / 2 ^ 49) / 10)
          (by linarith)
        have hu := @Binary64.round_mono
          (1 - Binary64.round ((10 - 1 / 2 ^ 49) / 10)) (1 - Binary64.round (Binary64.round a / 10))
          (by linarith)
        have hcu := mul_le_mul_of_nonneg_left hu (le_of_lt h02)
        have ht := Binary64.round_mono hcu
        have hs := @Binary64.round_mono
          (Binary64.lit 0.2 + Binary64.round (Binary64.lit 0.2
            * Binary64.round (1 - Binary64.round ((10 - 1 / 2 ^ 49) / 10))))
          (Binary64.lit 0.2 + Binary64.round (Binary64.lit 0.2
            * Binary64.round (1 - Binary64.round (Binary64.round a / 10))))
          (by linarith)
        have hconst : Binary64.lit 0.2 < Binary64.round (Binary64.lit 0.2
            + Binary64.round (Binary64.lit 0.2
              * Binary64.round (1 - Binary64.round ((10 - 1 / 2 ^ 49) / 10)))) := by
          decide!
        constructor
        · intro _
          exact Or.inr (Or.inr ⟨hi, hlt⟩)
        · intro _
          exact lt_of_lt_of_le hconst hs
      · have hge : 10 - 1 / 2 ^ 50 ≤ a := not_lt.mp hlt
        have hD10 := Binary64.round_mono hge
        rw [show Binary64.round (10 - 1 / 2 ^ 50) = 10 by decide!] at hD10
        have hq := @Binary64.round_mono 1 (Binary64.round a / 10) (by linarith)
        rw [show Binary64.round 1 = 1 by decide!] at hq
        have hu := @Binary64.round_mono (1 - Binary64.round (Binary64.round a / 10)) 0
          (by linarith)
        rw [Binary64.round_zero] at hu
        have hcu : Binary64.lit 0.2 * Binary64.round (1 - Binary64.round (Binary64.round a / 10))
            ≤ 0 := mul_nonpos_of_nonneg_of_nonpos (le_of_lt h02) hu
        have ht := Binary64.round_mono hcu
        rw [Binary64.round_zero] at ht
        have hs := @Binary64.round_mono
          (Binary64.lit 0.2 + Binary64.round (Binary64.lit 0.2
            * Binary64.round (1 - Binary64.round (Binary64.round a / 10))))
          (Binary64.lit 0.2) (by linarith)
        rw [show Binary64.round (Binary64.lit 0.2) = Binary64.lit 0.2 by decide!] at hs
        constructor
        · intro hgt
          exact absurd hgt (not_lt.mpr hs)
        · rintro (h | h | ⟨-, h⟩)
          · exact absurd h hg
          · exact absurd h ha
          · exact absurd h hlt
    · rw [hw0 hg ha hi]
      have hs := @Binary64.round_mono (0 + ratingTerm m1.rating m2.rating) (Binary64.lit 0.2)
        (by linarith)
      rw [show Binary64.round (Binary64.lit 0.2) = Binary64.lit 0.2 by decide!] at hs
      unfold Binary64.add
      constructor
      · intro hgt
        exact absurd hgt (not_lt.mpr hs)
      · rintro (h | h | ⟨h, -⟩)
        · exact absurd h hg
        · exact absurd h ha
        · exact absurd h hi

/-- Two movies that share none of genre, actor and industry have a similarity of the
double 0.2 at most, whatever their ratings. -/
theorem calculateSimilarity_le_of_disjoint (m1 m2 : Movie) (hg : m1.genre ≠ m2.genre)
    (ha : m1.actor ≠ m2.actor) (hi : m1.industry ≠ m2.industry) :
    calculateSimilarity m1 m2 ≤ Binary64.lit 0.2 := by
  have ht1 := ratingTerm_le m1.rating m2.rating
  rw [calculateSimilarity_eq, (sharedWeight_cases m1 m2).2.2.1 hg ha hi]
  have hs := @Binary64.round_mono (0 + ratingTerm m1.rating m2.rating) (Binary64.lit 0.2)
    (by linarith)
  rw [show Binary64.round (Binary64.lit 0.2) = Binary64.lit 0.2 by decide!] at hs
  exact hs

/-- Two movies of one genre and industry with ratings between 0 and 10 have a similarity
of one half at least. -/
theorem calculateSimilarity_group (m1 m2 : Movie) (hg : m1.genre = m2.genre)
    (hi : m1.industry = m2.industry)
    (h1 : 0 ≤ m1.rating ∧ m1.rating ≤ 10) (h2 : 0 ≤ m2.rating ∧ m2.rating ≤ 10) :
    1 / 2 ≤ calculateSimilarity m1 m2 := by
  have ht0 := ratingTerm_nonneg m1.rating m2.rating h1 h2
  have hW := (sharedWeight_cases m1 m2).2.2.2 hg hi
  rw [calculateSimilarity_eq]
  have hs := @Binary64.round_mono (1 / 2)
    (Binary64.lit (sharedWeight m1 m2) + ratingTerm m1.rating m2.rating) (by linarith)
  rw [show Binary64.round (1 / 2) = 1 / 2 by decide!] at hs
  exact hs

/-- Two movies of one genre and industry with ratings between 0 and 10 are similar beyond
the threshold of the graph. -/
theorem calculateSimilarity_group_gt (m1 m2 : Movie) (hg : m1.genre = m2.genre)
    (hi : m1.industry = m2.industry)
    (h1 : 0 ≤ m1.rating ∧ m1.rating ≤ 10) (h2 : 0 ≤ m2.rating ∧ m2.rating ≤ 10) :
    calculateSimilarity m1 m2 > Binary64.lit 0.2 ∧ 0 < calculateSimilarity m1 m2 := by
  have h := calculateSimilarity_group m1 m2 hg hi h1 h2
  have hlt : Binary64.lit 0.2 < 1 / 2 := by decide!
  constructor
  · exact lt_of_lt_of_le hlt h
  · linarith


theorem getD_mem (ms : List Movie) (i : Nat) (hi : i < ms.length) :
    ms.getD i defaultMovie ∈ ms := by
  rw [List.getD_eq_getElem _ _ hi]
  exact List.getElem_mem _

namespace GraphBasedRecommender

/-- C25 fails as stated: two movies with ratings in [0, 10] that share their industry and
nothing else, with ratings 10 and `2 ^ (-60)`, differ by less than 10, yet the subtraction
of doubles rounds the difference to 10, the similarity is exactly the double 0.2, and the
graph holds no edge between them. -/
theorem adjacent_iff_shared_fails :
    (0 ≤ ratedTen.rating ∧ ratedTen.rating ≤ 10)
    ∧ (0 ≤ ratedTiny.rating ∧ ratedTiny.rating ≤ 10)
    ∧ ratedTen.genre ≠ ratedTiny.genre ∧ ratedTen.actor ≠ ratedTiny.actor
    ∧ ratedTen.industry = ratedTiny.industry
    ∧ |ratedTen.rating - ratedTiny.rating| < 10
    ∧ Binary64.sub ratedTen.rating ratedTiny.rating = 10
    ∧ calculateSimilarity ratedTen ratedTiny = Binary64.lit 0.2
    ∧ (ofCatalog [ratedTen, ratedTiny]).adjList = [[], []] := by
  have h : ratedTiny = Movie.mk 2 "Tiny" "Comedy" "Somebody" (1 / 1152921504606846976)
      "Hollywood" := by
    unfold ratedTiny
    norm_num
  rw [h]
  decide!

/-- C25 (amended): on a catalog whose ratings lie in [0, 10], after `buildSimilarityGraph`
two distinct positions are adjacent if and only if the two movies share their genre, or
share their actor, or share their industry with ratings that differ by less than
`10 - 2 ^ (-50)`, which is when the difference of the doubles is not rounded to 10; two
movies that share none of genre, actor and industry are never adjacent, whatever their
ratings. -/
theorem adjacent_iff_shared (ms : List Movie) :
    ((∀ m ∈ ms, 0 ≤ m.rating ∧ m.rating ≤ 10) →
      ∀ i j, i < ms.length → j < ms.length → i ≠ j →
        ((∃ s, (j, s) ∈ (ofCatalog ms).adjList.getD i []) ↔
          (ms.getD i defaultMovie).genre = (ms.getD j defaultMovie).genre
            ∨ (ms.getD i defaultMovie).actor = (ms.getD j defaultMovie).actor
            ∨ ((ms.getD i defaultMovie).industry = (ms.getD j defaultMovie).industry
              ∧ |(ms.getD i defaultMovie).rating - (ms.getD j defaultMovie).rating|
                < 10 - 1 / 2 ^ 50)))
    ∧ (∀ i j, (ms.getD i defaultMovie).genre ≠ (ms.getD j defaultMovie).genre →
        (ms.getD i defaultMovie).actor ≠ (ms.getD j defaultMovie).actor →
        (ms.getD i defaultMovie).industry ≠ (ms.getD j defaultMovie).industry →
        ∀ s, (j, s) ∉ (ofCatalog ms).adjList.getD i []) := by
  constructor
  · intro hrat i j hi hj hij
    rw [← calculateSimilarity_gt_iff _ _ (hrat _ (getD_mem ms i hi)) (hrat _ (getD_mem ms j hj))]
    constructor
    · rintro ⟨s, hs⟩
      exact ((mem_adjList_iff ms i j s).1 hs).2.2.2.1
    · intro hs
      exact ⟨_, (mem_adjList_iff ms i j _).2 ⟨hi, hj, Ne.symm hij, hs, rfl⟩⟩
  · intro i j hg ha hind s hs
    have hgt := ((mem_adjList_iff ms i j s).1 hs).2.2.2.1
    have hle := calculateSimilarity_le_of_disjoint _ _ hg ha hind
    exact absurd hgt (not_lt.2 hle)

/-- Witness of C25 (amended): the two positions of the two-movie sample catalog. -/
theorem adjacent_iff_shared_witness :
    (∃ s, (1, s) ∈ (ofCatalog [inception, interstellar]).adjList.getD 0 []) ↔
      ([inception, interstellar].getD 0 defaultMovie).genre
          = ([inception, interstellar].getD 1 defaultMovie).genre
        ∨ ([inception, interstellar].getD 0 defaultMovie).actor
          = ([inception, interstellar].getD 1 defaultMovie).actor
        ∨ (([inception, interstellar].getD 0 defaultMovie).industry
            = ([inception, interstellar].getD 1 defaultMovie).industry
          ∧ |([inception, interstellar].getD 0 defaultMovie).rating
              - ([inception, interstellar].getD 1 defaultMovie).rating| < 10 - 1 / 2 ^ 50) :=
  (adjacent_iff_shared [inception, interstellar]).1 (by decide!)
    0 1 (by decide) (by decide) (by decide)

end GraphBasedRecommender

/-! ## The composite score over the whole group -/

namespace GraphBasedRecommender

/-- On a catalog with ratings in [0, 10] the neighbours of a candidate that the score loop
averages are all the other candidates: the threshold removes none of them. -/
theorem qualifying_eq (ms : List Movie) (hrat : ∀ m ∈ ms, 0 ≤ m.rating ∧ m.rating ≤ 10)
    (genre industry : String) (i : Nat)
    (hi : i ∈ positionsOf
      (fun m => decide (m.genre = genre) && decide (m.industry = industry)) ms) :
    ((ofCatalog ms).adjList.getD i []).filter (fun e =>
        decide ((ms.getD e.1 defaultMovie).genre = genre)
          && decide ((ms.getD e.1 defaultMovie).industry = industry))
      = ((positionsOf (fun m => decide (m.genre = genre) && decide (m.industry = industry))
          ms).filter (fun j => decide (j ≠ i))).map
        (fun j => (j, calculateSimilarity (ms.getD i defaultMovie)
          (ms.getD j defaultMovie))) := by
  obtain ⟨hilt, hip⟩ := mem_positionsOf.1 hi
  simp only [Bool.and_eq_true, decide_eq_true_eq] at hip
  rw [adjList_getD ms i hilt]
  unfold neighboursSpec positionsOf
  rw [List.filter_map, List.filter_filter, List.filter_filter]
  congr 1
  apply List.filter_congr
  intro j hj
  rw [List.mem_range] at hj
  simp only [Function.comp_apply]
  by_cases hjp : (ms.getD j defaultMovie).genre = genre
      ∧ (ms.getD j defaultMovie).industry = industry
  · have hgt := (calculateSimilarity_group_gt (ms.getD i defaultMovie)
      (ms.getD j defaultMovie) (hip.1.trans hjp.1.symm) (hip.2.trans hjp.2.symm)
      (hrat _ (getD_mem ms i hilt)) (hrat _ (getD_mem ms j hj))).1
    generalize ms.getD i defaultMovie = mi at hgt ⊢
    generalize ms.getD j defaultMovie = mj at hjp hgt ⊢
    by_cases hne : j = i <;> simp [hjp.1, hjp.2, hgt, hne]
  · have hfalse : (decide ((ms.getD j defaultMovie).genre = genre)
        && decide ((ms.getD j defaultMovie).industry = industry)) = false := by
      simpa [Bool.and_eq_false_iff, not_and_or] using hjp
    rw [hfalse]
    simp

/-- On a catalog with ratings in [0, 10] the composite score of a candidate is its score
over the whole group. -/
theorem compositeScoreSpec_eq_group (ms : List Movie)
    (hrat : ∀ m ∈ ms, 0 ≤ m.rating ∧ m.rating ≤ 10) (genre industry : String) (i : Nat)
    (hi : i ∈ positionsOf
      (fun m => decide (m.genre = genre) && decide (m.industry = industry)) ms) :
    compositeScoreSpec ms (ofCatalog ms).adjList genre industry i
      = groupScoreSpec ms genre industry i := by
  have hfun : (Prod.snd ∘ fun j => (j, calculateSimilarity (ms.getD i defaultMovie)
      (ms.getD j defaultMovie)))
      = fun j => calculateSimilarity (ms.getD i defaultMovie) (ms.getD j defaultMovie) := by
    funext j
    rfl
  unfold compositeScoreSpec groupScoreSpec
  simp only
  rw [qualifying_eq ms hrat genre industry i hi, List.map_map, hfun, List.length_map,
    Binary64.mul_swap (Binary64.lit 4.0)]
  simp only [List.map_eq_nil_iff]

/-- The product `rating * 0.6` of doubles lies between 0 and 6 for a rating between 0 and
10. -/
theorem ratingPart_bounds (r : ℚ) (h : 0 ≤ r ∧ r ≤ 10) :
    0 ≤ Binary64.mul r (Binary64.lit 0.6) ∧ Binary64.mul r (Binary64.lit 0.6) ≤ 6 := by
  have hc : 0 < Binary64.lit 0.6 := by decide!
  unfold Binary64.mul
  constructor
  · exact Binary64.round_nonneg (mul_nonneg h.1 (le_of_lt hc))
  · have h1 : r * Binary64.lit 0.6 ≤ 10 * Binary64.lit 0.6 :=
      mul_le_mul_of_nonneg_right h.2 (le_of_lt hc)
    have := Binary64.round_mono h1
    rwa [show Binary64.round (10 * Binary64.lit 0.6) = 6 by decide!] at this

/-- The mean of at most `2 ^ 53` doubles that are one half at least, taken as the running
total divided by the count, is one half at least. -/
theorem mean_ge_half (l : List ℚ) (hl : ∀ x ∈ l, 1 / 2 ≤ x) (hne : l ≠ [])
    (hlen : l.length ≤ 2 ^ 53) :
    1 / 2 ≤ Binary64.div (Binary64.sum l) (l.length : ℚ) := by
  have hsum := Binary64.foldl_add_ge l hl 0 0 (by simp) (by simpa using hlen)
  have hpos : (0 : ℚ) < (l.length : ℚ) := by exact_mod_cast List.length_pos.2 hne
  unfold Binary64.div Binary64.sum
  rw [Nat.zero_add] at hsum
  have hdiv : (1 : ℚ) / 2 ≤ List.foldl Binary64.add 0 l / (l.length : ℚ) := by
    rw [le_div_iff₀ hpos]
    linarith
  have := Binary64.round_mono hdiv
  rwa [show Binary64.round (1 / 2) = 1 / 2 by decide!] at this

/-- C26: on a catalog with ratings in [0, 10] and its graph built, the threshold removes
no neighbour of the same group: for every candidate of `recommendByGenreGraph` the
averaged neighbours are exactly the other catalog movies of the genre and industry, its
composite score is rating * 0.6 + 4.0 * (mean of `calculateSimilarity` to every other
movie of the group), in the arithmetic of doubles with the similarities added in catalog
order, and, on a catalog whose positions a C++ `int` holds, it equals rating * 0.6 exactly
when the group has one member. -/
theorem compositeScore_whole_group (ms : List Movie)
    (hrat : ∀ m ∈ ms, 0 ≤ m.rating ∧ m.rating ≤ 10) (genre industry : String) :
    movieScores (ofCatalog ms) genre industry
        (positionsOf (fun m => decide (m.genre = genre) && decide (m.industry = industry)) ms)
      = some ((positionsOf
          (fun m => decide (m.genre = genre) && decide (m.industry = industry)) ms).map
            (fun i => (groupScoreSpec ms genre industry i, i)))
    ∧ ∀ i ∈ positionsOf
        (fun m => decide (m.genre = genre) && decide (m.industry = industry)) ms,
      (((ofCatalog ms).adjList.getD i []).filter (fun e =>
          decide ((ms.getD e.1 defaultMovie).genre = genre)
            && decide ((ms.getD e.1 defaultMovie).industry = industry))).map Prod.fst
        = (positionsOf (fun m => decide (m.genre = genre) && decide (m.industry = industry))
            ms).filter (fun j => decide (j ≠ i))
      ∧ compositeScoreSpec ms (ofCatalog ms).adjList genre industry i
        = groupScoreSpec ms genre industry i
      ∧ (ms.length < 2 ^ 31 →
          (compositeScoreSpec ms (ofCatalog ms).adjList genre industry i
              = Binary64.mul (ms.getD i defaultMovie).rating (Binary64.lit 0.6)
            ↔ (ms.filter (fun m =>
                decide (m.genre = genre) && decide (m.industry = industry))).length = 1)) := by
  constructor
  · rw [movieScores_eq ms genre industry _ (fun i hi => (mem_positionsOf.1 hi).1)]
    congr 1
    apply List.map_congr_left
    intro i hi
    rw [compositeScoreSpec_eq_group ms hrat genre industry i hi]
  · intro i hi
    obtain ⟨hilt, hip⟩ := mem_positionsOf.1 hi
    simp only [Bool.and_eq_true, decide_eq_true_eq] at hip
    refine ⟨?_, compositeScoreSpec_eq_group ms hrat genre industry i hi, ?_⟩
    · rw [qualifying_eq ms hrat genre industry i hi, List.map_map]
      have hid : (Prod.fst ∘ fun j => (j, calculateSimilarity (ms.getD i defaultMovie)
          (ms.getD j defaultMovie))) = id := by
        funext j
        rfl
      rw [hid, List.map_id]
    · intro hsize
      rw [compositeScoreSpec_eq_group ms hrat genre industry i hi, ← positionsOf_length]
      have hp := ratingPart_bounds (ms.getD i defaultMovie).rating (hrat _ (getD_mem ms i hilt))
      unfold groupScoreSpec
      simp only
      constructor
      · intro hscore
        by_contra hlen
        have hnil : (positionsOf
            (fun m => decide (m.genre = genre) && decide (m.industry = industry)) ms).filter
              (fun j => decide (j ≠ i)) ≠ [] := by
          intro hnil
          have hall : ∀ b ∈ positionsOf
              (fun m => decide (m.genre = genre) && decide (m.industry = industry)) ms,
              b = i := by
            intro b hb
            by_contra hne
            have hbmem : b ∈ (positionsOf
                (fun m => decide (m.genre = genre) && decide (m.industry = industry))
                ms).filter (fun j => decide (j ≠ i)) :=
              List.mem_filter.2 ⟨hb, by simpa using hne⟩
            rw [hnil] at hbmem
            exact List.not_mem_nil _ hbmem
          have h1 := length_le_one_of_forall_eq (positionsOf_nodup _ ms) hall
          have h2 := List.length_pos_of_mem hi
          omega
        rw [if_neg hnil] at hscore
        have hlenle : ((positionsOf
            (fun m => decide (m.genre = genre) && decide (m.industry = industry)) ms).filter
              (fun j => decide (j ≠ i))).length ≤ ms.length := by
          refine le_trans (List.length_filter_le _ _) ?_
          unfold positionsOf
          refine le_trans (List.length_filter_le _ _) ?_
          rw [List.length_range]
        have hmean := mean_ge_half (((positionsOf
            (fun m => decide (m.genre = genre) && decide (m.industry = industry)) ms).filter
              (fun j => decide (j ≠ i))).map (fun j =>
                calculateSimilarity (ms.getD i defaultMovie) (ms.getD j defaultMovie)))
          (by
            intro x hx
            obtain ⟨j, hj, rfl⟩ := List.mem_map.1 hx
            obtain ⟨hjlt, hjp⟩ := mem_positionsOf.1 (List.mem_filter.1 hj).1
            simp only [Bool.and_eq_true, decide_eq_true_eq] at hjp
            exact calculateSimilarity_group (ms.getD i defaultMovie)
              (ms.getD j defaultMovie) (hip.1.trans hjp.1.symm) (hip.2.trans hjp.2.symm)
              (hrat _ (getD_mem ms i hilt)) (hrat _ (getD_mem ms j hjlt)))
          (by simpa using hnil)
          (by
            rw [List.length_map]
            have h53 : (2 : Nat) ^ 31 ≤ 2 ^ 53 := by norm_num
            omega)
        rw [List.length_map] at hmean
        generalize Binary64.div (Binary64.sum (((positionsOf
            (fun m => decide (m.genre = genre) && decide (m.industry = industry)) ms).filter
              (fun j => decide (j ≠ i))).map (fun j =>
                calculateSimilarity (ms.getD i defaultMovie) (ms.getD j defaultMovie))))
          (((positionsOf
            (fun m => decide (m.genre = genre) && decide (m.industry = industry)) ms).filter
              (fun j => decide (j ≠ i))).length : ℚ) = mean at hscore hmean
        have hv : 2 ≤ Binary64.mul (Binary64.lit 4.0) mean := by
          unfold Binary64.mul
          rw [lit_values.2.2.2.1]
          have := @Binary64.round_mono 2 (4 * mean) (by linarith)
          rwa [show Binary64.round 2 = 2 by decide!] at this
        have hgt := Binary64.lt_add_of_two_le hp.1 hp.2 hv
        rw [hscore] at hgt
        exact lt_irrefl _ hgt
      · intro hlen
        obtain ⟨a, ha⟩ := List.length_eq_one.1 hlen
        have hia : i = a := by
          rw [ha, List.mem_singleton] at hi
          exact hi
        have hnil : ([a].filter (fun j => decide (j ≠ a))) = [] := by simp
        rw [ha, hia, hnil]
        simp only [if_true]
        unfold Binary64.add Binary64.mul
        rw [mul_zero, Binary64.round_zero, add_zero, Binary64.round_idem]

/-- Witness of C26: the candidates of ("Sci-Fi", "Hollywood") on the two-movie sample
catalog, whose group has two members. -/
theorem compositeScore_whole_group_witness :
    (∀ m ∈ [inception, interstellar], 0 ≤ m.rating ∧ m.rating ≤ 10)
    ∧ movieScores (ofCatalog [inception, interstellar]) "Sci-Fi" "Hollywood"
        (positionsOf (fun m => decide (m.genre = "Sci-Fi") && decide (m.industry = "Hollywood"))
          [inception, interstellar])
      = some ((positionsOf
          (fun m => decide (m.genre = "Sci-Fi") && decide (m.industry = "Hollywood"))
          [inception, interstellar]).map
            (fun i => (groupScoreSpec [inception, interstellar] "Sci-Fi" "Hollywood" i, i)))
    ∧ (compositeScoreSpec [inception, interstellar]
          (ofCatalog [inception, interstellar]).adjList "Sci-Fi" "Hollywood" 0
        = Binary64.mul ([inception, interstellar].getD 0 defaultMovie).rating (Binary64.lit 0.6)
      ↔ ([inception, interstellar].filter (fun m =>
          decide (m.genre = "Sci-Fi") && decide (m.industry = "Hollywood"))).length = 1) :=
  ⟨by decide!,
    (compositeScore_whole_group [inception, interstellar] (by decide!) "Sci-Fi" "Hollywood").1,
    ((compositeScore_whole_group [inception, interstellar] (by decide!) "Sci-Fi"
      "Hollywood").2 0 (by decide!)).2.2 (by decide)⟩

/-- C29: for a catalog added in the same order to both recommenders, with the graph built,
and k at least the number of matching movies, `recommendByGenreGraph` and
`recommendByGenreAndIndustry` return permutations of one another. -/
theorem recommendByGenreGraph_perm_content (sort : List (ℚ × Nat) → List (ℚ × Nat))
    (hsort : IsStdSort sort) (ms : List Movie) (genre industry : String) (k : Int)
    (hk : ((ms.filter (fun m =>
      decide (m.genre = genre) && decide (m.industry = industry))).length : Int) ≤ k) :
    ∃ l1 l2, recommendByGenreGraph sort (ofCatalog ms) genre industry k = some l1
      ∧ ContentBasedRecommender.recommendByGenreAndIndustry sort
          (ContentBasedRecommender.ofCatalog ms) genre industry k = some l2
      ∧ l1.Perm l2 := by
  obtain ⟨order, hperm, -, hres⟩ := recommendByGenreGraph_order sort hsort ms genre industry k
  obtain ⟨ret, rest, hres2, hperm2, hlen2, -, -⟩ := takeTopN_sort_spec sort hsort ms
    (fun m => decide (m.genre = genre) && decide (m.industry = industry)) k
  refine ⟨_, _, hres,
    (ContentBasedRecommender.recommendByGenreAndIndustry_takeTopN sort hsort ms genre industry
      k).trans hres2, ?_⟩
  have htake : order.take (min k ((ms.filter (fun m =>
      decide (m.genre = genre) && decide (m.industry = industry))).length : Int)).toNat
      = order := by
    apply List.take_of_length_le
    rw [hperm.length_eq, positionsOf_length]
    omega
  rw [htake]
  apply List.Perm.map
  refine hperm.trans (List.Perm.symm ?_)
  apply perm_of_length_le hperm2
  rw [hlen2, positionsOf_length]
  omega

/-- Witness of C29 on the two-movie sample catalog with k = 5. -/
theorem recommendByGenreGraph_perm_content_witness :
    ∃ l1 l2, recommendByGenreGraph stableSort (ofCatalog [inception, interstellar])
        "Sci-Fi" "Hollywood" 5 = some l1
      ∧ ContentBasedRecommender.recommendByGenreAndIndustry stableSort
          (ContentBasedRecommender.ofCatalog [inception, interstellar])
          "Sci-Fi" "Hollywood" 5 = some l2
      ∧ l1.Perm l2 :=
  recommendByGenreGraph_perm_content stableSort isStdSort_stableSort
    [inception, interstellar] "Sci-Fi" "Hollywood" 5 (by decide)

end GraphBasedRecommender

/-! ## The positions returned for a title -/

namespace GraphBasedRecommender

/-- The positions that `findSimilarMovies` looks up for a known title: a part of the
neighbour positions of the resolved movie, which hold neither that movie nor a position
twice. -/
theorem findSimilarMovies_picked (sort : List (ℚ × Nat) → List (ℚ × Nat))
    (hsort : IsStdSort sort) (ms : List Movie) (title : String) (k : Int)
    (hknown : ∃ m ∈ ms, m.title = title) :
    ∃ movieId, StrMap.find (ofCatalog ms).titleToId title = some movieId
      ∧ findSimilarMovies sort (ofCatalog ms) title k
        = some ((((sort (((ofCatalog ms).adjList.getD movieId []).map
            (fun e => (e.2, e.1)))).take
              (min k ((sort (((ofCatalog ms).adjList.getD movieId []).map
                (fun e => (e.2, e.1)))).length : Int)).toNat).map Prod.snd).map
            (fun i => ms.getD i defaultMovie))
      ∧ movieId ∉ ((sort (((ofCatalog ms).adjList.getD movieId []).map
            (fun e => (e.2, e.1)))).take
              (min k ((sort (((ofCatalog ms).adjList.getD movieId []).map
                (fun e => (e.2, e.1)))).length : Int)).toNat).map Prod.snd
      ∧ (((sort (((ofCatalog ms).adjList.getD movieId []).map
            (fun e => (e.2, e.1)))).take
              (min k ((sort (((ofCatalog ms).adjList.getD movieId []).map
                (fun e => (e.2, e.1)))).length : Int)).toNat).map Prod.snd).Nodup := by
  have hne : positionsOf (fun m => decide (m.title = title)) ms ≠ [] := by
    intro hnil
    obtain ⟨m, hm, ht⟩ := hknown
    have := (positionsOf_eq_nil_iff _ ms).1 hnil m hm
    simp [ht] at this
  obtain ⟨movieId, hlast⟩ : ∃ movieId,
      (positionsOf (fun m => decide (m.title = title)) ms).getLast? = some movieId := by
    cases hl : (positionsOf (fun m => decide (m.title = title)) ms).getLast? with
    | none => exact absurd (List.getLast?_eq_none_iff.1 hl) hne
    | some movieId => exact ⟨movieId, rfl⟩
  have hfind : StrMap.find (ofCatalog ms).titleToId title = some movieId := by
    rw [graph_titleToId, hlast]
  have hlt : movieId < ms.length := graph_titleToId_lt ms title movieId hfind
  have hperm : ((sort (((ofCatalog ms).adjList.getD movieId []).map
      (fun e => (e.2, e.1)))).map Prod.snd).Perm
      (((ofCatalog ms).adjList.getD movieId []).map Prod.fst) := by
    have h := ((hsort (((ofCatalog ms).adjList.getD movieId []).map
      (fun e => (e.2, e.1)))).1).map Prod.snd
    simpa [List.map_map, Function.comp_def] using h
  have hsub : (((sort (((ofCatalog ms).adjList.getD movieId []).map
      (fun e => (e.2, e.1)))).take
        (min k ((sort (((ofCatalog ms).adjList.getD movieId []).map
          (fun e => (e.2, e.1)))).length : Int)).toNat).map Prod.snd).Sublist
      ((sort (((ofCatalog ms).adjList.getD movieId []).map
        (fun e => (e.2, e.1)))).map Prod.snd) :=
    (List.take_sublist _ _).map _
  have hnodup : (((ofCatalog ms).adjList.getD movieId []).map Prod.fst).Nodup :=
    (adjList_pairwise_lt ms movieId).imp (fun h => Nat.ne_of_lt h)
  have hself : movieId ∉ ((ofCatalog ms).adjList.getD movieId []).map Prod.fst := by
    intro hmem
    obtain ⟨⟨j, sc⟩, he, hj⟩ := List.mem_map.1 hmem
    simp only at hj
    subst hj
    exact ((mem_adjList_iff ms j j sc).1 he).2.2.1 rfl
  refine ⟨movieId, hfind, ?_, ?_, ?_⟩
  · rw [findSimilarMovies_cases, hlast]
    simp only
    rw [← adjList_getD ms movieId hlt, takeTopN_eq]
    intro x hx
    have hx' : x.2 ∈ ((ofCatalog ms).adjList.getD movieId []).map Prod.fst :=
      hperm.mem_iff.1 (List.mem_map.2 ⟨x, hx, rfl⟩)
    obtain ⟨e, he, hex⟩ := List.mem_map.1 hx'
    rw [← hex]
    rw [adjList_getD ms movieId hlt] at he
    exact neighboursSpec_lt ms movieId e he
  · intro hmem
    exact hself (hperm.mem_iff.1 (hsub.subset hmem))
  · exact (hperm.nodup_iff.2 hnodup).sublist hsub

/-- C31: on a catalog with its graph built, for every known title and every k, the list
returned by `findSimilarMovies` holds the movies of positions that never include the
position the title resolved to and never include a position twice. -/
theorem findSimilarMovies_no_self_no_duplicate (sort : List (ℚ × Nat) → List (ℚ × Nat))
    (hsort : IsStdSort sort) (ms : List Movie) (title : String) (k : Int)
    (hknown : ∃ m ∈ ms, m.title = title) :
    ∃ movieId, StrMap.find (ofCatalog ms).titleToId title = some movieId
      ∧ findSimilarMovies sort (ofCatalog ms) title k
        = some ((((sort (((ofCatalog ms).adjList.getD movieId []).map
            (fun e => (e.2, e.1)))).take
              (min k ((sort (((ofCatalog ms).adjList.getD movieId []).map
                (fun e => (e.2, e.1)))).length : Int)).toNat).map Prod.snd).map
            (fun i => ms.getD i defaultMovie))
      ∧ movieId ∉ ((sort (((ofCatalog ms).adjList.getD movieId []).map
            (fun e => (e.2, e.1)))).take
              (min k ((sort (((ofCatalog ms).adjList.getD movieId []).map
                (fun e => (e.2, e.1)))).length : Int)).toNat).map Prod.snd
      ∧ (((sort (((ofCatalog ms).adjList.getD movieId []).map
            (fun e => (e.2, e.1)))).take
              (min k ((sort (((ofCatalog ms).adjList.getD movieId []).map
                (fun e => (e.2, e.1)))).length : Int)).toNat).map Prod.snd).Nodup :=
  findSimilarMovies_picked sort hsort ms title k hknown

/-- Witness of C31: the title "The Matrix" on a catalog that carries it at positions 0 and
2; the positions looked up are 0 and 1, not the resolved position 2. -/
theorem findSimilarMovies_no_self_no_duplicate_witness :
    (∃ movieId,
      StrMap.find (ofCatalog [matrixSciFi, theDarkKnight, matrixAction]).titleToId "The Matrix"
        = some movieId
      ∧ findSimilarMovies stableSort (ofCatalog [matrixSciFi, theDarkKnight, matrixAction])
          "The Matrix" 3
        = some ((((stableSort
            (((ofCatalog [matrixSciFi, theDarkKnight, matrixAction]).adjList.getD movieId
              []).map (fun e => (e.2, e.1)))).take
              (min 3 ((stableSort
                (((ofCatalog [matrixSciFi, theDarkKnight, matrixAction]).adjList.getD movieId
                  []).map (fun e => (e.2, e.1)))).length : Int)).toNat).map Prod.snd).map
            (fun i => [matrixSciFi, theDarkKnight, matrixAction].getD i defaultMovie))
      ∧ movieId ∉ ((stableSort
            (((ofCatalog [matrixSciFi, theDarkKnight, matrixAction]).adjList.getD movieId
              []).map (fun e => (e.2, e.1)))).take
              (min 3 ((stableSort
                (((ofCatalog [matrixSciFi, theDarkKnight, matrixAction]).adjList.getD movieId
                  []).map (fun e => (e.2, e.1)))).length : Int)).toNat).map Prod.snd
      ∧ (((stableSort
            (((ofCatalog [matrixSciFi, theDarkKnight, matrixAction]).adjList.getD movieId
              []).map (fun e => (e.2, e.1)))).take
              (min 3 ((stableSort
                (((ofCatalog [matrixSciFi, theDarkKnight, matrixAction]).adjList.getD movieId
                  []).map (fun e => (e.2, e.1)))).length : Int)).toNat).map Prod.snd).Nodup)
    ∧ ((stableSort
          (((ofCatalog [matrixSciFi, theDarkKnight, matrixAction]).adjList.getD 2 []).map
            (fun e => (e.2, e.1)))).take 3).map Prod.snd = [0, 1] :=
  ⟨findSimilarMovies_no_self_no_duplicate stableSort isStdSort_stableSort
      [matrixSciFi, theDarkKnight, matrixAction] "The Matrix" 3
      ⟨matrixSciFi, by simp, rfl⟩,
    by decide!⟩

end GraphBasedRecommender

end MovieRec
